import Mathlib

/-!
Reassembler, TCPReceiver and TCPSender of the user-space TCP engine

A shallow embedding of `src/reassembler.cc`, `src/tcp_receiver.cc` and `src/tcp_sender.cc`.

* `std::string` is a list of characters, `std::map<uint64_t, std::string>` is the list of
  its entries in key order (the order in which the C++ code iterates over it).
* `uint64_t` values are natural numbers.  The places where the C++ arithmetic can wrap
  are written with an explicit reduction modulo `2 ^ 64`: the total length
  `first_index + data.length()` that `Reassembler::insert` records, the capacity
  computation at the top of `Reassembler::store` and the updates of the counter
  `bytes_pending_`.  Inside `store` the stream indices are taken below `2 ^ 64`
  (`Call.wf`), so `first_index + data.length()` does not wrap there; the fragments of the
  store are never empty while `store` runs, so `first + length - 1` does not wrap below
  zero either.
* `ByteStream`, `Wrap32`, the two message types and the data members of `TCPReceiver` are
  declared in headers that are not part of the sources at hand; they follow the
  specification.
* The `uint64_t` members of `TCPSender` are natural numbers as well, and every sum,
  difference and product that the methods compute on them is reduced modulo `2 ^ 64`
  (`current_time_ + ms`, `current_time_ + rto_`, `rto_ * 2`, `retrans_cnt_ + 1`,
  `current_seq_ + sequence_length`, `in_flight_cnt_ ± sequence_length`).  The loops of
  `push` take a bound on their number of iterations and return `none` when it is used up;
  the theorems show that the bound given is never reached.
-/

namespace CS144

/-- The bytes of a `std::string`. -/
abbrev Bytes := List Char

/-- Subtraction of `uint64_t` values: the result wraps modulo `2 ^ 64`. -/
def u64sub (a b : Nat) : Nat := (a + 2 ^ 64 - b % 2 ^ 64) % 2 ^ 64

/-- Addition of `uint64_t` values: the result wraps modulo `2 ^ 64`. -/
def u64add (a b : Nat) : Nat := (a + b) % 2 ^ 64

/-! ## ByteStream -/

/-- Modelled from the spec: the class `ByteStream` (`byte_stream.hh`, `byte_stream.cc`) is
not among the sources; the fields and operations follow sections 3 and 4.1 of the
specification.  `buffer_` holds the bytes pushed and not yet popped. -/
structure ByteStream where
  capacity_ : Nat
  buffer_ : Bytes
  bytes_pushed_ : Nat
  bytes_popped_ : Nat
  closed_ : Bool
  error_ : Bool
deriving DecidableEq

namespace ByteStream

/-- Modelled from the spec: a new stream of the given capacity. -/
def fresh (capacity : Nat) : ByteStream :=
  { capacity_ := capacity, buffer_ := [], bytes_pushed_ := 0, bytes_popped_ := 0,
    closed_ := false, error_ := false }

/-- Modelled from the spec: `bytes_buffered`. -/
def bytes_buffered (b : ByteStream) : Nat := b.buffer_.length

/-- Modelled from the spec: `available_capacity = capacity − buffered`. -/
def available_capacity (b : ByteStream) : Nat := b.capacity_ - b.bytes_buffered

/-- Modelled from the spec: `push(data)` accepts up to `available_capacity` bytes, the
excess is silently discarded; no-op if the writer is closed or the stream has an error. -/
def push (b : ByteStream) (data : Bytes) : ByteStream :=
  if b.closed_ || b.error_ then b
  else
    let accepted := data.take b.available_capacity
    { b with buffer_ := b.buffer_ ++ accepted,
             bytes_pushed_ := b.bytes_pushed_ + accepted.length }

/-- Modelled from the spec: `close()` sets `writer_closed`. -/
def close (b : ByteStream) : ByteStream := { b with closed_ := true }

/-- Modelled from the spec: `set_error()` sets the sticky error flag and does not close. -/
def set_error (b : ByteStream) : ByteStream := { b with error_ := true }

/-- Modelled from the spec: `pop(n)` removes `min(n, buffered)` bytes. -/
def pop (b : ByteStream) (n : Nat) : ByteStream :=
  { b with buffer_ := b.buffer_.drop n,
           bytes_popped_ := b.bytes_popped_ + min n b.bytes_buffered }

/-- Modelled from the spec: `is_finished = writer_closed ∧ buffered = 0`. -/
def is_finished (b : ByteStream) : Bool := b.closed_ && b.bytes_buffered == 0

end ByteStream

/-! ## The pending store `std::map<uint64_t, std::string>` -/

/-- One entry of `pending_substr_`: the first index of a fragment and its bytes. -/
abbrev Frag := Nat × Bytes

/-- The entries of `pending_substr_` in key order. -/
abbrev PendingMap := List Frag

namespace PendingMap

/-- The operation `std::map::contains`. -/
def contains (m : PendingMap) (key : Nat) : Bool := m.any (fun node => node.1 == key)

/-- The operation `std::map::operator[]` on a key that may be absent (a missing key maps to `""`). -/
def at_ (m : PendingMap) (key : Nat) : Bytes :=
  match m.find? (fun node => node.1 == key) with
  | some node => node.2
  | none => []

/-- The operation `std::map::erase(key)`. -/
def erase (m : PendingMap) (key : Nat) : PendingMap := m.filter (fun node => node.1 != key)

/-- The operation `std::map::emplace(key, value)`: the entry is put at its place in key order; nothing
happens when the key is already present. -/
def emplace : PendingMap → Nat → Bytes → PendingMap
  | [], key, value => [(key, value)]
  | node :: rest, key, value =>
      if key < node.1 then (key, value) :: node :: rest
      else if key = node.1 then node :: rest
      else node :: emplace rest key value

/-- The position of `std::map::lower_bound(key)`: the first entry whose key is `≥ key`. -/
def lower_bound (m : PendingMap) (key : Nat) : Nat :=
  (m.takeWhile (fun node => node.1 < key)).length

/-- The position of `std::map::upper_bound(key)`: the first entry whose key is `> key`. -/
def upper_bound (m : PendingMap) (key : Nat) : Nat :=
  (m.takeWhile (fun node => node.1 ≤ key)).length

/-- Assignment through a reference to the mapped value of the entry with the given key. -/
def assign (m : PendingMap) (key : Nat) (value : Bytes) : PendingMap :=
  m.map (fun node => if node.1 = key then (node.1, value) else node)

/-- The number of bytes held in the store: the sum of the fragment lengths. -/
def total_bytes (m : PendingMap) : Nat := (m.map (fun node => node.2.length)).sum

end PendingMap

/-! ## Reassembler -/

/-- The data members of `class Reassembler` (`reassembler.hh`). -/
structure Reassembler where
  output_ : ByteStream
  pending_substr_ : PendingMap
  bytes_pending_ : Nat
  next_index_ : Nat
  total_pushed_len_ : Option Nat
deriving DecidableEq

namespace Reassembler

/-- The constructor: a Reassembler writing into a new stream of the given capacity. -/
def fresh (capacity : Nat) : Reassembler :=
  { output_ := ByteStream.fresh capacity, pending_substr_ := [], bytes_pending_ := 0,
    next_index_ := 0, total_pushed_len_ := none }

/-- The method `Reassembler::bytes_pending`. -/
def bytes_pending (r : Reassembler) : Nat := r.bytes_pending_

/-- The method `Reassembler::truncate_head`: `data.erase(0, next_index_ - old_index)`, returning the
new first index and the shortened data. -/
def truncate_head (r : Reassembler) (old_index : Nat) (data : Bytes) : Nat × Bytes :=
  (r.next_index_, data.drop (r.next_index_ - old_index))

/-- The method `Reassembler::write`. -/
def write (r : Reassembler) (data : Bytes) : Reassembler :=
  let out := r.output_.push data
  { r with output_ := out, next_index_ := out.bytes_pushed_ }

/-- The predicate of `std::erase_if` at line 128 of `store`: the entry `node` lies inside
the new fragment `[first_index, final_index]`. -/
def inside_new (first_index final_index : Nat) (node : Frag) : Bool :=
  decide (node.1 ≥ first_index ∧ node.1 + node.2.length - 1 ≤ final_index)

/-- The test at line 140 of `store`: the new fragment `[first_index, final_index]` lies
inside the entry `node`. -/
def inside_stored (first_index final_index : Nat) (node : Frag) : Bool :=
  decide (first_index ≥ node.1 ∧ final_index ≤ node.1 + node.2.length - 1)

/-- Lines 125-135 of `store`: `std::erase_if` removes every entry that the new fragment
covers and takes its length off `bytes_pending_`. -/
def erase_covered : PendingMap → Nat → Nat → Nat → PendingMap × Nat
  | [], bytes_pending, _, _ => ([], bytes_pending)
  | node :: rest, bytes_pending, first_index, final_index =>
      if inside_new first_index final_index node then
        erase_covered rest (u64sub bytes_pending node.2.length) first_index final_index
      else
        let res := erase_covered rest bytes_pending first_index final_index
        (node :: res.1, res.2)

/-- Lines 138-144 of `store`: is the new fragment inside one of the stored ones? -/
def covered_by_stored (m : PendingMap) (first_index final_index : Nat) : Bool :=
  m.any (inside_stored first_index final_index)

/-- The body of the loop at lines 168-181 of `store` for `node` and the key of its
successor: the tail of `node` that reaches the successor is cut off. -/
def trim_tail (node : Frag) (next_first_index : Nat) (bytes_pending : Nat) : Frag × Nat :=
  let this_final_index := node.1 + node.2.length - 1
  if this_final_index ≥ next_first_index then
    let len := this_final_index - next_first_index + 1
    ((node.1, node.2.take (node.2.length - len)), u64sub bytes_pending len)
  else (node, bytes_pending)

/-- The loop at lines 168-181 of `store`: `skip` is the position of `begin_node` and
`count` the number of iterations, that is the distance from `begin_node` to the entry
before `end_node` (`begin_node` lies before `end_node`: its key is at most `first_index`,
the key of `end_node` is beyond `final_index`). -/
def trim_walk : Nat → Nat → PendingMap → Nat → PendingMap × Nat
  | _, _, [], bytes_pending => ([], bytes_pending)
  | skip + 1, count, node :: rest, bytes_pending =>
      let res := trim_walk skip count rest bytes_pending
      (node :: res.1, res.2)
  | 0, 0, node :: rest, bytes_pending => (node :: rest, bytes_pending)
  | 0, _ + 1, [node], bytes_pending => ([node], bytes_pending)
  | 0, count + 1, node :: next_node :: rest, bytes_pending =>
      let cut := trim_tail node next_node.1 bytes_pending
      let res := trim_walk 0 count (next_node :: rest) cut.2
      (cut.1 :: res.1, res.2)

/-- Lines 125-181 of `store`: the new fragment meets a non-empty store that has no entry
under its key any more. -/
def store_merge (r : Reassembler) (first_index : Nat) (data : Bytes) (final_index : Nat) :
    Reassembler :=
  let erased := erase_covered r.pending_substr_ r.bytes_pending_ first_index final_index
  if covered_by_stored erased.1 first_index final_index then
    { r with pending_substr_ := erased.1, bytes_pending_ := erased.2 }
  else
    let m := erased.1.emplace first_index data
    let begin_node := m.lower_bound first_index
    let end_node := m.upper_bound final_index
    let begin_node := if begin_node ≠ 0 then begin_node - 1 else begin_node
    let walked := trim_walk begin_node (end_node - 1 - begin_node) m
                    (u64add erased.2 data.length)
    { r with pending_substr_ := walked.1, bytes_pending_ := walked.2 }

/-- Lines 74-78 of `store`: the data is cut at the end of the capacity window; the
subtraction is done in `uint64_t`. -/
def clip_to_capacity (r : Reassembler) (first_index : Nat) (data : Bytes) : Bytes :=
  let len := u64sub r.output_.available_capacity (first_index - r.next_index_)
  if data.length ≥ len then data.take len else data

/-- The method `Reassembler::store`. -/
def store (r : Reassembler) (first_index : Nat) (data : Bytes) : Reassembler :=
  let data := r.clip_to_capacity first_index data
  if data.isEmpty then r
  else if r.pending_substr_.isEmpty then
    { r with bytes_pending_ := u64add r.bytes_pending_ data.length,
             pending_substr_ := r.pending_substr_.emplace first_index data }
  else
    let final_index := first_index + data.length - 1
    if r.pending_substr_.contains first_index then
      if (r.pending_substr_.at_ first_index).length ≥ data.length then r
      else
        let mapped_data := r.pending_substr_.at_ first_index
        store_merge
          { r with bytes_pending_ := u64sub r.bytes_pending_ mapped_data.length,
                   pending_substr_ := r.pending_substr_.erase first_index }
          first_index data final_index
    else store_merge r first_index data final_index

/-- The method `Reassembler::insert_or_store`. -/
def insert_or_store (r : Reassembler) (first_index : Nat) (data : Bytes) : Reassembler :=
  let cut := if first_index < r.next_index_ then r.truncate_head first_index data
             else (first_index, data)
  if cut.1 > r.next_index_ then r.store cut.1 cut.2 else r.write cut.2

/-- The range-for loop of `Reassembler::write_stored_str` over the entries of the store in
key order: an entry that starts at or before `next_index_` is emptied in place, taken off
`bytes_pending_` and handed to `insert_or_store`.  The list argument is what remains of the
iteration; `insert_or_store` is called with a first index `≤ next_index_` here, so it
writes and never touches the store under the iterator. -/
def write_stored_loop : PendingMap → Reassembler → Reassembler
  | [], r => r
  | node :: rest, r =>
      if node.1 ≤ r.next_index_ then
        let r1 := { r with pending_substr_ := r.pending_substr_.assign node.1 [],
                           bytes_pending_ := u64sub r.bytes_pending_ node.2.length }
        write_stored_loop rest (r1.insert_or_store node.1 node.2)
      else write_stored_loop rest r

/-- The method `Reassembler::write_stored_str`: the loop, then `std::erase_if` of the emptied
entries. -/
def write_stored_str (r : Reassembler) : Reassembler :=
  let r1 := write_stored_loop r.pending_substr_ r
  { r1 with pending_substr_ := r1.pending_substr_.filter (fun node => !node.2.isEmpty) }

/-- The method `Reassembler::insert`; the sum `first_index + data.length()` at line 13 is
computed in `uint64_t`. -/
def insert (r : Reassembler) (first_index : Nat) (data : Bytes) (is_last_substring : Bool) :
    Reassembler :=
  let r0 := if is_last_substring then
              { r with total_pushed_len_ := some (u64add first_index data.length) }
            else r
  let r1 := r0.insert_or_store first_index data
  let r2 := r1.write_stored_str
  if r2.total_pushed_len_ = some r2.output_.bytes_pushed_ then
    { r2 with output_ := r2.output_.close }
  else r2

end Reassembler

/-- One call of `Reassembler::insert`. -/
structure Call where
  first_index : Nat
  data : Bytes
  is_last_substring : Bool
deriving DecidableEq

/-- The arguments fit `uint64_t` arithmetic: `first_index + data.length()` does not wrap. -/
def Call.wf (c : Call) : Prop := c.first_index + c.data.length < 2 ^ 64

instance (c : Call) : Decidable c.wf := by unfold Call.wf; infer_instance

/-- A sequence of `insert` calls, the first call first. -/
def Reassembler.run (r : Reassembler) (calls : List Call) : Reassembler :=
  calls.foldl (fun r c => r.insert c.first_index c.data c.is_last_substring) r

/-- The states of a Reassembler that starts on a new stream and receives `insert` calls
whose arguments fit `uint64_t`. -/
def Reachable (r : Reassembler) : Prop :=
  ∃ (capacity : Nat) (calls : List Call),
    capacity < 2 ^ 64 ∧ (∀ c ∈ calls, c.wf) ∧ r = (Reassembler.fresh capacity).run calls

/-! ## Wrap32 and the segment types -/

/-- Modelled from the spec: the class `Wrap32` (`wrapping_integers.hh`,
`wrapping_integers.cc`) is not among the sources; a 32-bit sequence number, with the
operations of sections 3 and 4.2 of the specification. -/
structure Wrap32 where
  raw_value_ : Nat
deriving DecidableEq

namespace Wrap32

/-- Modelled from the spec: `wrap(n, zero_point) = (zero_point + (n mod 2^32)) mod 2^32`. -/
def wrap (n : Nat) (zero_point : Wrap32) : Wrap32 :=
  ⟨(zero_point.raw_value_ + n % 2 ^ 32) % 2 ^ 32⟩

/-- Modelled from the spec: `Wrap32 + n`, the 32-bit modular addition that `wrap` is. -/
def add (w : Wrap32) (n : Nat) : Wrap32 := ⟨(w.raw_value_ + n) % 2 ^ 32⟩

/-- Modelled from the spec: `unwrap(zero_point, checkpoint)`: with the offset
`d = (self − wrap(checkpoint, zero_point)) mod 2^32` the candidate is
`checkpoint + d − (d > 2^31 ? 2^32 : 0)`; when that would be negative the smaller
non-negative candidate `checkpoint + d` is taken. -/
def unwrap (self zero_point : Wrap32) (checkpoint : Nat) : Nat :=
  let d := (self.raw_value_ % 2 ^ 32 + 2 ^ 32 - (wrap checkpoint zero_point).raw_value_) % 2 ^ 32
  if d > 2 ^ 31 ∧ checkpoint + d ≥ 2 ^ 32 then checkpoint + d - 2 ^ 32 else checkpoint + d

end Wrap32

/-- Modelled from the spec: `TCPSenderMessage` (`tcp_sender_message.hh` is not among the
sources), section 3 of the specification. -/
structure TCPSenderMessage where
  seqno : Wrap32
  SYN : Bool
  payload : Bytes
  FIN : Bool
  RST : Bool
deriving DecidableEq

/-- Modelled from the spec: `TCPReceiverMessage` (`tcp_receiver_message.hh` is not among
the sources), section 3 of the specification. -/
structure TCPReceiverMessage where
  ackno : Option Wrap32
  window_size : Nat
  RST : Bool
deriving DecidableEq

/-! ## TCPReceiver -/

/-- Modelled from the spec: the data members of `class TCPReceiver` (`tcp_receiver.hh` is
not among the sources), named as `tcp_receiver.cc` uses them. -/
structure TCPReceiver where
  reassembler_ : Reassembler
  zero_point : Wrap32
  is_zero_point_set : Bool
  RST_ : Bool
  next_ackno : Wrap32
deriving DecidableEq

namespace TCPReceiver

/-- Modelled from the spec: a new receiver on a new stream of the given capacity: no SYN
received, no reset. -/
def fresh (capacity : Nat) : TCPReceiver :=
  { reassembler_ := Reassembler.fresh capacity, zero_point := ⟨0⟩, is_zero_point_set := false,
    RST_ := false, next_ackno := ⟨0⟩ }

/-- The method `TCPReceiver::receive`. -/
def receive (t : TCPReceiver) (message : TCPSenderMessage) : TCPReceiver :=
  if message.RST then
    let rs := { t.reassembler_ with output_ := t.reassembler_.output_.set_error }
    { t with reassembler_ := rs, RST_ := rs.output_.error_ }
  else if t.RST_ then t
  else
    let accept := message.SYN && !t.is_zero_point_set
    let t1 := if accept then { t with zero_point := message.seqno, is_zero_point_set := true }
              else t
    let seqno := if accept then message.seqno.add 1 else message.seqno
    if !t1.is_zero_point_set then t1
    else
      let first_index := seqno.unwrap t1.zero_point t1.reassembler_.output_.bytes_pushed_
      if first_index = 0 then t1
      else
        let first_index := first_index - 1
        let rs := t1.reassembler_.insert first_index message.payload message.FIN
        { t1 with
            reassembler_ := rs,
            next_ackno :=
              (((t1.zero_point.add (if t1.is_zero_point_set then 1 else 0)).add
                rs.output_.bytes_pushed_).add (if rs.output_.closed_ then 1 else 0)) }

/-- The method `TCPReceiver::send`. -/
def send (t : TCPReceiver) : TCPReceiverMessage :=
  { ackno := if t.is_zero_point_set then some t.next_ackno else none,
    RST := t.reassembler_.output_.error_,
    window_size :=
      if t.reassembler_.output_.available_capacity > 65535 then 65535
      else t.reassembler_.output_.available_capacity }

/-- A sequence of `receive` calls, the first segment first. -/
def run (t : TCPReceiver) (msgs : List TCPSenderMessage) : TCPReceiver :=
  msgs.foldl receive t

end TCPReceiver

/-- The sequence number of the first SYN that a new receiver accepts among the segments:
the first segment with SYN, unless a segment with RST comes before it. -/
def first_syn : List TCPSenderMessage → Option Wrap32
  | [] => none
  | m :: rest => if m.RST then none else if m.SYN then some m.seqno else first_syn rest

/-! ## Predicates and auxiliary functions of the proofs -/

/-- The counter `bytes_pending_` agrees with the bytes held in the store. -/
def Exact (bytes_pending : Nat) (m : PendingMap) : Prop :=
  bytes_pending = m.total_bytes % 2 ^ 64

/-- The fragments are non-empty and each ends before the next one starts. -/
def PInv (m : PendingMap) : Prop :=
  m.Pairwise (fun a b => a.1 + a.2.length ≤ b.1) ∧ ∀ f ∈ m, f.2 ≠ []

/-- A byte position is held by a fragment of the store. -/
def Cov (m : PendingMap) (p : Nat) : Prop :=
  ∃ f ∈ m, f.1 ≤ p ∧ p < f.1 + f.2.length

/-- The fragment that `trim_tail` leaves. -/
def cutAt (f : Frag) (k : Nat) : Frag := (Reassembler.trim_tail f k 0).1

/-- Every fragment of the list is trimmed against the key of its successor. -/
def trim_all : PendingMap → PendingMap
  | [] => []
  | [x] => [x]
  | x :: y :: r => cutAt x y.1 :: trim_all (y :: r)

/-- Each fragment ends before the later ones start. -/
def Disj (m : PendingMap) : Prop := m.Pairwise (fun a b => a.1 + a.2.length ≤ b.1)

/-- What `store` guarantees about the store `m2` it leaves, given the store `m` it found
and the fragment it was asked to keep. -/
structure Merged (m2 m : PendingMap) (first : Nat) (data : Bytes) : Prop where
  pinv : PInv m2
  src : ∀ f ∈ m2, (f.1 = first ∧ f.2 <+: data) ∨ (∃ g ∈ m, g.1 = f.1 ∧ f.2 <+: g.2)
  cov : ∀ p, Cov m p ∨ (first ≤ p ∧ p < first + data.length) → Cov m2 p

/-- What `write_stored_str` computes: the leading fragments that start at or before
`next_index_` are written one after the other, the others stay. -/
def drain : PendingMap → Reassembler → Reassembler
  | [], r => { r with pending_substr_ := [] }
  | node :: rest, r =>
      if node.1 ≤ r.next_index_ then
        drain rest
          (Reassembler.write { r with bytes_pending_ := u64sub r.bytes_pending_ node.2.length }
            (node.2.drop (r.next_index_ - node.1)))
      else { r with pending_substr_ := node :: rest }

/-- The last statement of `write_stored_str`: the emptied entries are erased. -/
def drop_emptied (r : Reassembler) : Reassembler :=
  { r with pending_substr_ := r.pending_substr_.filter (fun node => !node.2.isEmpty) }

/-- The part of the invariant that holds between the statements of `insert`. -/
structure Pre (r : Reassembler) : Prop where
  pinv : PInv r.pending_substr_
  exact : Exact r.bytes_pending_ r.pending_substr_
  next : r.next_index_ = r.output_.bytes_pushed_
  bound : ∀ f ∈ r.pending_substr_, f.1 + f.2.length < 2 ^ 64

/-- The invariant of the Reassembler between two calls of `insert`. -/
structure Inv (r : Reassembler) : Prop where
  pre : Pre r
  keys : ∀ f ∈ r.pending_substr_, r.next_index_ < f.1
  closed : r.total_pushed_len_ = some r.output_.bytes_pushed_ → r.output_.closed_ = true

/-- The state before the last statement of `insert`. -/
def before_close (r : Reassembler) (c : Call) : Reassembler :=
  ((if c.is_last_substring then
      { r with total_pushed_len_ := some (u64add c.first_index c.data.length) }
    else r).insert_or_store c.first_index c.data).write_stored_str

/-- The acknowledgement number that belongs to the state of the output stream. -/
def expected_ackno (t : TCPReceiver) (zero_point : Wrap32) : Wrap32 :=
  Wrap32.wrap (t.reassembler_.output_.bytes_pushed_ + 1
    + (if t.reassembler_.output_.closed_ then 1 else 0)) zero_point

/-- After the SYN: the zero point is `z` and the cached `next_ackno` is up to date. -/
def Synced (z : Wrap32) (t : TCPReceiver) : Prop :=
  t.is_zero_point_set = true ∧ t.zero_point = z ∧ t.next_ackno = expected_ackno t z

/-- Before the SYN, not reset: nothing has been written. -/
def Listening (t : TCPReceiver) : Prop :=
  t.is_zero_point_set = false ∧ t.RST_ = false ∧ t.reassembler_.output_.bytes_pushed_ = 0

/-- Before the SYN, reset. -/
def DeadListening (t : TCPReceiver) : Prop :=
  t.is_zero_point_set = false ∧ t.RST_ = true

/-- The bytes `d` are the bytes of `s` from position `k` on. -/
def Piece (s : Bytes) (k : Nat) (d : Bytes) : Prop :=
  k + d.length ≤ s.length ∧ d = (s.drop k).take d.length

/-- The output stream holds the first `bytes_pushed` bytes of `s`, nothing has been popped
or gone wrong, and it is closed only when all of `s` is written. -/
structure Wrote (s : Bytes) (capacity : Nat) (o : ByteStream) : Prop where
  cap : o.capacity_ = capacity
  err : o.error_ = false
  buf : o.buffer_ = s.take o.bytes_pushed_
  le : o.bytes_pushed_ ≤ s.length
  fin : o.closed_ = true → o.bytes_pushed_ = s.length

/-- The invariant of a Reassembler that is fed pieces of `s`. -/
structure Good (s : Bytes) (capacity : Nat) (r : Reassembler) : Prop where
  inv : Inv r
  wrote : Wrote s capacity r.output_
  pieces : ∀ f ∈ r.pending_substr_, Piece s f.1 f.2
  total : r.total_pushed_len_ = none ∨ r.total_pushed_len_ = some s.length

/-! ## TCPSender -/

/-- Modelled from the spec: the constant `TCPConfig::MAX_PAYLOAD_SIZE` (`tcp_config.hh` is
not among the sources), section 6 of the specification. -/
def MAX_PAYLOAD_SIZE : Nat := 1000

/-- The value `UINT64_MAX`, which `expire_time_` holds while the timer is stopped. -/
def UINT64_MAX : Nat := 2 ^ 64 - 1

/-- Modelled from the spec: `sequence_length = SYN + payload.len + FIN`. -/
def TCPSenderMessage.sequence_length (m : TCPSenderMessage) : Nat :=
  (if m.SYN then 1 else 0) + m.payload.length + (if m.FIN then 1 else 0)

/-- Modelled from the spec: a default-constructed `TCPSenderMessage`: no flag, no payload. -/
def TCPSenderMessage.empty : TCPSenderMessage :=
  { seqno := ⟨0⟩, SYN := false, payload := [], FIN := false, RST := false }

/-- Modelled from the spec: `peek()`, a view of the buffered bytes; here all of them. -/
def ByteStream.peek (b : ByteStream) : Bytes := b.buffer_

/-- The data members of `class TCPSender` (`tcp_sender.hh`); the `uint64_t` members are
natural numbers and the methods reduce what they compute modulo `2 ^ 64`. -/
structure TCPSender where
  input_ : ByteStream
  isn_ : Wrap32
  initial_RTO_ms_ : Nat
  current_time_ : Nat
  ack_ : Nat
  in_flight_cnt_ : Nat
  expire_time_ : Nat
  retrans_cnt_ : Nat
  window_size_ : Nat
  rto_ : Nat
  current_seq_ : Nat
  zero_point_ : Wrap32
  outstanding_msg_ : List TCPSenderMessage
  is_fin_sent : Bool
deriving DecidableEq

namespace TCPSender

/-- The constructor of `TCPSender` (`tcp_sender.hh`, lines 18-33). -/
def init (input : ByteStream) (isn : Wrap32) (initial_RTO_ms : Nat) : TCPSender :=
  { input_ := input, isn_ := isn, initial_RTO_ms_ := initial_RTO_ms, current_time_ := 0,
    ack_ := 0, in_flight_cnt_ := 0, expire_time_ := UINT64_MAX, retrans_cnt_ := 0,
    window_size_ := 1, rto_ := initial_RTO_ms, current_seq_ := isn.unwrap isn 0,
    zero_point_ := isn, outstanding_msg_ := [], is_fin_sent := false }

/-- A new sender on a new input stream of the given capacity. -/
def fresh (capacity : Nat) (isn : Wrap32) (initial_RTO_ms : Nat) : TCPSender :=
  init (ByteStream.fresh capacity) isn initial_RTO_ms

/-- The method `TCPSender::sequence_numbers_in_flight`. -/
def sequence_numbers_in_flight (s : TCPSender) : Nat := s.in_flight_cnt_

/-- The method `TCPSender::consecutive_retransmissions`. -/
def consecutive_retransmissions (s : TCPSender) : Nat := s.retrans_cnt_

/-- The method `TCPSender::unwarp`. -/
def unwarp (s : TCPSender) (seq : Wrap32) : Nat := seq.unwrap s.zero_point_ s.ack_

/-- The expression for `available_window` at lines 30-32 and 87-89 of `push`. -/
def available_window (s : TCPSender) (window_zero : Nat) : Nat :=
  if s.window_size_ + window_zero < s.in_flight_cnt_ then 0
  else s.window_size_ + window_zero - s.in_flight_cnt_

/-- The `while` loop at lines 53-58 of `push`, which moves bytes from the input stream to
the payload until the payload has `payload_size` bytes.  The first argument bounds the
number of iterations; `none` stands for a loop that does not come to an end. -/
def read_loop : Nat → ByteStream → Bytes → Nat → Option (ByteStream × Bytes)
  | 0, input, payload, payload_size =>
      if payload.length < payload_size then none else some (input, payload)
  | fuel + 1, input, payload, payload_size =>
      if payload.length < payload_size then
        let front_view := input.peek
        let bytes_to_read := min front_view.length (payload_size - payload.length)
        read_loop fuel (input.pop bytes_to_read) (payload ++ front_view.take bytes_to_read)
          payload_size
      else some (input, payload)

/-- The `do ... while` loop at lines 34-91 of `push`, with the segments transmitted so far.
The first argument bounds the number of iterations; `none` stands for a loop that does not
come to an end. -/
def push_loop : Nat → TCPSender → Nat → Nat → List TCPSenderMessage →
    Option (TCPSender × List TCPSenderMessage)
  | 0, _, _, _, _ => none
  | fuel + 1, s, window_zero, available_window, sent =>
      if s.is_fin_sent then some (s, sent)
      else
        let payload_size := min s.input_.bytes_buffered MAX_PAYLOAD_SIZE
        let seq_size := min available_window (payload_size + (if s.current_seq_ = 0 then 1 else 0))
        let payload_size := if s.current_seq_ = 0 then u64sub seq_size 1 else seq_size
        match read_loop (s.input_.bytes_buffered + 1) s.input_ [] payload_size with
        | none => none
        | some (input, payload) =>
          let fin := input.is_finished && decide (seq_size < available_window)
          let msg : TCPSenderMessage :=
            { TCPSenderMessage.empty with
                SYN := decide (s.current_seq_ = 0), payload := payload, FIN := fin }
          let s1 := { s with input_ := input,
                             is_fin_sent := if fin then true else s.is_fin_sent }
          if msg.sequence_length = 0 then some (s1, sent)
          else
            let msg := { msg with seqno := Wrap32.wrap s1.current_seq_ s1.zero_point_ }
            let s2 := { s1 with
                          current_seq_ := u64add s1.current_seq_ msg.sequence_length,
                          in_flight_cnt_ := u64add s1.in_flight_cnt_ msg.sequence_length,
                          outstanding_msg_ := s1.outstanding_msg_ ++ [msg] }
            let s3 := if s2.expire_time_ = UINT64_MAX then
                        { s2 with expire_time_ := u64add s2.current_time_ s2.rto_ }
                      else s2
            let available_window := s3.available_window window_zero
            if s3.input_.bytes_buffered ≠ 0 ∧ available_window ≠ 0 then
              push_loop fuel s3 window_zero available_window (sent ++ [msg])
            else some (s3, sent ++ [msg])

/-- The method `TCPSender::push`: the new state and the segments handed to `transmit`, in
order.  The loop is given `available_window + 1` iterations. -/
def push (s : TCPSender) : Option (TCPSender × List TCPSenderMessage) :=
  if s.input_.error_ then
    some (s, [{ TCPSenderMessage.empty with
                  RST := true, seqno := Wrap32.wrap s.current_seq_ s.zero_point_ }])
  else
    let window_zero := if s.window_size_ = 0 then 1 else 0
    let available_window := s.available_window window_zero
    push_loop (available_window + 1) s window_zero available_window []

/-- The `while` loop at lines 114-121 of `receive` over the outstanding queue. -/
def pop_acked (s : TCPSender) : List TCPSenderMessage → TCPSender
  | [] => { s with outstanding_msg_ := [] }
  | front_msg :: rest =>
      if u64add (s.unwarp front_msg.seqno) front_msg.sequence_length > s.ack_ then
        { s with outstanding_msg_ := front_msg :: rest }
      else
        pop_acked
          { s with in_flight_cnt_ := u64sub s.in_flight_cnt_ front_msg.sequence_length } rest

/-- Lines 103-128 of `receive`: the acknowledgement number `ack_from_recv`. -/
def process_ack (s : TCPSender) (ack_from_recv : Nat) : TCPSender :=
  if ack_from_recv > s.ack_ ∧ ack_from_recv ≤ s.current_seq_ then
    let s1 := { s with ack_ := ack_from_recv, rto_ := s.initial_RTO_ms_,
                       expire_time_ := u64add s.current_time_ s.initial_RTO_ms_,
                       retrans_cnt_ := 0 }
    let s2 := s1.pop_acked s1.outstanding_msg_
    if s2.outstanding_msg_.isEmpty then { s2 with expire_time_ := UINT64_MAX } else s2
  else s

/-- The method `TCPSender::receive`. -/
def receive (s : TCPSender) (msg : TCPReceiverMessage) : TCPSender :=
  let s1 := match msg.ackno with
    | some ackno => s.process_ack (s.unwarp ackno)
    | none => s
  let s2 := { s1 with window_size_ := msg.window_size }
  if msg.RST then { s2 with input_ := s2.input_.set_error } else s2

/-- The method `TCPSender::tick`: the new state and the segments handed to `transmit`.
On an empty queue `outstanding_msg_.front()` is undefined; the model takes the default
message there. -/
def tick (s : TCPSender) (ms_since_last_tick : Nat) : TCPSender × List TCPSenderMessage :=
  let s1 := { s with current_time_ := u64add s.current_time_ ms_since_last_tick }
  if s1.expire_time_ ≠ UINT64_MAX ∧ s1.current_time_ ≥ s1.expire_time_ then
    let sent := [s1.outstanding_msg_.headD TCPSenderMessage.empty]
    let s2 := if s1.window_size_ ≠ 0 then
                { s1 with retrans_cnt_ := u64add s1.retrans_cnt_ 1,
                          rto_ := (s1.rto_ * 2) % 2 ^ 64 }
              else s1
    ({ s2 with expire_time_ := u64add s2.current_time_ s2.rto_ }, sent)
  else (s1, [])

end TCPSender

/-- One thing that happens to a TCPSender: a call of `push`, `receive` or `tick`, or the
application writing to or closing the input stream. -/
inductive SenderAction where
  | push
  | receive (msg : TCPReceiverMessage)
  | tick (ms_since_last_tick : Nat)
  | write (data : Bytes)
  | close
deriving DecidableEq

/-- The arguments fit their C++ types: `window_size` is a `uint16_t`, the time a
`uint64_t`. -/
def SenderAction.wf : SenderAction → Prop
  | .receive msg => msg.window_size ≤ 65535
  | .tick ms => ms < 2 ^ 64
  | _ => True

instance (a : SenderAction) : Decidable a.wf := by
  cases a <;> unfold SenderAction.wf <;> infer_instance

/-- The effect of one action: the new state, the segments that `push` transmitted and the
segments that `tick` transmitted. -/
def TCPSender.step (s : TCPSender) :
    SenderAction → Option (TCPSender × List TCPSenderMessage × List TCPSenderMessage)
  | .push => (s.push).map (fun r => (r.1, r.2, []))
  | .receive msg => some (s.receive msg, [], [])
  | .tick ms => some ((s.tick ms).1, [], (s.tick ms).2)
  | .write data => some ({ s with input_ := s.input_.push data }, [], [])
  | .close => some ({ s with input_ := s.input_.close }, [], [])

/-- A sequence of actions, the first one first: the final state and all the segments that
`push` transmitted on the way, in order. -/
def TCPSender.run : TCPSender → List SenderAction →
    Option (TCPSender × List TCPSenderMessage)
  | s, [] => some (s, [])
  | s, a :: rest =>
      match s.step a with
      | none => none
      | some (s1, pushed, _) =>
          match TCPSender.run s1 rest with
          | none => none
          | some (s2, more) => some (s2, pushed ++ more)

/-- The states of a TCPSender that starts on a new input stream and goes through fewer than
`2 ^ 48` actions whose arguments fit their C++ types.  Each action sends at most 65535
sequence numbers, so the 64-bit counter `current_seq_` does not wrap on the way. -/
def SenderReachable (s : TCPSender) : Prop :=
  ∃ (capacity : Nat) (isn : Wrap32) (initial_RTO_ms : Nat) (actions : List SenderAction)
    (sent : List TCPSenderMessage),
    actions.length < 2 ^ 48 ∧ (∀ a ∈ actions, a.wf)
      ∧ (TCPSender.fresh capacity isn initial_RTO_ms).run actions = some (s, sent)

/-! ## Predicates and auxiliary functions of the proofs about the sender -/

/-- The sum of the sequence lengths of a list of segments. -/
def seq_total (msgs : List TCPSenderMessage) : Nat :=
  (msgs.map TCPSenderMessage.sequence_length).sum

/-- The number of segments of a list that carry FIN. -/
def fin_count (msgs : List TCPSenderMessage) : Nat :=
  (msgs.filter (fun m => m.FIN)).length

/-- The segments follow one another in sequence space from the absolute sequence number
`start` on: each one carries the wrapped number of its position, takes at least one
sequence number, has SYN exactly at position 0, no RST and at most `MAX_PAYLOAD_SIZE`
bytes. -/
def ChainFrom (zero_point : Wrap32) : Nat → List TCPSenderMessage → Prop
  | _, [] => True
  | start, m :: rest =>
      m.seqno = Wrap32.wrap start zero_point ∧ 1 ≤ m.sequence_length
        ∧ (m.SYN = true ↔ start = 0) ∧ m.RST = false
        ∧ m.payload.length ≤ MAX_PAYLOAD_SIZE
        ∧ ChainFrom zero_point (start + m.sequence_length) rest

/-- Each segment fits into what the window `effective` leaves free, given the sequence
numbers `in_flight` before it. -/
def FlowFrom (effective : Nat) : Nat → List TCPSenderMessage → Prop
  | _, [] => True
  | in_flight, m :: rest =>
      in_flight + m.sequence_length ≤ effective
        ∧ FlowFrom effective (in_flight + m.sequence_length) rest

/-- The value of `seq_size` at line 40 of `push`. -/
def iter_seq_size (s : TCPSender) (available_window : Nat) : Nat :=
  min available_window
    (min s.input_.bytes_buffered MAX_PAYLOAD_SIZE + (if s.current_seq_ = 0 then 1 else 0))

/-- The number of payload bytes that one iteration of the loop of `push` reads. -/
def iter_payload_size (s : TCPSender) (available_window : Nat) : Nat :=
  iter_seq_size s available_window - (if s.current_seq_ = 0 then 1 else 0)

/-- The FIN flag that one iteration of the loop of `push` sets. -/
def iter_fin (s : TCPSender) (available_window : Nat) : Bool :=
  (s.input_.pop (iter_payload_size s available_window)).is_finished
    && decide (iter_seq_size s available_window < available_window)

/-- The segment that one iteration of the loop of `push` builds. -/
def iter_msg (s : TCPSender) (available_window : Nat) : TCPSenderMessage :=
  { seqno := Wrap32.wrap s.current_seq_ s.zero_point_,
    SYN := decide (s.current_seq_ = 0),
    payload := s.input_.buffer_.take (iter_payload_size s available_window),
    FIN := iter_fin s available_window,
    RST := false }

/-- The state after an iteration of the loop of `push` that transmits a segment. -/
def iter_state (s : TCPSender) (available_window : Nat) : TCPSender :=
  let s1 := { s with input_ := s.input_.pop (iter_payload_size s available_window),
                     is_fin_sent := if iter_fin s available_window then true
                                    else s.is_fin_sent }
  let s2 := { s1 with
                current_seq_ :=
                  u64add s1.current_seq_ (iter_msg s available_window).sequence_length,
                in_flight_cnt_ :=
                  u64add s1.in_flight_cnt_ (iter_msg s available_window).sequence_length,
                outstanding_msg_ := s1.outstanding_msg_ ++ [iter_msg s available_window] }
  if s2.expire_time_ = UINT64_MAX then
    { s2 with expire_time_ := u64add s2.current_time_ s2.rto_ }
  else s2

/-- What a call of `push` on a stream without error does: `out` are the segments sent. -/
structure PushSpec (s s2 : TCPSender) (out : List TCPSenderMessage) : Prop where
  seq : s2.current_seq_ = s.current_seq_ + seq_total out
  queue : s2.outstanding_msg_ = s.outstanding_msg_ ++ out
  infl : s2.in_flight_cnt_ = s.in_flight_cnt_ + seq_total out
  chain : ChainFrom s.zero_point_ s.current_seq_ out
  flow : FlowFrom (s.window_size_ + (if s.window_size_ = 0 then 1 else 0)) s.in_flight_cnt_ out
  expire : s2.expire_time_
    = if out ≠ [] ∧ s.expire_time_ = UINT64_MAX then u64add s.current_time_ s.rto_
      else s.expire_time_
  isn : s2.isn_ = s.isn_
  zp : s2.zero_point_ = s.zero_point_
  irto : s2.initial_RTO_ms_ = s.initial_RTO_ms_
  time : s2.current_time_ = s.current_time_
  ack : s2.ack_ = s.ack_
  retrans : s2.retrans_cnt_ = s.retrans_cnt_
  wnd : s2.window_size_ = s.window_size_
  rto : s2.rto_ = s.rto_
  err : s2.input_.error_ = s.input_.error_
  popped : ∃ n, n ≤ s.input_.buffer_.length ∧ s2.input_ = s.input_.pop n ∧ n ≤ seq_total out
  fin : s2.is_fin_sent = true → s2.input_.closed_ = true ∧ s2.input_.buffer_ = []
  finkeep : s.is_fin_sent = true → s2 = s ∧ out = []
  fincount : s.is_fin_sent = false → fin_count out = if s2.is_fin_sent then 1 else 0
  lastfin : ∀ pre m post, out = pre ++ m :: post → m.FIN = true → post = []

/-- The invariant of the TCPSender between two actions. -/
structure SInv (s : TCPSender) : Prop where
  wnd : s.window_size_ ≤ 65535
  infl : s.in_flight_cnt_ = seq_total s.outstanding_msg_
  bound : s.in_flight_cnt_ ≤ 65535
  le : seq_total s.outstanding_msg_ ≤ s.current_seq_
  ackle : s.ack_ ≤ s.current_seq_
  cs64 : s.current_seq_ < 2 ^ 64
  ackfront : s.current_seq_ - seq_total s.outstanding_msg_ ≤ s.ack_
  chain : ChainFrom s.zero_point_ (s.current_seq_ - seq_total s.outstanding_msg_)
    s.outstanding_msg_
  fin : s.is_fin_sent = true → s.input_.closed_ = true ∧ s.input_.buffer_ = []
  zp : s.zero_point_ = s.isn_
  timer : s.expire_time_ ≠ UINT64_MAX → s.outstanding_msg_ ≠ []

/-- The segments of a queue with their absolute sequence numbers, the first one at
`start`. -/
def with_starts : Nat → List TCPSenderMessage → List (Nat × TCPSenderMessage)
  | _, [] => []
  | start, m :: rest => (start, m) :: with_starts (start + m.sequence_length) rest

/-- The segments of a queue starting at `start` that the acknowledgement number `a` does
not wholly acknowledge. -/
def not_acked (a start : Nat) (msgs : List TCPSenderMessage) : List TCPSenderMessage :=
  ((with_starts start msgs).filter
    (fun p => decide (a < p.1 + p.2.sequence_length))).map Prod.snd

/-- The segments of a queue starting at `start` that the acknowledgement number `a`
wholly acknowledges. -/
def wholly_acked (a start : Nat) (msgs : List TCPSenderMessage) : List TCPSenderMessage :=
  ((with_starts start msgs).filter
    (fun p => decide (p.1 + p.2.sequence_length ≤ a))).map Prod.snd

/-- The deadline that an action would give the timer differs from `UINT64_MAX`, the value
that marks a stopped timer. -/
def deadline_ok (s : TCPSender) : SenderAction → Prop
  | .push => u64add s.current_time_ s.rto_ ≠ UINT64_MAX
  | .receive _ => u64add s.current_time_ s.initial_RTO_ms_ ≠ UINT64_MAX
  | .tick ms =>
      u64add (u64add s.current_time_ ms)
        (if s.window_size_ ≠ 0 then (s.rto_ * 2) % 2 ^ 64 else s.rto_) ≠ UINT64_MAX
  | _ => True

instance (s : TCPSender) (a : SenderAction) : Decidable (deadline_ok s a) := by
  cases a <;> unfold deadline_ok <;> infer_instance

/-- No action of the sequence gives the timer the deadline `UINT64_MAX`. -/
def deadlines_ok : TCPSender → List SenderAction → Prop
  | _, [] => True
  | s, a :: rest =>
      deadline_ok s a ∧
        match s.step a with
        | some (s1, _, _) => deadlines_ok s1 rest
        | none => True

instance deadlines_ok.decide : (s : TCPSender) → (actions : List SenderAction) →
    Decidable (deadlines_ok s actions)
  | _, [] => isTrue trivial
  | s, a :: rest =>
      match h : s.step a with
      | none => decidable_of_iff (deadline_ok s a) (by simp [deadlines_ok, h])
      | some (s1, _, _) =>
          have := deadlines_ok.decide s1 rest
          decidable_of_iff (deadline_ok s a ∧ deadlines_ok s1 rest) (by simp [deadlines_ok, h])

/-- The state of a new sender (capacity 100, ISN 5, initial RTO 10) after its first `push`:
the SYN is outstanding. -/
def syn_sent_state : TCPSender :=
  { input_ := ByteStream.fresh 100, isn_ := ⟨5⟩, initial_RTO_ms_ := 10, current_time_ := 0,
    ack_ := 0, in_flight_cnt_ := 1, expire_time_ := 10, retrans_cnt_ := 0, window_size_ := 1,
    rto_ := 10, current_seq_ := 1, zero_point_ := ⟨5⟩,
    outstanding_msg_ :=
      [{ seqno := ⟨5⟩, SYN := true, payload := [], FIN := false, RST := false }],
    is_fin_sent := false }

/-- The state of the same sender after the SYN was acknowledged with a window of 0 and
`"abc"` was written to the input stream. -/
def zero_window_state : TCPSender :=
  { input_ := { capacity_ := 100, buffer_ := ['a', 'b', 'c'], bytes_pushed_ := 3,
                bytes_popped_ := 0, closed_ := false, error_ := false },
    isn_ := ⟨5⟩, initial_RTO_ms_ := 10, current_time_ := 0, ack_ := 1, in_flight_cnt_ := 0,
    expire_time_ := UINT64_MAX, retrans_cnt_ := 0, window_size_ := 0, rto_ := 10,
    current_seq_ := 1, zero_point_ := ⟨5⟩, outstanding_msg_ := [], is_fin_sent := false }

/-- What a run of the sender does about FIN: `out` are the segments that `push` transmitted
on the way from the state `s` to the state `s2`. -/
structure FinSpec (s s2 : TCPSender) (out : List TCPSenderMessage) : Prop where
  keep : s.is_fin_sent = true →
    s2.is_fin_sent = true ∧ s2.current_seq_ = s.current_seq_ ∧ fin_count out = 0
      ∧ (s2.input_.error_ = false → out = [])
  count : s.is_fin_sent = false → fin_count out = if s2.is_fin_sent then 1 else 0
  last : s2.input_.error_ = false →
    ∀ pre m post, out = pre ++ m :: post → m.FIN = true → post = []

/-- The state of the same sender after `"abcd"` was written, the SYN was sent and
acknowledged with a window of 4, and `"abcd"` was sent in one segment. -/
def data_sent_state : TCPSender :=
  { input_ := { capacity_ := 100, buffer_ := [], bytes_pushed_ := 4, bytes_popped_ := 4,
                closed_ := false, error_ := false },
    isn_ := ⟨5⟩, initial_RTO_ms_ := 10, current_time_ := 0, ack_ := 1, in_flight_cnt_ := 4,
    expire_time_ := 10, retrans_cnt_ := 0, window_size_ := 4, rto_ := 10, current_seq_ := 5,
    zero_point_ := ⟨5⟩,
    outstanding_msg_ :=
      [{ seqno := ⟨6⟩, SYN := false, payload := ['a', 'b', 'c', 'd'], FIN := false,
         RST := false }],
    is_fin_sent := false }

/-! ## Arithmetic of the byte counter -/

theorem u64sub_u64sub (bp a b : Nat) : u64sub (u64sub bp a) b = u64sub bp (a + b) := by
  unfold u64sub; omega

theorem Exact.sub {bp : Nat} {m m2 : PendingMap} {d : Nat} (h : Exact bp m)
    (hd : m.total_bytes = m2.total_bytes + d) : Exact (u64sub bp d) m2 := by
  unfold Exact u64sub at *; omega

theorem Exact.add {bp : Nat} {m m2 : PendingMap} {d : Nat} (h : Exact bp m)
    (hd : m2.total_bytes = m.total_bytes + d) : Exact (u64add bp d) m2 := by
  unfold Exact u64add at *; omega

/-! ## The structural invariant of the store -/

theorem PInv.nil : PInv [] := ⟨List.Pairwise.nil, by simp⟩

theorem PInv.len_pos {m : PendingMap} (h : PInv m) {f : Frag} (hf : f ∈ m) :
    0 < f.2.length := List.length_pos.mpr (h.2 f hf)

theorem PInv.keys {m : PendingMap} (h : PInv m) : m.Pairwise (fun a b => a.1 < b.1) := by
  refine List.Pairwise.imp_of_mem ?_ h.1
  intro a b ha _ hab
  have := h.len_pos ha
  omega

theorem PInv.tail {f : Frag} {m : PendingMap} (h : PInv (f :: m)) : PInv m :=
  ⟨(List.pairwise_cons.mp h.1).2, fun g hg => h.2 g (List.mem_cons_of_mem _ hg)⟩

theorem PInv.sublist {m m2 : PendingMap} (h : PInv m) (hs : m2.Sublist m) : PInv m2 :=
  ⟨h.1.sublist hs, fun g hg => h.2 g (hs.subset hg)⟩

theorem total_bytes_cons (f : Frag) (m : PendingMap) :
    PendingMap.total_bytes (f :: m) = f.2.length + PendingMap.total_bytes m := by
  simp [PendingMap.total_bytes]

theorem total_bytes_append (a b : PendingMap) :
    PendingMap.total_bytes (a ++ b) = PendingMap.total_bytes a + PendingMap.total_bytes b := by
  simp [PendingMap.total_bytes]

/-! ## `erase_covered` -/

theorem erase_covered_fst (m : PendingMap) (bp first final : Nat) :
    (Reassembler.erase_covered m bp first final).1
      = m.filter (fun node => !Reassembler.inside_new first final node) := by
  induction m generalizing bp with
  | nil => rfl
  | cons node rest ih =>
    cases hc : Reassembler.inside_new first final node
    · simp [Reassembler.erase_covered, hc, ih]
    · simp [Reassembler.erase_covered, hc, ih]

theorem erase_covered_snd (m : PendingMap) (bp first final k : Nat)
    (h : bp = (k + m.total_bytes) % 2 ^ 64) :
    (Reassembler.erase_covered m bp first final).2
      = (k + (Reassembler.erase_covered m bp first final).1.total_bytes) % 2 ^ 64 := by
  induction m generalizing bp k with
  | nil => simpa [Reassembler.erase_covered] using h
  | cons node rest ih =>
    rw [total_bytes_cons] at h
    cases hc : Reassembler.inside_new first final node
    · have h2 := ih bp (k + node.2.length) (by omega)
      simp only [Reassembler.erase_covered, hc, Bool.false_eq_true, if_false]
      rw [total_bytes_cons, h2]; congr 1; omega
    · have h2 := ih (u64sub bp node.2.length) k (by unfold u64sub; omega)
      simp only [Reassembler.erase_covered, hc, if_true]
      exact h2

theorem erase_covered_exact {m : PendingMap} {bp : Nat} (first final : Nat) (h : Exact bp m) :
    Exact (Reassembler.erase_covered m bp first final).2
      (Reassembler.erase_covered m bp first final).1 := by
  have := erase_covered_snd m bp first final 0 (by simpa [Exact] using h)
  simpa [Exact] using this

/-! ## `contains`, `operator[]`, `erase`, `emplace` and the bounds -/

theorem contains_false {m : PendingMap} {k : Nat} (h : m.contains k = false) :
    ∀ f ∈ m, f.1 ≠ k := by
  intro f hf hk
  have : m.contains k = true := by
    unfold PendingMap.contains
    exact List.any_eq_true.mpr ⟨f, hf, by simp [hk]⟩
  rw [h] at this; cases this

theorem erase_sublist (m : PendingMap) (k : Nat) : (m.erase k).Sublist m :=
  List.filter_sublist m

theorem erase_key {m : PendingMap} {k : Nat} : ∀ f ∈ m.erase k, f.1 ≠ k := by
  intro f hf
  have := (List.mem_filter.mp hf).2
  simpa using this

theorem erase_of_absent {m : PendingMap} {k : Nat} (h : ∀ f ∈ m, f.1 ≠ k) : m.erase k = m := by
  unfold PendingMap.erase
  rw [List.filter_eq_self]
  intro f hf
  simpa using h f hf

theorem at_of_absent {m : PendingMap} {k : Nat} (h : ∀ f ∈ m, f.1 ≠ k) : m.at_ k = [] := by
  unfold PendingMap.at_
  have : m.find? (fun node => node.1 == k) = none := by
    rw [List.find?_eq_none]
    intro f hf
    simpa using h f hf
  rw [this]

theorem erase_total (m : PendingMap) (k : Nat) (hs : m.Pairwise (fun a b => a.1 < b.1)) :
    m.total_bytes = (m.erase k).total_bytes + (m.at_ k).length := by
  induction m with
  | nil => rfl
  | cons node rest ih =>
    have hrest := (List.pairwise_cons.mp hs).2
    have hhead := (List.pairwise_cons.mp hs).1
    by_cases hk : node.1 = k
    · have habs : ∀ f ∈ rest, f.1 ≠ k := by
        intro f hf; have := hhead f hf; omega
      have h1 : PendingMap.erase (node :: rest) k = rest := by
        have := erase_of_absent habs
        unfold PendingMap.erase at this ⊢
        rw [List.filter_cons_of_neg (by simp [hk]), this]
      have h2 : PendingMap.at_ (node :: rest) k = node.2 := by
        unfold PendingMap.at_
        rw [List.find?_cons_of_pos _ (by simp [hk])]
      rw [h1, h2, total_bytes_cons]; omega
    · have h1 : PendingMap.erase (node :: rest) k = node :: PendingMap.erase rest k := by
        unfold PendingMap.erase
        rw [List.filter_cons_of_pos (by simp [hk])]
      have h2 : PendingMap.at_ (node :: rest) k = PendingMap.at_ rest k := by
        unfold PendingMap.at_
        rw [List.find?_cons_of_neg _ (by simp [hk])]
      rw [h1, h2, total_bytes_cons, total_bytes_cons, ih hrest]; omega

theorem at_mem {m : PendingMap} {k : Nat} (h : m.contains k = true) : (k, m.at_ k) ∈ m := by
  induction m with
  | nil => simp [PendingMap.contains] at h
  | cons node rest ih =>
    by_cases hk : node.1 = k
    · have h2 : PendingMap.at_ (node :: rest) k = node.2 := by
        unfold PendingMap.at_
        rw [List.find?_cons_of_pos _ (by simp [hk])]
      rw [h2, ← hk]; exact List.mem_cons_self _ _
    · have h2 : PendingMap.at_ (node :: rest) k = PendingMap.at_ rest k := by
        unfold PendingMap.at_
        rw [List.find?_cons_of_neg _ (by simp [hk])]
      rw [h2]
      refine List.mem_cons_of_mem _ (ih ?_)
      simpa [PendingMap.contains, hk] using h

theorem emplace_split (m : PendingMap) (k : Nat) (d : Bytes)
    (hs : m.Pairwise (fun a b => a.1 < b.1)) (hk : ∀ f ∈ m, f.1 ≠ k) :
    ∃ A B, m = A ++ B ∧ (∀ a ∈ A, a.1 < k) ∧ (∀ b ∈ B, k < b.1)
      ∧ m.emplace k d = A ++ (k, d) :: B := by
  induction m with
  | nil => exact ⟨[], [], rfl, by simp, by simp, rfl⟩
  | cons node rest ih =>
    have hrest := (List.pairwise_cons.mp hs).2
    have hhead := (List.pairwise_cons.mp hs).1
    have hne := hk node (List.mem_cons_self _ _)
    by_cases hlt : k < node.1
    · refine ⟨[], node :: rest, rfl, by simp, ?_, by simp [PendingMap.emplace, hlt]⟩
      intro b hb
      rcases List.mem_cons.mp hb with rfl | hb
      · exact hlt
      · have := hhead b hb; omega
    · obtain ⟨A, B, h1, h2, h3, h4⟩ := ih hrest (fun f hf => hk f (List.mem_cons_of_mem _ hf))
      refine ⟨node :: A, B, by simp [h1], ?_, h3, ?_⟩
      · intro a ha
        rcases List.mem_cons.mp ha with rfl | ha
        · omega
        · exact h2 a ha
      · have hne2 : ¬ k = node.1 := fun h => hne h.symm
        simp [PendingMap.emplace, hlt, hne2, h4]

theorem lower_bound_split (A B : PendingMap) (k : Nat) (d : Bytes) (hA : ∀ a ∈ A, a.1 < k) :
    PendingMap.lower_bound (A ++ (k, d) :: B) k = A.length := by
  induction A with
  | nil => simp [PendingMap.lower_bound]
  | cons a A ih =>
    have h1 := hA a (List.mem_cons_self _ _)
    have h2 := ih (fun x hx => hA x (List.mem_cons_of_mem _ hx))
    unfold PendingMap.lower_bound at h2 ⊢
    simp [List.takeWhile_cons, h1, h2]

theorem upper_bound_split (A B : PendingMap) (k final : Nat) (d : Bytes)
    (hA : ∀ a ∈ A, a.1 < k) (hk : k ≤ final) :
    PendingMap.upper_bound (A ++ (k, d) :: B) final
      = A.length + 1 + PendingMap.upper_bound B final := by
  induction A with
  | nil => simp [PendingMap.upper_bound, List.takeWhile_cons, hk]; omega
  | cons a A ih =>
    have h1 := hA a (List.mem_cons_self _ _)
    have h2 := ih (fun x hx => hA x (List.mem_cons_of_mem _ hx))
    have h3 : a.1 ≤ final := by omega
    unfold PendingMap.upper_bound at h2 ⊢
    simp [List.takeWhile_cons, h3, h2]; omega

/-! ## The trimming walk -/

theorem trim_tail_fst (f : Frag) (k bp : Nat) : (Reassembler.trim_tail f k bp).1 = cutAt f k := by
  unfold cutAt Reassembler.trim_tail
  by_cases h : f.1 + f.2.length - 1 ≥ k <;> simp [h]

theorem cutAt_key (f : Frag) (k : Nat) : (cutAt f k).1 = f.1 := by
  unfold cutAt Reassembler.trim_tail
  by_cases h : f.1 + f.2.length - 1 ≥ k <;> simp [h]

theorem cutAt_initial (f : Frag) (k : Nat) : (cutAt f k).2 <+: f.2 := by
  unfold cutAt Reassembler.trim_tail
  by_cases h : f.1 + f.2.length - 1 ≥ k
  · simp only [h, if_true]; exact List.take_prefix _ _
  · simp only [h, if_false]; exact List.prefix_refl _

theorem cutAt_length (f : Frag) (k : Nat) (hk : f.1 < k) (hne : f.2 ≠ []) :
    (cutAt f k).2.length = min f.2.length (k - f.1) := by
  have hpos := List.length_pos.mpr hne
  unfold cutAt Reassembler.trim_tail
  by_cases h : f.1 + f.2.length - 1 ≥ k
  · simp only [h, if_true, List.length_take]; omega
  · simp only [h, if_false]; omega

theorem cutAt_of_disj (f : Frag) (k : Nat) (hne : f.2 ≠ []) (h : f.1 + f.2.length ≤ k) :
    cutAt f k = f := by
  have hpos := List.length_pos.mpr hne
  unfold cutAt Reassembler.trim_tail
  have : ¬ f.1 + f.2.length - 1 ≥ k := by omega
  simp [this]

theorem trim_tail_snd (f : Frag) (k bp o : Nat) (hk : f.1 < k) (hne : f.2 ≠ [])
    (h : bp = (o + f.2.length) % 2 ^ 64) :
    (Reassembler.trim_tail f k bp).2 = (o + (cutAt f k).2.length) % 2 ^ 64 := by
  have hl := cutAt_length f k hk hne
  have hpos := List.length_pos.mpr hne
  rw [hl]
  unfold Reassembler.trim_tail
  by_cases hc : f.1 + f.2.length - 1 ≥ k
  · simp only [hc, if_true]; unfold u64sub; omega
  · simp only [hc, if_false]; rw [h]; congr 1; omega

theorem trim_all_of_disj (l : PendingMap) (hne : ∀ f ∈ l, f.2 ≠ []) (h : Disj l) :
    trim_all l = l := by
  induction l with
  | nil => rfl
  | cons x r ih =>
    cases r with
    | nil => rfl
    | cons y r =>
      have hx := (List.pairwise_cons.mp h).1 y (List.mem_cons_self _ _)
      have ht := (List.pairwise_cons.mp h).2
      simp only [trim_all]
      rw [cutAt_of_disj x y.1 (hne x (List.mem_cons_self _ _)) hx,
        ih (fun f hf => hne f (List.mem_cons_of_mem _ hf)) ht]

theorem trim_walk_eq_trim_all (l : PendingMap) (skip count bp : Nat)
    (hne : ∀ f ∈ l, f.2 ≠ []) (h1 : Disj (l.take (skip + 1)))
    (h2 : Disj (l.drop (skip + count))) :
    (Reassembler.trim_walk skip count l bp).1 = trim_all l := by
  induction l generalizing skip count bp with
  | nil => cases skip <;> cases count <;> simp [Reassembler.trim_walk, trim_all]
  | cons x r ih =>
    have hner : ∀ f ∈ r, f.2 ≠ [] := fun f hf => hne f (List.mem_cons_of_mem _ hf)
    cases r with
    | nil => cases skip <;> cases count <;> simp [Reassembler.trim_walk, trim_all]
    | cons y r =>
      cases skip with
      | succ s =>
        have h1c : List.Pairwise (fun a b => a.1 + a.2.length ≤ b.1)
            (x :: (y :: r).take (s + 1)) := by
          simpa [Disj, List.take] using h1
        have hxy : x.1 + x.2.length ≤ y.1 :=
          (List.pairwise_cons.mp h1c).1 y (by simp [List.take])
        have ht : Disj ((y :: r).take (s + 1)) := (List.pairwise_cons.mp h1c).2
        have hd : Disj ((y :: r).drop (s + count)) := by
          have e : s + 1 + count = (s + count) + 1 := by omega
          rw [e] at h2; simpa using h2
        simp only [Reassembler.trim_walk, trim_all]
        rw [ih s count bp hner ht hd, cutAt_of_disj x y.1 (hne x (List.mem_cons_self _ _)) hxy]
      | zero =>
        cases count with
        | zero =>
          simp only [Reassembler.trim_walk]
          exact (trim_all_of_disj _ hne (by simpa using h2)).symm
        | succ c =>
          have ht : Disj ((y :: r).take (0 + 1)) := by simp [Disj]
          have hd : Disj ((y :: r).drop (0 + c)) := by
            have e : 0 + (c + 1) = (0 + c) + 1 := by omega
            rw [e] at h2; simpa using h2
          simp only [Reassembler.trim_walk, trim_all]
          rw [ih 0 c _ hner ht hd, trim_tail_fst]

theorem trim_walk_snd (l : PendingMap) (skip count bp o : Nat)
    (hs : l.Pairwise (fun a b => a.1 < b.1)) (hne : ∀ f ∈ l, f.2 ≠ [])
    (h : bp = (o + l.total_bytes) % 2 ^ 64) :
    (Reassembler.trim_walk skip count l bp).2
      = (o + (Reassembler.trim_walk skip count l bp).1.total_bytes) % 2 ^ 64 := by
  induction l generalizing skip count bp o with
  | nil => cases skip <;> cases count <;> simpa [Reassembler.trim_walk] using h
  | cons x r ih =>
    have hner : ∀ f ∈ r, f.2 ≠ [] := fun f hf => hne f (List.mem_cons_of_mem _ hf)
    have hsr := (List.pairwise_cons.mp hs).2
    rw [total_bytes_cons] at h
    cases skip with
    | succ s =>
      have := ih s count bp (o + x.2.length) hsr hner (by omega)
      simp only [Reassembler.trim_walk]
      rw [total_bytes_cons, this]; congr 1; omega
    | zero =>
      cases count with
      | zero => simp only [Reassembler.trim_walk]; rw [total_bytes_cons]; exact h
      | succ c =>
        cases r with
        | nil => simp only [Reassembler.trim_walk]; rw [total_bytes_cons]; exact h
        | cons y r =>
          have hxy : x.1 < y.1 := (List.pairwise_cons.mp hs).1 y (List.mem_cons_self _ _)
          have h3 := trim_tail_snd x y.1 bp (o + PendingMap.total_bytes (y :: r)) hxy
            (hne x (List.mem_cons_self _ _)) (by omega)
          have := ih 0 c (Reassembler.trim_tail x y.1 bp).2 (o + (cutAt x y.1).2.length) hsr hner
            (by omega)
          simp only [Reassembler.trim_walk]
          rw [total_bytes_cons, this, trim_tail_fst]; congr 1; omega

theorem trim_all_mem (l : PendingMap) :
    ∀ f ∈ trim_all l, ∃ g ∈ l, g.1 = f.1 ∧ f.2 <+: g.2 := by
  induction l with
  | nil => intro f hf; simp [trim_all] at hf
  | cons x r ih =>
    cases r with
    | nil =>
      intro f hf
      simp only [trim_all, List.mem_singleton] at hf
      exact ⟨x, by simp, by rw [hf], by rw [hf]⟩
    | cons y r =>
      intro f hf
      simp only [trim_all] at hf
      rcases List.mem_cons.mp hf with rfl | hf
      · exact ⟨x, by simp, (cutAt_key x y.1).symm, cutAt_initial x y.1⟩
      · obtain ⟨g, hg, h1, h2⟩ := ih f hf
        exact ⟨g, List.mem_cons_of_mem _ hg, h1, h2⟩

theorem trim_all_pinv (l : PendingMap) (hs : l.Pairwise (fun a b => a.1 < b.1))
    (hne : ∀ f ∈ l, f.2 ≠ []) : PInv (trim_all l) := by
  induction l with
  | nil => exact PInv.nil
  | cons x r ih =>
    have hsr := (List.pairwise_cons.mp hs).2
    have hsx := (List.pairwise_cons.mp hs).1
    have hner : ∀ f ∈ r, f.2 ≠ [] := fun f hf => hne f (List.mem_cons_of_mem _ hf)
    have hx := hne x (List.mem_cons_self _ _)
    cases r with
    | nil => exact ⟨by simp [trim_all], by simpa [trim_all] using hx⟩
    | cons y r =>
      have hxy : x.1 < y.1 := hsx y (List.mem_cons_self _ _)
      have hl := cutAt_length x y.1 hxy hx
      have hpos := List.length_pos.mpr hx
      obtain ⟨ih1, ih2⟩ := ih hsr hner
      constructor
      · simp only [trim_all]
        refine List.pairwise_cons.mpr ⟨?_, ih1⟩
        intro b hb
        obtain ⟨g, hg, hg1, _⟩ := trim_all_mem _ b hb
        have hyg : y.1 ≤ g.1 := by
          rcases List.mem_cons.mp hg with rfl | hg
          · exact le_refl _
          · exact le_of_lt ((List.pairwise_cons.mp hsr).1 g hg)
        rw [cutAt_key, hl]; omega
      · intro f hf
        simp only [trim_all] at hf
        rcases List.mem_cons.mp hf with rfl | hf
        · apply List.ne_nil_of_length_pos; rw [hl]; omega
        · exact ih2 f hf

theorem trim_all_cov (l : PendingMap) (hs : l.Pairwise (fun a b => a.1 < b.1))
    (hne : ∀ f ∈ l, f.2 ≠ [])
    (hm : l.Pairwise (fun a b => a.1 + a.2.length ≤ b.1 + b.2.length)) (p : Nat)
    (h : Cov l p) : Cov (trim_all l) p := by
  induction l with
  | nil => exact h
  | cons x r ih =>
    have hsr := (List.pairwise_cons.mp hs).2
    have hsx := (List.pairwise_cons.mp hs).1
    have hmr := (List.pairwise_cons.mp hm).2
    have hmx := (List.pairwise_cons.mp hm).1
    have hner : ∀ f ∈ r, f.2 ≠ [] := fun f hf => hne f (List.mem_cons_of_mem _ hf)
    have hx := hne x (List.mem_cons_self _ _)
    cases r with
    | nil => exact h
    | cons y r =>
      have hxy : x.1 < y.1 := hsx y (List.mem_cons_self _ _)
      have hstop := hmx y (List.mem_cons_self _ _)
      have hl := cutAt_length x y.1 hxy hx
      have lift : Cov (trim_all (y :: r)) p → Cov (trim_all (x :: y :: r)) p := by
        rintro ⟨f, hf, h1, h2⟩
        exact ⟨f, by simp only [trim_all]; exact List.mem_cons_of_mem _ hf, h1, h2⟩
      obtain ⟨f, hf, h1, h2⟩ := h
      rcases List.mem_cons.mp hf with rfl | hf
      · by_cases hp : p < y.1
        · refine ⟨cutAt f y.1, by simp [trim_all], by rw [cutAt_key]; exact h1, ?_⟩
          rw [cutAt_key, hl]; omega
        · exact lift (ih hsr hner hmr ⟨y, List.mem_cons_self _ _, by omega, by omega⟩)
      · exact lift (ih hsr hner hmr ⟨f, hf, h1, h2⟩)

theorem upper_bound_zero {B : PendingMap} {final : Nat}
    (hs : B.Pairwise (fun a b => a.1 < b.1)) (h : PendingMap.upper_bound B final = 0) :
    ∀ b ∈ B, final < b.1 := by
  cases B with
  | nil => simp
  | cons x r =>
    have hx : final < x.1 := by
      by_contra hc
      have : x.1 ≤ final := by omega
      simp [PendingMap.upper_bound, List.takeWhile_cons, this] at h
    intro b hb
    rcases List.mem_cons.mp hb with rfl | hb
    · exact hx
    · have := (List.pairwise_cons.mp hs).1 b hb; omega

/-! ## `store_merge` -/

theorem inside_new_iff (first final : Nat) (f : Frag) :
    Reassembler.inside_new first final f = true
      ↔ (f.1 ≥ first ∧ f.1 + f.2.length - 1 ≤ final) := by
  unfold Reassembler.inside_new; exact decide_eq_true_iff

theorem inside_stored_iff (first final : Nat) (f : Frag) :
    Reassembler.inside_stored first final f = true
      ↔ (first ≥ f.1 ∧ final ≤ f.1 + f.2.length - 1) := by
  unfold Reassembler.inside_stored; exact decide_eq_true_iff

theorem Merged.refl {m : PendingMap} {first : Nat} {data : Bytes} (h : PInv m)
    (hc : ∀ p, first ≤ p ∧ p < first + data.length → Cov m p) : Merged m m first data :=
  ⟨h, fun f hf => Or.inr ⟨f, hf, rfl, List.prefix_refl _⟩, fun p hp => hp.elim id (hc p)⟩

theorem store_merge_frame (r : Reassembler) (first : Nat) (data : Bytes) (final : Nat) :
    (r.store_merge first data final).output_ = r.output_
      ∧ (r.store_merge first data final).next_index_ = r.next_index_
      ∧ (r.store_merge first data final).total_pushed_len_ = r.total_pushed_len_ := by
  unfold Reassembler.store_merge
  simp only
  split <;> simp

theorem store_merge_spec (r : Reassembler) (first : Nat) (data : Bytes)
    (hp : PInv r.pending_substr_) (he : Exact r.bytes_pending_ r.pending_substr_)
    (hd : data ≠ []) (hk : ∀ f ∈ r.pending_substr_, f.1 ≠ first) :
    Merged (r.store_merge first data (first + data.length - 1)).pending_substr_
        r.pending_substr_ first data
      ∧ Exact (r.store_merge first data (first + data.length - 1)).bytes_pending_
          (r.store_merge first data (first + data.length - 1)).pending_substr_ := by
  have hdpos := List.length_pos.mpr hd
  set final := first + data.length - 1 with hfinal
  set m := r.pending_substr_ with hm
  set m2 := (Reassembler.erase_covered m r.bytes_pending_ first final).1 with hm2
  have hm2f : m2 = m.filter (fun node => !Reassembler.inside_new first final node) :=
    erase_covered_fst _ _ _ _
  have hsub : m2.Sublist m := by rw [hm2f]; exact List.filter_sublist _
  have hp2 : PInv m2 := hp.sublist hsub
  have he2 := erase_covered_exact first final he
  have hnew : ∀ f ∈ m2, ¬ (f.1 ≥ first ∧ f.1 + f.2.length - 1 ≤ final) := by
    intro f hf
    rw [hm2f] at hf
    have h1 := (List.mem_filter.mp hf).2
    intro hc
    rw [(inside_new_iff first final f).mpr hc] at h1
    cases h1
  have hgone : ∀ f ∈ m, f ∉ m2 → first ≤ f.1 ∧ f.1 + f.2.length - 1 ≤ final := by
    intro f hf hnot
    by_contra hc
    apply hnot
    rw [hm2f]
    refine List.mem_filter.mpr ⟨hf, ?_⟩
    cases h1 : Reassembler.inside_new first final f
    · rfl
    · exact absurd ((inside_new_iff first final f).mp h1) hc
  unfold Reassembler.store_merge
  simp only
  rw [← hm, ← hm2]
  cases hcov : Reassembler.covered_by_stored m2 first final
  · -- the new fragment is put into the store
    simp only [Bool.false_eq_true, if_false]
    have hold : ∀ f ∈ m2, ¬ (first ≥ f.1 ∧ final ≤ f.1 + f.2.length - 1) := by
      intro f hf hc
      have : Reassembler.covered_by_stored m2 first final = true := by
        unfold Reassembler.covered_by_stored
        exact List.any_eq_true.mpr ⟨f, hf, (inside_stored_iff first final f).mpr hc⟩
      rw [hcov] at this; cases this
    obtain ⟨A, B, hAB, hA, hB, hem⟩ := emplace_split m2 first data hp2.keys
      (fun f hf => hk f (hsub.subset hf))
    have hAm : ∀ a ∈ A, a ∈ m2 := fun a ha => by rw [hAB]; exact List.mem_append_left _ ha
    have hBm : ∀ b ∈ B, b ∈ m2 := fun b hb => by rw [hAB]; exact List.mem_append_right _ hb
    have hpA : PInv A := hp2.sublist (by rw [hAB]; exact List.sublist_append_left _ _)
    have hpB : PInv B := hp2.sublist (by rw [hAB]; exact List.sublist_append_right _ _)
    have hAB2 := (List.pairwise_append.mp (hAB ▸ hp2.1)).2.2
    set m3 := m2.emplace first data with hm3
    have hne3 : ∀ f ∈ m3, f.2 ≠ [] := by
      intro f hf
      rw [hem] at hf
      rcases List.mem_append.mp hf with h | h
      · exact hp2.2 f (hAm f h)
      · rcases List.mem_cons.mp h with rfl | h
        · exact hd
        · exact hp2.2 f (hBm f h)
    have hs3 : m3.Pairwise (fun a b => a.1 < b.1) := by
      rw [hem]
      refine List.pairwise_append.mpr ⟨hpA.keys, List.pairwise_cons.mpr ⟨hB, hpB.keys⟩, ?_⟩
      intro a ha b hb
      rcases List.mem_cons.mp hb with rfl | hb
      · exact hA a ha
      · have := hA a ha; have := hB b hb; omega
    have hmono : m3.Pairwise (fun a b => a.1 + a.2.length ≤ b.1 + b.2.length) := by
      rw [hem]
      refine List.pairwise_append.mpr ⟨?_, List.pairwise_cons.mpr ⟨?_, ?_⟩, ?_⟩
      · exact hpA.1.imp (fun h => by omega)
      · intro b hb
        have := hnew b (hBm b hb); have := hB b hb
        show first + data.length ≤ b.1 + b.2.length
        omega
      · exact hpB.1.imp (fun h => by omega)
      · intro a ha b hb
        have h1 := hold a (hAm a ha); have h2 := hA a ha
        have h3 := hp2.len_pos (hAm a ha)
        rcases List.mem_cons.mp hb with rfl | hb
        · show a.1 + a.2.length ≤ first + data.length
          omega
        · have := hAB2 a ha b hb; omega
    have hlb : m3.lower_bound first = A.length := by rw [hem]; exact lower_bound_split A B first data hA
    have hub : m3.upper_bound final = A.length + 1 + B.upper_bound final := by
      rw [hem]; exact upper_bound_split A B first final data hA (by omega)
    rw [hlb, hub]
    set skip := (if A.length ≠ 0 then A.length - 1 else A.length) with hskip
    set count := A.length + 1 + B.upper_bound final - 1 - skip with hcount
    have hsc : skip + count = A.length + B.upper_bound final := by
      rw [hcount, hskip]; split <;> omega
    have htake : Disj (m3.take (skip + 1)) := by
      rw [hem]
      by_cases hA0 : A.length = 0
      · have : A = [] := List.length_eq_zero.mp hA0
        subst this
        simp [hskip, Disj]
      · have e : skip + 1 = A.length := by rw [hskip]; simp [hA0]; omega
        rw [e, List.take_left']
        · exact hpA.1
        · rfl
    have hdrop : Disj (m3.drop (skip + count)) := by
      rw [hem, hsc, ← List.drop_drop, List.drop_left']
      swap
      · rfl
      cases hu : B.upper_bound final with
      | zero =>
        have := upper_bound_zero hpB.keys hu
        simp only [List.drop_zero]
        refine List.pairwise_cons.mpr ⟨?_, hpB.1⟩
        intro b hb
        have := this b hb
        show first + data.length ≤ b.1
        omega
      | succ j =>
        simp only [List.drop_succ_cons]
        exact hpB.1.sublist (List.drop_sublist _ _)
    have hwalk := trim_walk_eq_trim_all m3 skip count (u64add (Reassembler.erase_covered m
      r.bytes_pending_ first final).2 data.length) hne3 htake hdrop
    have htot : m3.total_bytes = m2.total_bytes + data.length := by
      rw [hem, hAB, total_bytes_append, total_bytes_append, total_bytes_cons]
      simp only; omega
    have hbp := trim_walk_snd m3 skip count (u64add (Reassembler.erase_covered m
      r.bytes_pending_ first final).2 data.length) 0 hs3 hne3 (by
        have := he2.add htot
        simpa [Exact] using this)
    refine ⟨⟨?_, ?_, ?_⟩, ?_⟩
    · rw [hwalk]; exact trim_all_pinv m3 hs3 hne3
    · rw [hwalk]
      intro f hf
      obtain ⟨g, hg, h1, h2⟩ := trim_all_mem m3 f hf
      rw [hem] at hg
      rcases List.mem_append.mp hg with h | h
      · exact Or.inr ⟨g, hsub.subset (hAm g h), h1, h2⟩
      · rcases List.mem_cons.mp h with rfl | h
        · exact Or.inl ⟨h1.symm, h2⟩
        · exact Or.inr ⟨g, hsub.subset (hBm g h), h1, h2⟩
    · rw [hwalk]
      intro p hp
      apply trim_all_cov m3 hs3 hne3 hmono
      have hN : (first, data) ∈ m3 := by rw [hem]; simp
      have inN : first ≤ p ∧ p < first + data.length → Cov m3 p :=
        fun h => ⟨(first, data), hN, h.1, h.2⟩
      rcases hp with ⟨f, hf, h1, h2⟩ | hp
      · by_cases hin : f ∈ m2
        · refine ⟨f, ?_, h1, h2⟩
          rw [hem]; rw [hAB] at hin
          rcases List.mem_append.mp hin with h | h
          · exact List.mem_append_left _ h
          · exact List.mem_append_right _ (List.mem_cons_of_mem _ h)
        · have := hgone f hf hin
          exact inN ⟨by omega, by omega⟩
      · exact inN hp
    · simpa [Exact] using hbp
  · -- the new fragment lies inside a stored one
    simp only [if_true]
    refine ⟨⟨hp2, ?_, ?_⟩, he2⟩
    · intro f hf
      exact Or.inr ⟨f, hsub.subset hf, rfl, List.prefix_refl _⟩
    · obtain ⟨c, hc, hcc⟩ := List.any_eq_true.mp hcov
      have hcc : first ≥ c.1 ∧ final ≤ c.1 + c.2.length - 1 :=
        (inside_stored_iff first final c).mp hcc
      have hcpos := hp2.len_pos hc
      have inC : ∀ p, first ≤ p ∧ p < first + data.length → Cov m2 p :=
        fun p h => ⟨c, hc, by omega, by omega⟩
      intro p hp
      rcases hp with ⟨f, hf, h1, h2⟩ | hp
      · by_cases hin : f ∈ m2
        · exact ⟨f, hin, h1, h2⟩
        · have := hgone f hf hin
          exact inC p ⟨by omega, by omega⟩
      · exact inC p hp

/-! ## `store` -/

theorem clip_initial (r : Reassembler) (first : Nat) (data : Bytes) :
    r.clip_to_capacity first data <+: data := by
  unfold Reassembler.clip_to_capacity
  simp only
  split
  · exact List.take_prefix _ _
  · exact List.prefix_refl _

theorem store_frame (r : Reassembler) (first : Nat) (data : Bytes) :
    (r.store first data).output_ = r.output_
      ∧ (r.store first data).next_index_ = r.next_index_
      ∧ (r.store first data).total_pushed_len_ = r.total_pushed_len_ := by
  unfold Reassembler.store
  simp only
  split
  · simp
  · split
    · simp
    · split
      · split
        · simp
        · exact store_merge_frame _ _ _ _
      · exact store_merge_frame _ _ _ _

theorem store_spec (r : Reassembler) (first : Nat) (data : Bytes)
    (hp : PInv r.pending_substr_) (he : Exact r.bytes_pending_ r.pending_substr_) :
    Merged (r.store first data).pending_substr_ r.pending_substr_ first
        (r.clip_to_capacity first data)
      ∧ Exact (r.store first data).bytes_pending_ (r.store first data).pending_substr_ := by
  unfold Reassembler.store
  simp only
  set d := r.clip_to_capacity first data with hd
  by_cases hemp : d = []
  · simp only [hemp, List.isEmpty_nil, if_true]
    exact ⟨Merged.refl hp (fun p h => by simp at h; omega), he⟩
  · have hdpos := List.length_pos.mpr hemp
    have hie : d.isEmpty = false := by
      cases hx : d.isEmpty
      · rfl
      · exact absurd (List.isEmpty_iff.mp hx) hemp
    simp only [hie, Bool.false_eq_true, if_false]
    by_cases hm : r.pending_substr_ = []
    · simp only [hm, List.isEmpty_nil, if_true, PendingMap.emplace]
      refine ⟨⟨⟨by simp, by simpa using hemp⟩, ?_, ?_⟩, ?_⟩
      · intro f hf
        rw [List.mem_singleton.mp hf]
        exact Or.inl ⟨rfl, List.prefix_refl _⟩
      · intro p h
        rcases h with ⟨f, hf, _⟩ | h
        · simp at hf
        · exact ⟨(first, d), by simp, h.1, h.2⟩
      · rw [hm] at he
        exact he.add (by simp [PendingMap.total_bytes])
    · have hie2 : r.pending_substr_.isEmpty = false := by
        cases hx : r.pending_substr_.isEmpty
        · rfl
        · exact absurd (List.isEmpty_iff.mp hx) hm
      simp only [hie2, Bool.false_eq_true, if_false]
      cases hc : r.pending_substr_.contains first
      · simp only [Bool.false_eq_true, if_false]
        exact store_merge_spec r first d hp he hemp (contains_false hc)
      · simp only [if_true]
        have hmem := at_mem hc
        by_cases hlen : (r.pending_substr_.at_ first).length ≥ d.length
        · simp only [hlen, if_true]
          refine ⟨Merged.refl hp ?_, he⟩
          intro p h
          exact ⟨_, hmem, h.1, by simp only; omega⟩
        · simp only [hlen, if_false]
          set r1 : Reassembler :=
            { r with bytes_pending_ := u64sub r.bytes_pending_ (r.pending_substr_.at_ first).length,
                     pending_substr_ := r.pending_substr_.erase first } with hr1
          have hp1 : PInv r1.pending_substr_ := hp.sublist (erase_sublist _ _)
          have he1 : Exact r1.bytes_pending_ r1.pending_substr_ :=
            he.sub (erase_total _ first hp.keys)
          obtain ⟨hM, hE⟩ := store_merge_spec r1 first d hp1 he1 hemp erase_key
          refine ⟨⟨hM.pinv, ?_, ?_⟩, hE⟩
          · intro f hf
            rcases hM.src f hf with h | ⟨g, hg, h1, h2⟩
            · exact Or.inl h
            · exact Or.inr ⟨g, (erase_sublist _ _).subset hg, h1, h2⟩
          · intro p h
            apply hM.cov
            rcases h with ⟨f, hf, h1, h2⟩ | h
            · by_cases hfk : f.1 = first
              · have hfe : f = (first, r.pending_substr_.at_ first) := by
                  by_contra hne
                  have hk := hp.keys
                  have := List.Pairwise.forall_of_forall (l := r.pending_substr_)
                    (R := fun a b => a.1 ≠ b.1 ∨ a = b)
                    (fun a b h => h.elim (fun h => Or.inl (Ne.symm h)) (fun h => Or.inr h.symm))
                    (fun a _ => Or.inr rfl)
                    (hk.imp (fun h => Or.inl (Nat.ne_of_lt h))) hf hmem
                  rcases this with h | h
                  · exact h hfk
                  · exact hne h
                rw [hfe] at h2
                simp only at h2
                right; omega
              · left
                refine ⟨f, ?_, h1, h2⟩
                show f ∈ r.pending_substr_.erase first
                exact List.mem_filter.mpr ⟨hf, by simpa using hfk⟩
            · exact Or.inr h

/-! ## `write_stored_str` -/

theorem insert_or_store_of_le (r : Reassembler) (k : Nat) (d : Bytes) (h : k ≤ r.next_index_) :
    r.insert_or_store k d = r.write (d.drop (r.next_index_ - k)) := by
  unfold Reassembler.insert_or_store Reassembler.truncate_head
  by_cases hlt : k < r.next_index_
  · simp [hlt]
  · have : k = r.next_index_ := by omega
    simp [this]

theorem insert_or_store_of_gt (r : Reassembler) (k : Nat) (d : Bytes) (h : r.next_index_ < k) :
    r.insert_or_store k d = r.store k d := by
  unfold Reassembler.insert_or_store
  have : ¬ k < r.next_index_ := by omega
  simp [this, h]

theorem drain_congr (todo : PendingMap) (r r2 : Reassembler)
    (h1 : r.output_ = r2.output_) (h2 : r.next_index_ = r2.next_index_)
    (h3 : r.bytes_pending_ = r2.bytes_pending_)
    (h4 : r.total_pushed_len_ = r2.total_pushed_len_) : drain todo r = drain todo r2 := by
  induction todo generalizing r r2 with
  | nil => simp [drain, h1, h2, h3, h4]
  | cons node rest ih =>
    simp only [drain, h2]
    split
    · apply ih <;> simp [Reassembler.write, h1, h2, h3, h4]
    · simp [h1, h2, h3, h4]

theorem write_stored_loop_skip (todo : PendingMap) (r : Reassembler)
    (h : ∀ f ∈ todo, r.next_index_ < f.1) : Reassembler.write_stored_loop todo r = r := by
  induction todo with
  | nil => rfl
  | cons node rest ih =>
    have h1 := h node (List.mem_cons_self _ _)
    have : ¬ node.1 ≤ r.next_index_ := by omega
    simp only [Reassembler.write_stored_loop, this, if_false]
    exact ih (fun f hf => h f (List.mem_cons_of_mem _ hf))

theorem assign_split (done rest : PendingMap) (node : Frag) (v : Bytes)
    (hs : (done ++ node :: rest).Pairwise (fun a b => a.1 < b.1)) :
    PendingMap.assign (done ++ node :: rest) node.1 v = done ++ (node.1, v) :: rest := by
  obtain ⟨h1, h2, h3⟩ := List.pairwise_append.mp hs
  have h4 := (List.pairwise_cons.mp h2).1
  unfold PendingMap.assign
  rw [List.map_append, List.map_cons]
  congr 1
  · conv_rhs => rw [← List.map_id done]
    apply List.map_congr_left
    intro a ha
    have := h3 a ha node (List.mem_cons_self _ _)
    have hne : ¬ a.1 = node.1 := by omega
    simp [hne]
  · congr 1
    · simp
    · conv_rhs => rw [← List.map_id rest]
      apply List.map_congr_left
      intro a ha
      have := h4 a ha
      have hne : ¬ a.1 = node.1 := by omega
      simp [hne]

theorem write_stored_loop_eq (todo done : PendingMap) (r : Reassembler)
    (hr : r.pending_substr_ = done ++ todo) (hdone : ∀ f ∈ done, f.2 = [])
    (hs : (done ++ todo).Pairwise (fun a b => a.1 < b.1)) (hne : ∀ f ∈ todo, f.2 ≠ []) :
    drop_emptied (Reassembler.write_stored_loop todo r) = drain todo r := by
  induction todo generalizing done r with
  | nil =>
    simp only [Reassembler.write_stored_loop, drain, drop_emptied]
    have : r.pending_substr_.filter (fun node => !node.2.isEmpty) = [] := by
      rw [hr, List.append_nil, List.filter_eq_nil_iff]
      intro f hf
      simp [hdone f hf]
    rw [this]
  | cons node rest ih =>
    by_cases hle : node.1 ≤ r.next_index_
    · set r1 : Reassembler :=
        { r with pending_substr_ := r.pending_substr_.assign node.1 [],
                 bytes_pending_ := u64sub r.bytes_pending_ node.2.length } with hr1
      have hstep : Reassembler.write_stored_loop (node :: rest) r
          = Reassembler.write_stored_loop rest (r1.insert_or_store node.1 node.2) := by
        simp only [Reassembler.write_stored_loop, hle, if_true, hr1]
      have hios : r1.insert_or_store node.1 node.2
          = r1.write (node.2.drop (r1.next_index_ - node.1)) :=
        insert_or_store_of_le r1 node.1 node.2 hle
      have hasg : r.pending_substr_.assign node.1 [] = (done ++ [(node.1, [])]) ++ rest := by
        rw [hr, assign_split done rest node [] hs]; simp
      have hs2 : List.Pairwise (fun (a b : Frag) => a.1 < b.1)
          ((done ++ [(node.1, [])]) ++ rest) := by
        have : List.Pairwise (fun (a b : Frag) => a.1 < b.1)
            (done ++ (node.1, ([] : Bytes)) :: rest) := by
          obtain ⟨h1, h2, h3⟩ := List.pairwise_append.mp hs
          refine List.pairwise_append.mpr ⟨h1, ?_, ?_⟩
          · exact List.pairwise_cons.mpr ⟨(List.pairwise_cons.mp h2).1, (List.pairwise_cons.mp h2).2⟩
          · intro a ha b hb
            rcases List.mem_cons.mp hb with rfl | hb
            · exact h3 a ha node (List.mem_cons_self _ _)
            · exact h3 a ha b (List.mem_cons_of_mem _ hb)
        simpa using this
      rw [hstep, hios, ih (done ++ [(node.1, [])]) _ (by simpa [Reassembler.write, hr1] using hasg)
        (by
          intro f hf
          rcases List.mem_append.mp hf with h | h
          · exact hdone f h
          · rw [List.mem_singleton.mp h])
        hs2 (fun f hf => hne f (List.mem_cons_of_mem _ hf))]
      simp only [drain, hle, if_true]
      apply drain_congr <;> simp [Reassembler.write, hr1]
    · have hs2 := (List.pairwise_append.mp hs).2.1
      have hskip : ∀ f ∈ rest, r.next_index_ < f.1 := by
        intro f hf
        have := (List.pairwise_cons.mp hs2).1 f hf
        omega
      simp only [Reassembler.write_stored_loop, drain, hle, if_false, drop_emptied]
      rw [write_stored_loop_skip rest r hskip]
      have : r.pending_substr_.filter (fun node => !node.2.isEmpty) = node :: rest := by
        rw [hr, List.filter_append]
        have h1 : done.filter (fun node => !node.2.isEmpty) = [] := by
          rw [List.filter_eq_nil_iff]
          intro f hf
          simp [hdone f hf]
        have h2 : (node :: rest).filter (fun node => !node.2.isEmpty) = node :: rest := by
          rw [List.filter_eq_self]
          intro f hf
          have := hne f hf
          cases hx : f.2 with
          | nil => exact absurd hx this
          | cons _ _ => rfl
        rw [h1, h2]; rfl
      rw [this]

theorem write_stored_str_eq (r : Reassembler) (hp : PInv r.pending_substr_) :
    r.write_stored_str = drain r.pending_substr_ r := by
  have := write_stored_loop_eq r.pending_substr_ [] r rfl (by simp) (by simpa using hp.keys) hp.2
  rw [← this]; rfl

/-! ## The invariant of the Reassembler -/

theorem push_pushed_ge (b : ByteStream) (d : Bytes) : b.bytes_pushed_ ≤ (b.push d).bytes_pushed_ := by
  unfold ByteStream.push
  split
  · exact le_refl _
  · simp

theorem push_frame (b : ByteStream) (d : Bytes) :
    (b.push d).capacity_ = b.capacity_ ∧ (b.push d).closed_ = b.closed_
      ∧ (b.push d).error_ = b.error_ ∧ (b.push d).bytes_popped_ = b.bytes_popped_ := by
  unfold ByteStream.push
  split <;> simp

theorem prefix_stop {f g : Frag} {B : Nat} (h1 : g.1 = f.1) (h2 : f.2 <+: g.2)
    (h3 : g.1 + g.2.length < B) : f.1 + f.2.length < B := by
  have := h2.length_le; omega

theorem insert_or_store_pre (r : Reassembler) (first : Nat) (data : Bytes) (h : Pre r)
    (hw : first + data.length < 2 ^ 64) : Pre (r.insert_or_store first data) := by
  by_cases hgt : r.next_index_ < first
  · rw [insert_or_store_of_gt _ _ _ hgt]
    obtain ⟨hM, hE⟩ := store_spec r first data h.pinv h.exact
    obtain ⟨h1, h2, _⟩ := store_frame r first data
    refine ⟨hM.pinv, hE, by rw [h1, h2]; exact h.next, ?_⟩
    intro f hf
    rcases hM.src f hf with ⟨hk, hp⟩ | ⟨g, hg, hk, hp⟩
    · have := hp.length_le
      have := (clip_initial r first data).length_le
      omega
    · exact prefix_stop hk hp (h.bound g hg)
  · rw [insert_or_store_of_le _ _ _ (by omega)]
    exact ⟨h.pinv, h.exact, rfl, h.bound⟩

theorem insert_or_store_keys (r : Reassembler) (first : Nat) (data : Bytes) (h : Pre r)
    (hk : ∀ f ∈ r.pending_substr_, r.next_index_ < f.1) (hgt : r.next_index_ < first) :
    ∀ f ∈ (r.insert_or_store first data).pending_substr_,
      (r.insert_or_store first data).next_index_ < f.1 := by
  rw [insert_or_store_of_gt _ _ _ hgt]
  obtain ⟨hM, _⟩ := store_spec r first data h.pinv h.exact
  obtain ⟨_, h2, _⟩ := store_frame r first data
  intro f hf
  rw [h2]
  rcases hM.src f hf with ⟨hk1, _⟩ | ⟨g, hg, hk1, _⟩
  · omega
  · have := hk g hg; omega

theorem insert_or_store_frame (r : Reassembler) (first : Nat) (data : Bytes) :
    (r.insert_or_store first data).total_pushed_len_ = r.total_pushed_len_
      ∧ (r.insert_or_store first data).output_.capacity_ = r.output_.capacity_
      ∧ (r.insert_or_store first data).output_.closed_ = r.output_.closed_
      ∧ (r.insert_or_store first data).output_.error_ = r.output_.error_
      ∧ (r.insert_or_store first data).output_.bytes_popped_ = r.output_.bytes_popped_ := by
  by_cases hgt : r.next_index_ < first
  · rw [insert_or_store_of_gt _ _ _ hgt]
    obtain ⟨h1, _, h3⟩ := store_frame r first data
    rw [h1, h3]; simp
  · rw [insert_or_store_of_le _ _ _ (by omega)]
    obtain ⟨h1, h2, h3, h4⟩ := push_frame r.output_ (data.drop (r.next_index_ - first))
    simp [Reassembler.write, h1, h2, h3, h4]

/-- What `drain` leaves: a final part of the store whose keys all lie beyond the new
`next_index_`, with the counter adjusted. -/
theorem drain_spec (m : PendingMap) (r : Reassembler) (hp : PInv m)
    (hb : Exact r.bytes_pending_ m) (hn : r.next_index_ = r.output_.bytes_pushed_) :
    (∃ j, (drain m r).pending_substr_ = m.drop j)
      ∧ (∀ f ∈ (drain m r).pending_substr_, (drain m r).next_index_ < f.1)
      ∧ Exact (drain m r).bytes_pending_ (drain m r).pending_substr_
      ∧ (drain m r).next_index_ = (drain m r).output_.bytes_pushed_
      ∧ r.next_index_ ≤ (drain m r).next_index_
      ∧ (drain m r).total_pushed_len_ = r.total_pushed_len_
      ∧ (drain m r).output_.capacity_ = r.output_.capacity_
      ∧ (drain m r).output_.closed_ = r.output_.closed_
      ∧ (drain m r).output_.error_ = r.output_.error_
      ∧ (drain m r).output_.bytes_popped_ = r.output_.bytes_popped_ := by
  induction m generalizing r with
  | nil =>
    refine ⟨⟨0, rfl⟩, by simp [drain], ?_, hn, le_refl _, rfl, rfl, rfl, rfl, rfl⟩
    simpa [drain] using hb
  | cons node rest ih =>
    by_cases hle : node.1 ≤ r.next_index_
    · set r1 := Reassembler.write
        { r with bytes_pending_ := u64sub r.bytes_pending_ node.2.length }
        (node.2.drop (r.next_index_ - node.1)) with hr1
      have hd : drain (node :: rest) r = drain rest r1 := by
        simp only [drain, hle, if_true, hr1]
      have hb1 : Exact r1.bytes_pending_ rest := by
        have : r1.bytes_pending_ = u64sub r.bytes_pending_ node.2.length := rfl
        rw [this]
        exact hb.sub (by rw [total_bytes_cons]; omega)
      have hn1 : r1.next_index_ = r1.output_.bytes_pushed_ := rfl
      have hge : r.next_index_ ≤ r1.next_index_ := by
        rw [hn]; exact push_pushed_ge _ _
      obtain ⟨hf1, hf2, hf3, hf4⟩ := push_frame r.output_ (node.2.drop (r.next_index_ - node.1))
      obtain ⟨⟨j, hj⟩, h2, h3, h4, h5, h6, h7, h8, h9, h10⟩ := ih r1 hp.tail hb1 hn1
      rw [hd]
      refine ⟨⟨j + 1, by rw [hj]; rfl⟩, h2, h3, h4, le_trans hge h5, h6, ?_, ?_, ?_, ?_⟩
      · rw [h7]; exact hf1
      · rw [h8]; exact hf2
      · rw [h9]; exact hf3
      · rw [h10]; exact hf4
    · have hd : drain (node :: rest) r = { r with pending_substr_ := node :: rest } := by
        simp only [drain, hle, if_false]
      rw [hd]
      refine ⟨⟨0, rfl⟩, ?_, hb, hn, le_refl _, rfl, rfl, rfl, rfl, rfl⟩
      intro f hf
      rcases List.mem_cons.mp hf with rfl | hf
      · simp only; omega
      · have := (List.pairwise_cons.mp hp.keys).1 f hf
        simp only; omega

theorem write_stored_str_inv (r : Reassembler) (h : Pre r) :
    Pre r.write_stored_str
      ∧ (∀ f ∈ r.write_stored_str.pending_substr_, r.write_stored_str.next_index_ < f.1)
      ∧ r.write_stored_str.total_pushed_len_ = r.total_pushed_len_ := by
  rw [write_stored_str_eq r h.pinv]
  obtain ⟨⟨j, hj⟩, h2, h3, h4, _, h6, _⟩ := drain_spec r.pending_substr_ r h.pinv h.exact h.next
  refine ⟨⟨?_, h3, h4, ?_⟩, h2, h6⟩
  · rw [hj]; exact h.pinv.sublist (List.drop_sublist _ _)
  · intro f hf
    rw [hj] at hf
    exact h.bound f ((List.drop_sublist _ _).subset hf)

theorem fresh_inv (capacity : Nat) : Inv (Reassembler.fresh capacity) :=
  ⟨⟨PInv.nil, rfl, rfl, by simp [Reassembler.fresh]⟩, by simp [Reassembler.fresh],
    by simp [Reassembler.fresh]⟩

theorem insert_inv (r : Reassembler) (c : Call) (h : Inv r) (hw : c.wf) :
    Inv (r.insert c.first_index c.data c.is_last_substring) := by
  set r0 : Reassembler := if c.is_last_substring then
      { r with total_pushed_len_ := some (u64add c.first_index c.data.length) } else r
    with hr0
  have h0 : Pre r0 := by
    rw [hr0]; split
    · exact ⟨h.pre.pinv, h.pre.exact, h.pre.next, h.pre.bound⟩
    · exact h.pre
  have h1 := insert_or_store_pre r0 c.first_index c.data h0 hw
  obtain ⟨h2, h3, _⟩ := write_stored_str_inv _ h1
  unfold Reassembler.insert
  simp only
  rw [← hr0]
  split
  · exact ⟨⟨h2.pinv, h2.exact, h2.next, h2.bound⟩, h3, fun _ => rfl⟩
  · rename_i hne
    exact ⟨h2, h3, fun hc => absurd hc hne⟩

theorem run_append (r : Reassembler) (cs : List Call) (c : Call) :
    r.run (cs ++ [c]) = (r.run cs).insert c.first_index c.data c.is_last_substring := by
  simp [Reassembler.run, List.foldl_append]

theorem run_inv (r : Reassembler) (cs : List Call) (h : Inv r) (hw : ∀ c ∈ cs, c.wf) :
    Inv (r.run cs) := by
  induction cs generalizing r with
  | nil => exact h
  | cons c cs ih =>
    exact ih _ (insert_inv r c h (hw c (List.mem_cons_self _ _)))
      (fun x hx => hw x (List.mem_cons_of_mem _ hx))

theorem Reachable.inv {r : Reassembler} (h : Reachable r) : Inv r := by
  obtain ⟨capacity, calls, _, hw, rfl⟩ := h
  exact run_inv _ calls (fresh_inv capacity) hw

theorem total_bound_cons (r : PendingMap) (x : Frag) (B : Nat) (hp : PInv (x :: r))
    (hb : ∀ f ∈ x :: r, f.1 + f.2.length < B) : x.1 + PendingMap.total_bytes (x :: r) < B := by
  induction r generalizing x with
  | nil =>
    have := hb x (List.mem_cons_self _ _)
    simpa [PendingMap.total_bytes] using this
  | cons y r ih =>
    have h1 := ih y hp.tail (fun f hf => hb f (List.mem_cons_of_mem _ hf))
    have h2 := (List.pairwise_cons.mp hp.1).1 y (List.mem_cons_self _ _)
    rw [total_bytes_cons]
    omega

theorem total_bound (m : PendingMap) (B : Nat) (hB : 0 < B) (hp : PInv m)
    (hb : ∀ f ∈ m, f.1 + f.2.length < B) : m.total_bytes < B := by
  cases m with
  | nil => simpa [PendingMap.total_bytes] using hB
  | cons x r => have := total_bound_cons r x B hp hb; omega

/-! ## The claims about the store: C2, C3, C4 -/

/-- C2 (the code at the failing input): on a new Reassembler of capacity 2 the call
`insert(5, "ab", false)` keeps both bytes in the pending store, at the positions 5 and 6,
although the acceptance window `[next_index, next_index + available_capacity)` ends at 2:
the subtraction `available_capacity - (first_index - next_index)` wraps around. -/
theorem C2_bytes_beyond_capacity_retained :
    ((Reassembler.fresh 2).insert 5 ['a', 'b'] false).pending_substr_ = [(5, ['a', 'b'])]
      ∧ ((Reassembler.fresh 2).insert 5 ['a', 'b'] false).bytes_pending = 2
      ∧ ((Reassembler.fresh 2).insert 5 ['a', 'b'] false).next_index_
          + ((Reassembler.fresh 2).insert 5 ['a', 'b'] false).output_.available_capacity = 2
      ∧ (Reassembler.fresh 2).clip_to_capacity 5 ['a', 'b'] = ['a', 'b'] := by
  decide

/-- C4: in every state reachable from a new Reassembler by `insert` calls,
`bytes_pending()` is the sum of the lengths of the fragments held in the pending store;
the sum stays below `2 ^ 64`, so the `uint64_t` counter has not wrapped. -/
theorem C4_bytes_pending_exact (r : Reassembler) (h : Reachable r) :
    r.bytes_pending = r.pending_substr_.total_bytes ∧ r.pending_substr_.total_bytes < 2 ^ 64 := by
  have hi := h.inv
  have hlt := total_bound r.pending_substr_ (2 ^ 64) (by norm_num) hi.pre.pinv hi.pre.bound
  refine ⟨?_, hlt⟩
  have := hi.pre.exact
  unfold Exact at this
  unfold Reassembler.bytes_pending
  rw [this]
  exact Nat.mod_eq_of_lt hlt

/-- C4 at a concrete state: after `insert(7, "cd")`, `insert(3, "xyz")`, `insert(4, "yzw")`
on a stream of capacity 10. -/
theorem C4_bytes_pending_exact_witness :
    ((Reassembler.fresh 10).run
        [⟨7, ['c', 'd'], false⟩, ⟨3, ['x', 'y', 'z'], false⟩,
         ⟨4, ['y', 'z', 'w'], false⟩]).bytes_pending
      = ((Reassembler.fresh 10).run
        [⟨7, ['c', 'd'], false⟩, ⟨3, ['x', 'y', 'z'], false⟩,
         ⟨4, ['y', 'z', 'w'], false⟩]).pending_substr_.total_bytes
      ∧ ((Reassembler.fresh 10).run
        [⟨7, ['c', 'd'], false⟩, ⟨3, ['x', 'y', 'z'], false⟩,
         ⟨4, ['y', 'z', 'w'], false⟩]).pending_substr_.total_bytes < 2 ^ 64 :=
  C4_bytes_pending_exact _ ⟨10, _, by decide, by decide, rfl⟩

/-! ## Closing the output: C5, C6 -/

theorem write_stored_loop_total (todo : PendingMap) (r : Reassembler) :
    (Reassembler.write_stored_loop todo r).total_pushed_len_ = r.total_pushed_len_ := by
  induction todo generalizing r with
  | nil => rfl
  | cons node rest ih =>
    simp only [Reassembler.write_stored_loop]
    split
    · rw [ih, (insert_or_store_frame _ _ _).1]
    · exact ih r

theorem insert_eq (r : Reassembler) (c : Call) :
    r.insert c.first_index c.data c.is_last_substring
      = if (before_close r c).total_pushed_len_ = some (before_close r c).output_.bytes_pushed_
        then { before_close r c with output_ := (before_close r c).output_.close }
        else before_close r c := rfl

theorem u64add_of_lt (a b : Nat) (h : a + b < 2 ^ 64) : u64add a b = a + b := by
  unfold u64add
  omega

theorem before_close_total (r : Reassembler) (c : Call) :
    (before_close r c).total_pushed_len_
      = if c.is_last_substring then some (u64add c.first_index c.data.length)
        else r.total_pushed_len_ := by
  unfold before_close Reassembler.write_stored_str
  simp only
  rw [write_stored_loop_total, (insert_or_store_frame _ _ _).1]
  split <;> rfl

theorem insert_total (r : Reassembler) (first : Nat) (data : Bytes) (is_last : Bool) :
    (r.insert first data is_last).total_pushed_len_
      = if is_last then some (u64add first data.length) else r.total_pushed_len_ := by
  have h1 := insert_eq r ⟨first, data, is_last⟩
  have h2 := before_close_total r ⟨first, data, is_last⟩
  simp only at h1 h2
  rw [h1]
  split
  · exact h2
  · exact h2

theorem insert_closes (r : Reassembler) (first : Nat) (data : Bytes) (is_last : Bool)
    (h : (r.insert first data is_last).total_pushed_len_
      = some (r.insert first data is_last).output_.bytes_pushed_) :
    (r.insert first data is_last).output_.closed_ = true := by
  have h1 := insert_eq r ⟨first, data, is_last⟩
  simp only at h1
  rw [h1] at h ⊢
  split
  · rfl
  · rename_i hne
    rw [if_neg hne] at h
    exact absurd h hne

theorem push_of_closed (b : ByteStream) (d : Bytes) (h : b.closed_ = true) : b.push d = b := by
  unfold ByteStream.push
  simp [h]

theorem drain_output_closed (m : PendingMap) (r : Reassembler) (h : r.output_.closed_ = true) :
    (drain m r).output_ = r.output_ := by
  induction m generalizing r with
  | nil => rfl
  | cons node rest ih =>
    simp only [drain]
    split
    · rw [ih]
      · simp [Reassembler.write, push_of_closed _ _ h]
      · simp [Reassembler.write, push_of_closed _ _ h, h]
    · rfl

theorem insert_or_store_output_closed (r : Reassembler) (first : Nat) (data : Bytes)
    (h : r.output_.closed_ = true) : (r.insert_or_store first data).output_ = r.output_ := by
  by_cases hgt : r.next_index_ < first
  · rw [insert_or_store_of_gt _ _ _ hgt]; exact (store_frame r first data).1
  · rw [insert_or_store_of_le _ _ _ (by omega)]
    simp [Reassembler.write, push_of_closed _ _ h]

theorem write_stored_loop_closed (todo : PendingMap) (r : Reassembler) :
    (Reassembler.write_stored_loop todo r).output_.closed_ = r.output_.closed_ := by
  induction todo generalizing r with
  | nil => rfl
  | cons node rest ih =>
    simp only [Reassembler.write_stored_loop]
    split
    · rw [ih, (insert_or_store_frame _ _ _).2.2.1]
    · exact ih r

theorem write_stored_loop_output_closed (todo : PendingMap) (r : Reassembler)
    (h : r.output_.closed_ = true) :
    (Reassembler.write_stored_loop todo r).output_ = r.output_ := by
  induction todo generalizing r with
  | nil => rfl
  | cons node rest ih =>
    simp only [Reassembler.write_stored_loop]
    split
    · have e := insert_or_store_output_closed
        { r with pending_substr_ := r.pending_substr_.assign node.1 [],
                 bytes_pending_ := u64sub r.bytes_pending_ node.2.length } node.1 node.2 h
      rw [ih _ (by rw [e]; exact h), e]
    · exact ih r h

/-- Nothing before the test at line 17 of `insert` closes the output, and nothing is
written to an output that is closed. -/
theorem before_close_closed (r : Reassembler) (c : Call) :
    (before_close r c).output_.closed_ = r.output_.closed_
      ∧ (r.output_.closed_ = true → (before_close r c).output_ = r.output_) := by
  set r0 : Reassembler := if c.is_last_substring then
      { r with total_pushed_len_ := some (u64add c.first_index c.data.length) } else r
    with hr0
  have ho : r0.output_ = r.output_ := by rw [hr0]; split <;> rfl
  have hf := insert_or_store_frame r0 c.first_index c.data
  have e : (before_close r c).output_
      = (Reassembler.write_stored_loop (r0.insert_or_store c.first_index c.data).pending_substr_
          (r0.insert_or_store c.first_index c.data)).output_ := rfl
  rw [e]
  refine ⟨by rw [write_stored_loop_closed, hf.2.2.1, ho], ?_⟩
  intro hc
  rw [write_stored_loop_output_closed _ _ (by rw [hf.2.2.1, ho]; exact hc),
    insert_or_store_output_closed _ _ _ (by rw [ho]; exact hc), ho]

theorem insert_closed_cases (r : Reassembler) (c : Call)
    (hc : (r.insert c.first_index c.data c.is_last_substring).output_.closed_ = true) :
    (r.output_.closed_ = true
        ∧ (r.insert c.first_index c.data c.is_last_substring).output_.bytes_pushed_
            = r.output_.bytes_pushed_)
      ∨ (r.insert c.first_index c.data c.is_last_substring).total_pushed_len_
          = some (r.insert c.first_index c.data c.is_last_substring).output_.bytes_pushed_ := by
  obtain ⟨h1, h2⟩ := before_close_closed r c
  rw [insert_eq] at hc ⊢
  split
  · rename_i heq
    right; simpa [ByteStream.close] using heq
  · rename_i hne
    rw [if_neg hne] at hc
    left
    rw [h1] at hc
    exact ⟨hc, by rw [h2 hc]⟩

theorem insert_stays_closed (r : Reassembler) (first : Nat) (data : Bytes) (is_last : Bool)
    (h : r.output_.closed_ = true) :
    (r.insert first data is_last).output_.closed_ = true
      ∧ (r.insert first data is_last).output_.bytes_pushed_ = r.output_.bytes_pushed_ := by
  obtain ⟨h1, h2⟩ := before_close_closed r ⟨first, data, is_last⟩
  have he := insert_eq r ⟨first, data, is_last⟩
  simp only at he
  rw [he]
  split
  · exact ⟨rfl, by simp [ByteStream.close, h2 h]⟩
  · exact ⟨by rw [h1]; exact h, by rw [h2 h]⟩

/-- The writer is closed only at the length recorded by an `insert` call with `is_last`,
and the recorded length is the one of such a call. -/
theorem run_closed (capacity : Nat) (calls : List Call) :
    (∀ T, ((Reassembler.fresh capacity).run calls).total_pushed_len_ = some T →
        ∃ c ∈ calls, c.is_last_substring = true ∧ u64add c.first_index c.data.length = T)
      ∧ (((Reassembler.fresh capacity).run calls).output_.closed_ = true →
        ∃ c ∈ calls, c.is_last_substring = true
          ∧ u64add c.first_index c.data.length
              = ((Reassembler.fresh capacity).run calls).output_.bytes_pushed_) := by
  induction calls using List.reverseRecOn with
  | nil => simp [Reassembler.run, Reassembler.fresh, ByteStream.fresh]
  | append_singleton cs c ih =>
    obtain ⟨ih1, ih2⟩ := ih
    rw [run_append]
    set r := (Reassembler.fresh capacity).run cs with hr
    have htot := insert_total r c.first_index c.data c.is_last_substring
    have lift : ∀ {T : Nat}, (∃ x ∈ cs, x.is_last_substring = true
        ∧ u64add x.first_index x.data.length = T) → ∃ x ∈ cs ++ [c], x.is_last_substring = true
        ∧ u64add x.first_index x.data.length = T := by
      rintro T ⟨x, hx, h⟩
      exact ⟨x, List.mem_append_left _ hx, h⟩
    have h1 : ∀ T, (r.insert c.first_index c.data c.is_last_substring).total_pushed_len_ = some T →
        ∃ x ∈ cs ++ [c], x.is_last_substring = true
          ∧ u64add x.first_index x.data.length = T := by
      intro T hT
      rw [htot] at hT
      by_cases hl : c.is_last_substring = true
      · rw [if_pos hl] at hT
        exact ⟨c, List.mem_append_right _ (List.mem_singleton_self c), hl, by
          injection hT⟩
      · rw [if_neg hl] at hT
        exact lift (ih1 T hT)
    refine ⟨h1, ?_⟩
    intro hc
    rcases insert_closed_cases r c hc with ⟨hc0, hp⟩ | ht
    · rw [hp]; exact lift (ih2 hc0)
    · exact h1 _ ht

/-- C6 (counterexample): on a new Reassembler of capacity 10, `insert(2, "c", true)` records
the length 3; the later `insert(0, "a", true)` replaces it by 1 and closes the output at
that new length, after one byte. -/
theorem C6_counterexample :
    ((Reassembler.fresh 10).insert 2 ['c'] true).total_pushed_len_ = some 3
      ∧ (((Reassembler.fresh 10).insert 2 ['c'] true).insert 0 ['a'] true).total_pushed_len_
          = some 1
      ∧ (((Reassembler.fresh 10).insert 2 ['c'] true).insert 0 ['a'] true).output_.closed_ = true
      ∧ (((Reassembler.fresh 10).insert 2 ['c'] true).insert 0 ['a'] true).output_.bytes_pushed_
          = 1 := by
  decide

/-- C6 (amended): for every state and every `first_index` and `data`, `insert` with
`is_last` records `first_index + data.len`, computed in `uint64_t` (modulo `2^64`, so the
sum itself when it is below `2^64`), as the total length, whatever was recorded before; an
`insert` without `is_last` leaves the recorded length as it was; and after either, the
output is closed if `bytes_pushed` equals the recorded length. -/
theorem C6_total_len_overwritten (r : Reassembler) (first_index : Nat) (data : Bytes) :
    (r.insert first_index data true).total_pushed_len_
        = some ((first_index + data.length) % 2 ^ 64)
      ∧ (first_index + data.length < 2 ^ 64 →
          (r.insert first_index data true).total_pushed_len_
            = some (first_index + data.length))
      ∧ (r.insert first_index data false).total_pushed_len_ = r.total_pushed_len_
      ∧ (∀ is_last, (r.insert first_index data is_last).total_pushed_len_
            = some (r.insert first_index data is_last).output_.bytes_pushed_ →
          (r.insert first_index data is_last).output_.closed_ = true) := by
  refine ⟨?_, ?_, ?_, fun is_last => insert_closes r first_index data is_last⟩
  · rw [insert_total]; rfl
  · intro h
    rw [insert_total, u64add_of_lt _ _ h]; rfl
  · rw [insert_total]; rfl

/-- C6 (amended) at concrete inputs: the length 3 is recorded on a new Reassembler of
capacity 10, then `insert(0, "a", true)` records 1 and the output is closed after one
byte; and `insert(2^64 - 1, "a", true)` on a new Reassembler records
`(2^64 - 1 + 1) mod 2^64 = 0` and closes the output at once. -/
theorem C6_total_len_overwritten_witness :
    (((Reassembler.fresh 10).insert 2 ['c'] true).insert 0 ['a'] true).total_pushed_len_
        = some 1
      ∧ (((Reassembler.fresh 10).insert 2 ['c'] true).insert 0 ['a'] true).output_.closed_
        = true
      ∧ ((Reassembler.fresh 10).insert (2 ^ 64 - 1) ['a'] true).total_pushed_len_ = some 0
      ∧ ((Reassembler.fresh 10).insert (2 ^ 64 - 1) ['a'] true).output_.closed_ = true :=
  ⟨(C6_total_len_overwritten ((Reassembler.fresh 10).insert 2 ['c'] true) 0 ['a']).2.1
      (by decide),
    (C6_total_len_overwritten ((Reassembler.fresh 10).insert 2 ['c'] true) 0 ['a']).2.2.2 true
      (by decide),
    (C6_total_len_overwritten (Reassembler.fresh 10) (2 ^ 64 - 1) ['a']).1,
    (C6_total_len_overwritten (Reassembler.fresh 10) (2 ^ 64 - 1) ['a']).2.2.2 true
      (by decide)⟩

/-- C5 (counterexample): after `insert(0, "ab", true)` and `insert(5, "x", true)` on a new
Reassembler of capacity 10 the recorded total length is 6, only 2 bytes have been pushed,
and the writer is closed. -/
theorem C5_counterexample :
    Reachable ((Reassembler.fresh 10).run [⟨0, ['a', 'b'], true⟩, ⟨5, ['x'], true⟩])
      ∧ ((Reassembler.fresh 10).run
          [⟨0, ['a', 'b'], true⟩, ⟨5, ['x'], true⟩]).total_pushed_len_ = some 6
      ∧ ((Reassembler.fresh 10).run
          [⟨0, ['a', 'b'], true⟩, ⟨5, ['x'], true⟩]).output_.bytes_pushed_ = 2
      ∧ ((Reassembler.fresh 10).run
          [⟨0, ['a', 'b'], true⟩, ⟨5, ['x'], true⟩]).output_.closed_ = true :=
  ⟨⟨10, _, by decide, by decide, rfl⟩, by decide, by decide, by decide⟩

/-- C5 (amended), with total lengths `first_index + data.len` computed in `uint64_t`
(modulo `2^64`) as the code does.  For every state and every `insert`: if afterwards a
total length is recorded and `bytes_pushed` equals it, the writer is closed; an `insert`
with `is_last` records the total length of that call, whatever was recorded before, and one
without `is_last` keeps the recorded length; and a writer that is closed stays closed, with
the same `bytes_pushed`.  For every sequence of `insert` calls on a new Reassembler: if
none has `is_last` the writer is not closed; if the writer is closed then `bytes_pushed` is
the total length of one of the calls with `is_last`; so if all the calls with `is_last`
gave the same total length `T`, the writer is not closed while `bytes_pushed` is below
`T`. -/
theorem C5_close_at_total_len (capacity : Nat) (calls calls2 : List Call) (T : Nat)
    (r : Reassembler) (first_index : Nat) (data : Bytes) (is_last : Bool) :
    ((r.insert first_index data is_last).total_pushed_len_
        = some (r.insert first_index data is_last).output_.bytes_pushed_ →
      (r.insert first_index data is_last).output_.closed_ = true)
    ∧ (r.insert first_index data true).total_pushed_len_
        = some ((first_index + data.length) % 2 ^ 64)
    ∧ (r.insert first_index data false).total_pushed_len_ = r.total_pushed_len_
    ∧ (r.output_.closed_ = true →
        (r.insert first_index data is_last).output_.closed_ = true
          ∧ (r.insert first_index data is_last).output_.bytes_pushed_
              = r.output_.bytes_pushed_)
    ∧ ((∀ c ∈ calls, c.is_last_substring = false) →
        ((Reassembler.fresh capacity).run calls).output_.closed_ = false)
    ∧ (((Reassembler.fresh capacity).run calls2).output_.closed_ = true →
        ∃ c ∈ calls2, c.is_last_substring = true
          ∧ (c.first_index + c.data.length) % 2 ^ 64
              = ((Reassembler.fresh capacity).run calls2).output_.bytes_pushed_)
    ∧ ((∀ c ∈ calls2, c.is_last_substring = true →
          (c.first_index + c.data.length) % 2 ^ 64 = T) →
        ((Reassembler.fresh capacity).run calls2).output_.bytes_pushed_ < T →
        ((Reassembler.fresh capacity).run calls2).output_.closed_ = false) := by
  obtain ⟨_, h1⟩ := run_closed capacity calls
  obtain ⟨_, h2⟩ := run_closed capacity calls2
  refine ⟨insert_closes r first_index data is_last, by rw [insert_total]; rfl,
    by rw [insert_total]; rfl, insert_stays_closed r first_index data is_last, ?_, h2, ?_⟩
  · intro hno
    by_contra hc
    obtain ⟨c, hc1, hc2, _⟩ := h1 (by simpa using hc)
    rw [hno c hc1] at hc2; cases hc2
  · intro hall hlt
    by_contra hc
    obtain ⟨c, hc1, hc2, hc3⟩ := h2 (by simpa using hc)
    have := hall c hc1 hc2
    unfold u64add at hc3
    omega

/-- C5 (amended) at concrete inputs.  On a new Reassembler of capacity 4, `insert(0, "ab",
true)` records 2, pushes 2 bytes and closes the writer; a further `insert(5, "x", true)`
records 6 and the writer stays closed with 2 bytes pushed.  The calls `insert(0, "ab")`,
`insert(5, "x")` without `is_last` leave the writer open.  The call
`insert(0, "abcdef", true)` is clipped by the capacity 4, so `bytes_pushed` is below the
total length 6 and the writer is open.  After `insert(0, "ab", true)` and `insert(5, "x")`
the writer is closed and `bytes_pushed` is the total length of an `is_last` call. -/
theorem C5_close_at_total_len_witness :
    ((Reassembler.fresh 4).insert 0 ['a', 'b'] true).output_.closed_ = true
      ∧ (((Reassembler.fresh 4).insert 0 ['a', 'b'] true).insert 5 ['x'] true).total_pushed_len_
          = some ((5 + 1) % 2 ^ 64)
      ∧ ((((Reassembler.fresh 4).insert 0 ['a', 'b'] true).insert 5 ['x'] true).output_.closed_
            = true
          ∧ (((Reassembler.fresh 4).insert 0 ['a', 'b'] true).insert 5 ['x']
              true).output_.bytes_pushed_
            = ((Reassembler.fresh 4).insert 0 ['a', 'b'] true).output_.bytes_pushed_)
      ∧ ((Reassembler.fresh 4).run
          [⟨0, ['a', 'b'], false⟩, ⟨5, ['x'], false⟩]).output_.closed_ = false
      ∧ ((Reassembler.fresh 4).run
          [⟨0, ['a', 'b', 'c', 'd', 'e', 'f'], true⟩]).output_.closed_ = false
      ∧ (∃ c ∈ [(⟨0, ['a', 'b'], true⟩ : Call), ⟨5, ['x'], false⟩],
          c.is_last_substring = true
            ∧ (c.first_index + c.data.length) % 2 ^ 64
                = ((Reassembler.fresh 4).run
                    [⟨0, ['a', 'b'], true⟩, ⟨5, ['x'], false⟩]).output_.bytes_pushed_) :=
  ⟨(C5_close_at_total_len 4 [] [] 0 (Reassembler.fresh 4) 0 ['a', 'b'] true).1 (by decide),
    (C5_close_at_total_len 4 [] [] 0 ((Reassembler.fresh 4).insert 0 ['a', 'b'] true) 5 ['x']
      true).2.1,
    (C5_close_at_total_len 4 [] [] 0 ((Reassembler.fresh 4).insert 0 ['a', 'b'] true) 5 ['x']
      true).2.2.2.1 (by decide),
    (C5_close_at_total_len 4 [⟨0, ['a', 'b'], false⟩, ⟨5, ['x'], false⟩] [] 0
      (Reassembler.fresh 4) 0 [] false).2.2.2.2.1 (by decide),
    (C5_close_at_total_len 4 [] [⟨0, ['a', 'b', 'c', 'd', 'e', 'f'], true⟩] 6
      (Reassembler.fresh 4) 0 [] false).2.2.2.2.2.2 (by decide) (by decide),
    (C5_close_at_total_len 4 [] [⟨0, ['a', 'b'], true⟩, ⟨5, ['x'], false⟩] 0
      (Reassembler.fresh 4) 0 [] false).2.2.2.2.2.1 (by decide)⟩

/-! ## Idempotence: C7 -/

theorem receive_rst (t : TCPReceiver) (m : TCPSenderMessage) (h : m.RST = true) :
    t.receive m = { t with
      reassembler_ := { t.reassembler_ with output_ := t.reassembler_.output_.set_error },
      RST_ := true } := by
  unfold TCPReceiver.receive
  simp [h, ByteStream.set_error]

theorem receive_latched (t : TCPReceiver) (m : TCPSenderMessage) (h : m.RST = false)
    (hr : t.RST_ = true) : t.receive m = t := by
  unfold TCPReceiver.receive
  simp [h, hr]

theorem ackno_arith (z p c : Nat) :
    (((z + 1) % 2 ^ 32 + p) % 2 ^ 32 + c) % 2 ^ 32 = (z + (p + 1 + c) % 2 ^ 32) % 2 ^ 32 := by
  omega

theorem receive_synced (z : Wrap32) (t : TCPReceiver) (m : TCPSenderMessage)
    (h : Synced z t) : Synced z (t.receive m) := by
  obtain ⟨h1, h2, h3⟩ := h
  by_cases hr : m.RST = true
  · rw [receive_rst t m hr]
    exact ⟨h1, h2, by simpa [expected_ackno, ByteStream.set_error] using h3⟩
  · have hr : m.RST = false := by simpa using hr
    by_cases hl : t.RST_ = true
    · rw [receive_latched t m hr hl]; exact ⟨h1, h2, h3⟩
    · have hl : t.RST_ = false := by simpa using hl
      unfold TCPReceiver.receive
      simp only [hr, hl, h1, Bool.false_eq_true, if_false, Bool.not_true, Bool.and_false,
        if_true]
      split
      · exact ⟨h1, h2, h3⟩
      · refine ⟨rfl, h2, ?_⟩
        simp only [expected_ackno, Wrap32.add, Wrap32.wrap, h2]
        congr 1
        split <;> exact ackno_arith _ _ _

theorem unwrap_after_syn (z : Wrap32) : (z.add 1).unwrap z 0 = 1 := by
  unfold Wrap32.unwrap Wrap32.add Wrap32.wrap
  simp only
  have h : ((z.raw_value_ + 1) % 2 ^ 32 % 2 ^ 32 + 2 ^ 32 - (z.raw_value_ + 0 % 2 ^ 32) % 2 ^ 32)
      % 2 ^ 32 = 1 := by omega
  rw [h]; norm_num

theorem receive_syn (t : TCPReceiver) (m : TCPSenderMessage) (h : Listening t)
    (hr : m.RST = false) (hs : m.SYN = true) : Synced m.seqno (t.receive m) := by
  obtain ⟨h1, h2, h3⟩ := h
  unfold TCPReceiver.receive
  simp only [hr, h2, h1, hs, Bool.false_eq_true, if_false, Bool.not_false, Bool.and_self,
    if_true, Bool.not_true, h3, unwrap_after_syn]
  refine ⟨rfl, rfl, ?_⟩
  simp only [expected_ackno, Wrap32.add, Wrap32.wrap]
  norm_num
  split <;> omega

theorem receive_ignored (t : TCPReceiver) (m : TCPSenderMessage)
    (h : t.is_zero_point_set = false) (hr : m.RST = false) (hs : m.SYN = false) :
    t.receive m = t := by
  unfold TCPReceiver.receive
  by_cases hl : t.RST_ = true
  · simp [hr, hl]
  · simp [hr, hl, hs, h]

theorem run_synced (z : Wrap32) (msgs : List TCPSenderMessage) (t : TCPReceiver)
    (h : Synced z t) : Synced z (t.run msgs) := by
  induction msgs generalizing t with
  | nil => exact h
  | cons m rest ih => exact ih _ (receive_synced z t m h)

theorem run_dead (msgs : List TCPSenderMessage) (t : TCPReceiver) (h : DeadListening t) :
    DeadListening (t.run msgs) := by
  induction msgs generalizing t with
  | nil => exact h
  | cons m rest ih =>
    apply ih
    by_cases hr : m.RST = true
    · rw [receive_rst t m hr]; exact ⟨h.1, rfl⟩
    · rw [receive_latched t m (by simpa using hr) h.2]; exact h

theorem run_listening (msgs : List TCPSenderMessage) (t : TCPReceiver) (h : Listening t) :
    (first_syn msgs = none → (t.run msgs).is_zero_point_set = false)
      ∧ (∀ z, first_syn msgs = some z → Synced z (t.run msgs)) := by
  induction msgs generalizing t with
  | nil => exact ⟨fun _ => h.1, fun z hz => by simp [first_syn] at hz⟩
  | cons m rest ih =>
    by_cases hr : m.RST = true
    · have hd : DeadListening (t.receive m) := by
        rw [receive_rst t m hr]; exact ⟨h.1, rfl⟩
      exact ⟨fun _ => (run_dead rest _ hd).1, fun z hz => by simp [first_syn, hr] at hz⟩
    · have hr : m.RST = false := by simpa using hr
      by_cases hs : m.SYN = true
      · refine ⟨fun hn => by simp [first_syn, hr, hs] at hn, fun z hz => ?_⟩
        have : z = m.seqno := by simpa [first_syn, hr, hs] using hz.symm
        rw [this]
        exact run_synced _ rest _ (receive_syn t m h hr hs)
      · have hs : m.SYN = false := by simpa using hs
        have hstep : TCPReceiver.run t (m :: rest) = TCPReceiver.run t rest := by
          show TCPReceiver.run (t.receive m) rest = _
          rw [receive_ignored t m h.1 hr hs]
        have hfs : first_syn (m :: rest) = first_syn rest := by simp [first_syn, hr, hs]
        rw [hstep, hfs]
        exact ih t h

/-- C8: after any sequence of `receive` calls on a new TCPReceiver, `send().ackno` is
absent exactly when no SYN has been accepted, and otherwise it is
`wrap(bytes_pushed + 1 + (closed ? 1 : 0), zero_point)`, where `zero_point` is the sequence
number of the first accepted SYN and `bytes_pushed`, `closed` are those of the output
stream at the time of `send()`. -/
theorem C8_receiver_ackno (capacity : Nat) (msgs : List TCPSenderMessage) :
    (((TCPReceiver.fresh capacity).run msgs).send.ackno = none ↔ first_syn msgs = none)
      ∧ (∀ z, first_syn msgs = some z →
          ((TCPReceiver.fresh capacity).run msgs).zero_point = z
            ∧ ((TCPReceiver.fresh capacity).run msgs).send.ackno
                = some (Wrap32.wrap
                    (((TCPReceiver.fresh capacity).run msgs).reassembler_.output_.bytes_pushed_
                      + 1
                      + (if ((TCPReceiver.fresh capacity).run msgs).reassembler_.output_.closed_
                          then 1 else 0)) z)) := by
  obtain ⟨h1, h2⟩ := run_listening msgs (TCPReceiver.fresh capacity) ⟨rfl, rfl, rfl⟩
  have hsome : ∀ z, first_syn msgs = some z →
      ((TCPReceiver.fresh capacity).run msgs).send.ackno
        = some (expected_ackno ((TCPReceiver.fresh capacity).run msgs) z) := by
    intro z hz
    obtain ⟨h3, _, h5⟩ := h2 z hz
    simp [TCPReceiver.send, h3, h5]
  refine ⟨⟨?_, ?_⟩, fun z hz => ⟨(h2 z hz).2.1, hsome z hz⟩⟩
  · intro hn
    cases hf : first_syn msgs with
    | none => rfl
    | some z => rw [hsome z hf] at hn; cases hn
  · intro hn
    simp [TCPReceiver.send, h1 hn]

/-- C9: for every receiver state, `receive` of a segment with RST sets the error flag of
the output stream (so `send().RST` is true), leaves the reassembler otherwise untouched,
keeps `zero_point` and the ackno, and every later sequence of segments without RST leaves
the receiver as it is. -/
theorem C9_reset_handling (t : TCPReceiver) (msg : TCPSenderMessage)
    (later : List TCPSenderMessage) (h : msg.RST = true) (hl : ∀ m ∈ later, m.RST = false) :
    (t.receive msg).send.RST = true
      ∧ (t.receive msg).reassembler_
          = { t.reassembler_ with output_ := { t.reassembler_.output_ with error_ := true } }
      ∧ (t.receive msg).zero_point = t.zero_point
      ∧ (t.receive msg).send.ackno = t.send.ackno
      ∧ (t.receive msg).run later = t.receive msg := by
  rw [receive_rst t msg h]
  refine ⟨rfl, rfl, rfl, rfl, ?_⟩
  induction later with
  | nil => rfl
  | cons m rest ih =>
    show TCPReceiver.run (TCPReceiver.receive _ m) rest = _
    rw [receive_latched _ m (hl m (List.mem_cons_self _ _)) rfl]
    exact ih (fun x hx => hl x (List.mem_cons_of_mem _ hx))

/-- C9 at concrete inputs: a receiver that has accepted a SYN with payload `"ab"` receives a
RST and then a data segment. -/
theorem C9_reset_handling_witness :
    (((TCPReceiver.fresh 10).receive ⟨⟨7⟩, true, ['a', 'b'], false, false⟩).receive
        ⟨⟨0⟩, false, [], false, true⟩).send.RST = true
      ∧ (((TCPReceiver.fresh 10).receive ⟨⟨7⟩, true, ['a', 'b'], false, false⟩).receive
        ⟨⟨0⟩, false, [], false, true⟩).reassembler_
          = { ((TCPReceiver.fresh 10).receive
                ⟨⟨7⟩, true, ['a', 'b'], false, false⟩).reassembler_ with
              output_ := { ((TCPReceiver.fresh 10).receive
                ⟨⟨7⟩, true, ['a', 'b'], false, false⟩).reassembler_.output_ with
                  error_ := true } }
      ∧ (((TCPReceiver.fresh 10).receive ⟨⟨7⟩, true, ['a', 'b'], false, false⟩).receive
        ⟨⟨0⟩, false, [], false, true⟩).zero_point
          = ((TCPReceiver.fresh 10).receive ⟨⟨7⟩, true, ['a', 'b'], false, false⟩).zero_point
      ∧ (((TCPReceiver.fresh 10).receive ⟨⟨7⟩, true, ['a', 'b'], false, false⟩).receive
        ⟨⟨0⟩, false, [], false, true⟩).send.ackno
          = ((TCPReceiver.fresh 10).receive ⟨⟨7⟩, true, ['a', 'b'], false, false⟩).send.ackno
      ∧ (((TCPReceiver.fresh 10).receive ⟨⟨7⟩, true, ['a', 'b'], false, false⟩).receive
        ⟨⟨0⟩, false, [], false, true⟩).run [⟨⟨10⟩, false, ['c', 'd'], true, false⟩]
          = ((TCPReceiver.fresh 10).receive ⟨⟨7⟩, true, ['a', 'b'], false, false⟩).receive
              ⟨⟨0⟩, false, [], false, true⟩ :=
  C9_reset_handling ((TCPReceiver.fresh 10).receive ⟨⟨7⟩, true, ['a', 'b'], false, false⟩)
    ⟨⟨0⟩, false, [], false, true⟩ [⟨⟨10⟩, false, ['c', 'd'], true, false⟩] rfl (by decide)

/-- C10: on a receiver that has accepted no SYN, `receive` of a segment with SYN and RST
clear, whatever its seqno, payload and FIN, leaves the receiver unchanged: the reassembler
and its output are as before, `send()` reports no ackno and the same window size. -/
theorem C10_pre_syn_ignored (t : TCPReceiver) (msg : TCPSenderMessage)
    (h : t.is_zero_point_set = false) (hs : msg.SYN = false) (hr : msg.RST = false) :
    t.receive msg = t
      ∧ (t.receive msg).reassembler_ = t.reassembler_
      ∧ (t.receive msg).send.ackno = none
      ∧ (t.receive msg).send.window_size = t.send.window_size := by
  rw [receive_ignored t msg h hr hs]
  refine ⟨rfl, rfl, ?_, rfl⟩
  simp [TCPReceiver.send, h]

/-- C10 at concrete inputs: a new receiver gets a data segment with FIN before any SYN. -/
theorem C10_pre_syn_ignored_witness :
    (TCPReceiver.fresh 10).receive ⟨⟨5⟩, false, ['a', 'b'], true, false⟩ = TCPReceiver.fresh 10
      ∧ ((TCPReceiver.fresh 10).receive ⟨⟨5⟩, false, ['a', 'b'], true, false⟩).reassembler_
          = (TCPReceiver.fresh 10).reassembler_
      ∧ ((TCPReceiver.fresh 10).receive ⟨⟨5⟩, false, ['a', 'b'], true, false⟩).send.ackno = none
      ∧ ((TCPReceiver.fresh 10).receive ⟨⟨5⟩, false, ['a', 'b'], true, false⟩).send.window_size
          = (TCPReceiver.fresh 10).send.window_size :=
  C10_pre_syn_ignored (TCPReceiver.fresh 10) ⟨⟨5⟩, false, ['a', 'b'], true, false⟩ rfl rfl rfl

/-! ## Reassembly of a byte string: C1 -/

theorem piece_initial {s : Bytes} {k : Nat} {d d2 : Bytes} (h : Piece s k d) (hp : d2 <+: d) :
    Piece s k d2 := by
  have hl := hp.length_le
  refine ⟨by have := h.1; omega, ?_⟩
  have h1 := List.prefix_iff_eq_take.mp hp
  rw [h.2, List.take_take] at h1
  rw [Nat.min_eq_left hl] at h1
  exact h1

theorem piece_drop_to {s : Bytes} {k n : Nat} {d : Bytes} (h : Piece s k d) (hk : k ≤ n)
    (hn : n ≤ s.length) :
    Piece s n (d.drop (n - k)) ∧ (d.drop (n - k)).length = k + d.length - n := by
  have hlen : (d.drop (n - k)).length = k + d.length - n := by
    rw [List.length_drop]; omega
  refine ⟨⟨by have := h.1; omega, ?_⟩, hlen⟩
  rw [hlen]
  conv_lhs => rw [h.2]
  rw [List.drop_take, List.drop_drop]
  have e1 : k + (n - k) = n := by omega
  have e2 : d.length - (n - k) = k + d.length - n := by omega
  rw [e1, e2]

theorem push_piece {s : Bytes} {capacity : Nat} {o : ByteStream} {d : Bytes}
    (hcap : s.length ≤ capacity) (hw : Wrote s capacity o) (hd : Piece s o.bytes_pushed_ d) :
    Wrote s capacity (o.push d) ∧ (o.push d).bytes_pushed_ = o.bytes_pushed_ + d.length := by
  have hbl : o.buffer_.length = o.bytes_pushed_ := by
    rw [hw.buf, List.length_take]; exact Nat.min_eq_left hw.le
  by_cases hc : o.closed_ = true
  · rw [push_of_closed o d hc]
    have := hw.fin hc
    have := hd.1
    exact ⟨hw, by omega⟩
  · have hc : o.closed_ = false := by simpa using hc
    have htake : d.take o.available_capacity = d := by
      apply List.take_of_length_le
      unfold ByteStream.available_capacity ByteStream.bytes_buffered
      rw [hbl, hw.cap]
      have := hd.1
      omega
    have hpush : o.push d = { o with buffer_ := o.buffer_ ++ d,
                                     bytes_pushed_ := o.bytes_pushed_ + d.length } := by
      unfold ByteStream.push
      simp only [hc, hw.err, Bool.or_self, Bool.false_eq_true, if_false, htake]
    rw [hpush]
    refine ⟨⟨hw.cap, hw.err, ?_, by have := hd.1; exact this, ?_⟩, rfl⟩
    · show o.buffer_ ++ d = s.take (o.bytes_pushed_ + d.length)
      rw [List.take_add, ← hd.2, ← hw.buf]
    · intro h
      rw [hc] at h; cases h

theorem drain_wrote (s : Bytes) (capacity : Nat) (m : PendingMap) (r : Reassembler)
    (hcap : s.length ≤ capacity) (hpc : ∀ f ∈ m, Piece s f.1 f.2)
    (hw : Wrote s capacity r.output_) (hn : r.next_index_ = r.output_.bytes_pushed_) :
    Wrote s capacity (drain m r).output_
      ∧ ∀ p, (p < r.next_index_ ∨ Cov m p) →
          (p < (drain m r).next_index_ ∨ Cov (drain m r).pending_substr_ p) := by
  induction m generalizing r with
  | nil =>
    refine ⟨hw, ?_⟩
    rintro p (h | ⟨f, hf, _⟩)
    · exact Or.inl h
    · simp at hf
  | cons node rest ih =>
    by_cases hle : node.1 ≤ r.next_index_
    · set r1 := Reassembler.write
        { r with bytes_pending_ := u64sub r.bytes_pending_ node.2.length }
        (node.2.drop (r.next_index_ - node.1)) with hr1
      have hd : drain (node :: rest) r = drain rest r1 := by
        simp only [drain, hle, if_true, hr1]
      have hnode := hpc node (List.mem_cons_self _ _)
      obtain ⟨hp1, hp2⟩ := piece_drop_to hnode hle (by rw [hn]; exact hw.le)
      rw [hn] at hp1 hp2
      obtain ⟨hw1, hpu⟩ := push_piece hcap hw hp1
      have hw1r : Wrote s capacity r1.output_ := by
        rw [hr1]; simp only [Reassembler.write]; rw [hn]; exact hw1
      have hn1 : r1.next_index_ = r.output_.bytes_pushed_
          + (node.1 + node.2.length - r.output_.bytes_pushed_) := by
        rw [hr1]; simp only [Reassembler.write]; rw [hn, hpu, hp2]
      obtain ⟨ih1, ih2⟩ := ih r1 (fun f hf => hpc f (List.mem_cons_of_mem _ hf)) hw1r rfl
      rw [hd]
      refine ⟨ih1, ?_⟩
      intro p hp
      apply ih2
      rcases hp with h | ⟨f, hf, h1, h2⟩
      · left; rw [hn1]; omega
      · rcases List.mem_cons.mp hf with rfl | hf
        · left; rw [hn1]; omega
        · exact Or.inr ⟨f, hf, h1, h2⟩
    · have hd : drain (node :: rest) r = { r with pending_substr_ := node :: rest } := by
        simp only [drain, hle, if_false]
      rw [hd]
      exact ⟨hw, fun p hp => hp⟩

theorem clip_noop (s : Bytes) (capacity : Nat) (r : Reassembler) (first : Nat) (data : Bytes)
    (hcap : s.length ≤ capacity) (hc64 : capacity < 2 ^ 64) (hw : Wrote s capacity r.output_)
    (hn : r.next_index_ = r.output_.bytes_pushed_) (hgt : r.next_index_ < first)
    (hd : first + data.length ≤ s.length) : r.clip_to_capacity first data = data := by
  have hbl : r.output_.buffer_.length = r.output_.bytes_pushed_ := by
    rw [hw.buf, List.length_take]; exact Nat.min_eq_left hw.le
  have hlen : u64sub r.output_.available_capacity (first - r.next_index_) = capacity - first := by
    unfold ByteStream.available_capacity ByteStream.bytes_buffered
    rw [hbl, hw.cap, hn]
    have := hw.le
    unfold u64sub
    omega
  unfold Reassembler.clip_to_capacity
  simp only [hlen]
  split
  · exact List.take_of_length_le (by omega)
  · rfl

theorem insert_or_store_wrote (s : Bytes) (capacity : Nat) (r : Reassembler) (first : Nat)
    (data : Bytes) (hcap : s.length ≤ capacity) (hc64 : capacity < 2 ^ 64) (hpre : Pre r)
    (hw : Wrote s capacity r.output_) (hpc : ∀ f ∈ r.pending_substr_, Piece s f.1 f.2)
    (hd : Piece s first data) :
    Wrote s capacity (r.insert_or_store first data).output_
      ∧ (∀ f ∈ (r.insert_or_store first data).pending_substr_, Piece s f.1 f.2)
      ∧ ∀ p, (p < r.next_index_ ∨ Cov r.pending_substr_ p
              ∨ (first ≤ p ∧ p < first + data.length)) →
          (p < (r.insert_or_store first data).next_index_
            ∨ Cov (r.insert_or_store first data).pending_substr_ p) := by
  by_cases hgt : r.next_index_ < first
  · rw [insert_or_store_of_gt _ _ _ hgt]
    obtain ⟨hM, _⟩ := store_spec r first data hpre.pinv hpre.exact
    obtain ⟨h1, h2, _⟩ := store_frame r first data
    rw [clip_noop s capacity r first data hcap hc64 hw hpre.next hgt hd.1] at hM
    refine ⟨by rw [h1]; exact hw, ?_, ?_⟩
    · intro f hf
      rcases hM.src f hf with ⟨hk, hp⟩ | ⟨g, hg, hk, hp⟩
      · rw [hk]; exact piece_initial hd hp
      · rw [← hk]; exact piece_initial (hpc g hg) hp
    · intro p hp
      rw [h2]
      rcases hp with h | h | h
      · exact Or.inl h
      · exact Or.inr (hM.cov p (Or.inl h))
      · exact Or.inr (hM.cov p (Or.inr h))
  · have hle : first ≤ r.next_index_ := by omega
    rw [insert_or_store_of_le _ _ _ hle]
    obtain ⟨hp1, hp2⟩ := piece_drop_to hd hle (by rw [hpre.next]; exact hw.le)
    rw [hpre.next] at hp1 hp2
    obtain ⟨hw1, hpu⟩ := push_piece hcap hw hp1
    have hn := hpre.next
    refine ⟨by simp only [Reassembler.write]; rw [hn]; exact hw1, hpc, ?_⟩
    intro p hp
    have hnext : (r.write (data.drop (r.next_index_ - first))).next_index_
        = r.output_.bytes_pushed_ + (first + data.length - r.output_.bytes_pushed_) := by
      simp only [Reassembler.write]; rw [hn, hpu, hp2]
    rcases hp with h | h | h
    · left; rw [hnext]; omega
    · exact Or.inr h
    · left; rw [hnext]; omega

theorem fresh_good (s : Bytes) (capacity : Nat) : Good s capacity (Reassembler.fresh capacity) :=
  ⟨fresh_inv capacity, ⟨rfl, rfl, by simp [Reassembler.fresh, ByteStream.fresh],
    by simp [Reassembler.fresh, ByteStream.fresh], by simp [Reassembler.fresh, ByteStream.fresh]⟩,
    by simp [Reassembler.fresh], Or.inl rfl⟩

theorem insert_good (s : Bytes) (capacity : Nat) (r : Reassembler) (c : Call)
    (hcap : s.length ≤ capacity) (hc64 : capacity < 2 ^ 64) (h : Good s capacity r)
    (hd : Piece s c.first_index c.data)
    (hl : c.is_last_substring = true → c.first_index + c.data.length = s.length) :
    Good s capacity (r.insert c.first_index c.data c.is_last_substring)
      ∧ ∀ p, (p < r.next_index_ ∨ Cov r.pending_substr_ p
              ∨ (c.first_index ≤ p ∧ p < c.first_index + c.data.length)) →
          (p < (r.insert c.first_index c.data c.is_last_substring).next_index_
            ∨ Cov (r.insert c.first_index c.data c.is_last_substring).pending_substr_ p) := by
  have hwf : c.wf := by unfold Call.wf; have := hd.1; omega
  have hinv := insert_inv r c h.inv hwf
  set r0 : Reassembler := if c.is_last_substring then
      { r with total_pushed_len_ := some (u64add c.first_index c.data.length) } else r
    with hr0
  have h0 : Pre r0 := by
    rw [hr0]; split
    · exact ⟨h.inv.pre.pinv, h.inv.pre.exact, h.inv.pre.next, h.inv.pre.bound⟩
    · exact h.inv.pre
  have ho : r0.output_ = r.output_ := by rw [hr0]; split <;> rfl
  have hpd : r0.pending_substr_ = r.pending_substr_ := by rw [hr0]; split <;> rfl
  have hnx : r0.next_index_ = r.next_index_ := by rw [hr0]; split <;> rfl
  have h1 := insert_or_store_pre r0 c.first_index c.data h0 hwf
  obtain ⟨hw1, hpc1, hcov1⟩ := insert_or_store_wrote s capacity r0 c.first_index c.data hcap hc64
    h0 (by rw [ho]; exact h.wrote) (by rw [hpd]; exact h.pieces) hd
  obtain ⟨hw2, hcov2⟩ := drain_wrote s capacity _ _ hcap hpc1 hw1 h1.next
  obtain ⟨⟨j, hj⟩, _⟩ := drain_spec _ _ h1.pinv h1.exact h1.next
  have hbc : before_close r c = drain (r0.insert_or_store c.first_index c.data).pending_substr_
      (r0.insert_or_store c.first_index c.data) := by
    unfold before_close
    rw [← hr0, write_stored_str_eq _ h1.pinv]
  have htot := before_close_total r c
  have htot2 : (before_close r c).total_pushed_len_ = none
      ∨ (before_close r c).total_pushed_len_ = some s.length := by
    rw [htot]
    by_cases hls : c.is_last_substring = true
    · rw [if_pos hls, u64add_of_lt _ _ hwf, hl hls]; exact Or.inr rfl
    · rw [if_neg hls]; exact h.total
  have hpc2 : ∀ f ∈ (before_close r c).pending_substr_, Piece s f.1 f.2 := by
    intro f hf
    rw [hbc, hj] at hf
    exact hpc1 f ((List.drop_sublist _ _).subset hf)
  have hcov : ∀ p, (p < r.next_index_ ∨ Cov r.pending_substr_ p
              ∨ (c.first_index ≤ p ∧ p < c.first_index + c.data.length)) →
          (p < (before_close r c).next_index_ ∨ Cov (before_close r c).pending_substr_ p) := by
    intro p hp
    rw [hbc]
    apply hcov2
    apply hcov1
    rw [hnx, hpd]; exact hp
  have hw3 : Wrote s capacity (before_close r c).output_ := by rw [hbc]; exact hw2
  have heq := insert_eq r c
  by_cases hcl : (before_close r c).total_pushed_len_
      = some (before_close r c).output_.bytes_pushed_
  · rw [if_pos hcl] at heq
    have hfull : (before_close r c).output_.bytes_pushed_ = s.length := by
      rcases htot2 with h | h
      · rw [h] at hcl; cases hcl
      · rw [h] at hcl; injection hcl with hcl; exact hcl.symm
    refine ⟨⟨hinv, ?_, ?_, ?_⟩, ?_⟩
    · rw [heq]
      exact ⟨hw3.cap, hw3.err, hw3.buf, hw3.le, fun _ => hfull⟩
    · rw [heq]; exact hpc2
    · rw [heq]; exact htot2
    · rw [heq]; exact hcov
  · rw [if_neg hcl] at heq
    rw [heq]
    exact ⟨⟨heq ▸ hinv, hw3, hpc2, htot2⟩, hcov⟩

theorem run_good (s : Bytes) (capacity : Nat) (calls : List Call) (r : Reassembler)
    (hcap : s.length ≤ capacity) (hc64 : capacity < 2 ^ 64) (h : Good s capacity r)
    (hd : ∀ c ∈ calls, Piece s c.first_index c.data)
    (hl : ∀ c ∈ calls, c.is_last_substring = true → c.first_index + c.data.length = s.length) :
    Good s capacity (r.run calls)
      ∧ (∀ p, (p < r.next_index_ ∨ Cov r.pending_substr_ p
              ∨ ∃ c ∈ calls, c.first_index ≤ p ∧ p < c.first_index + c.data.length) →
          (p < (r.run calls).next_index_ ∨ Cov (r.run calls).pending_substr_ p))
      ∧ ((r.total_pushed_len_ = some s.length ∨ ∃ c ∈ calls, c.is_last_substring = true) →
          (r.run calls).total_pushed_len_ = some s.length) := by
  induction calls generalizing r with
  | nil =>
    refine ⟨h, ?_, ?_⟩
    · rintro p (hp | hp | ⟨c, hc, _⟩)
      · exact Or.inl hp
      · exact Or.inr hp
      · simp at hc
    · rintro (ht | ⟨c, hc, _⟩)
      · exact ht
      · simp at hc
  | cons c rest ih =>
    have hc := List.mem_cons_self c rest
    obtain ⟨hg, hcov⟩ := insert_good s capacity r c hcap hc64 h (hd c hc) (hl c hc)
    obtain ⟨ih1, ih2, ih3⟩ := ih (r.insert c.first_index c.data c.is_last_substring) hg
      (fun x hx => hd x (List.mem_cons_of_mem _ hx))
      (fun x hx => hl x (List.mem_cons_of_mem _ hx))
    have htot := insert_total r c.first_index c.data c.is_last_substring
    refine ⟨ih1, ?_, ?_⟩
    · intro p hp
      apply ih2
      rcases hp with hp | hp | ⟨x, hx, hxp⟩
      · rcases hcov p (Or.inl hp) with h | h
        · exact Or.inl h
        · exact Or.inr (Or.inl h)
      · rcases hcov p (Or.inr (Or.inl hp)) with h | h
        · exact Or.inl h
        · exact Or.inr (Or.inl h)
      · rcases List.mem_cons.mp hx with rfl | hx
        · rcases hcov p (Or.inr (Or.inr hxp)) with h | h
          · exact Or.inl h
          · exact Or.inr (Or.inl h)
        · exact Or.inr (Or.inr ⟨x, hx, hxp⟩)
    · intro hp
      apply ih3
      by_cases hls : c.is_last_substring = true
      · left
        rw [htot, if_pos hls, u64add_of_lt _ _ (by have := (hd c hc).1; omega), hl c hc hls]
      · rcases hp with ht | ⟨x, hx, hxl⟩
        · left; rw [htot, if_neg hls]; exact ht
        · rcases List.mem_cons.mp hx with rfl | hx
          · exact absurd hxl hls
          · exact Or.inr ⟨x, hx, hxl⟩

theorem reassembly_core (s : Bytes) (capacity : Nat) (calls : List Call)
    (hcap : s.length ≤ capacity) (hc64 : capacity < 2 ^ 64)
    (hdata : ∀ c ∈ calls, c.first_index + c.data.length ≤ s.length
      ∧ c.data = (s.drop c.first_index).take c.data.length)
    (hcover : ∀ p, p < s.length →
      ∃ c ∈ calls, c.first_index ≤ p ∧ p < c.first_index + c.data.length)
    (hlast : ∀ c ∈ calls, c.is_last_substring = true →
      c.first_index + c.data.length = s.length)
    (hsome : ∃ c ∈ calls, c.is_last_substring = true) :
    ((Reassembler.fresh capacity).run calls).output_.buffer_ = s
      ∧ ((Reassembler.fresh capacity).run calls).output_.bytes_pushed_ = s.length
      ∧ ((Reassembler.fresh capacity).run calls).bytes_pending = 0
      ∧ ((Reassembler.fresh capacity).run calls).pending_substr_ = []
      ∧ ((Reassembler.fresh capacity).run calls).output_.closed_ = true := by
  obtain ⟨hg, hcov, htot⟩ := run_good s capacity calls (Reassembler.fresh capacity) hcap hc64
    (fresh_good s capacity) hdata hlast
  set r := (Reassembler.fresh capacity).run calls with hr
  have hnext : r.next_index_ = s.length := by
    have hle := hg.wrote.le
    rw [← hg.inv.pre.next] at hle
    by_contra hne
    have hlt : r.next_index_ < s.length := by omega
    rcases hcov r.next_index_ (Or.inr (Or.inr (hcover _ hlt))) with h | ⟨f, hf, h1, _⟩
    · omega
    · have := hg.inv.keys f hf; omega
  have hpushed : r.output_.bytes_pushed_ = s.length := by rw [← hg.inv.pre.next]; exact hnext
  have hpend : r.pending_substr_ = [] := by
    cases hp : r.pending_substr_ with
    | nil => rfl
    | cons f rest =>
      have hf : f ∈ r.pending_substr_ := by rw [hp]; exact List.mem_cons_self _ _
      have h1 := hg.inv.keys f hf
      have h2 := (hg.pieces f hf).1
      omega
  refine ⟨?_, hpushed, ?_, hpend, ?_⟩
  · rw [hg.wrote.buf, hpushed]; exact List.take_of_length_le (le_refl _)
  · have := hg.inv.pre.exact
    rw [hpend] at this
    simpa [Exact, PendingMap.total_bytes, Reassembler.bytes_pending] using this
  · apply hg.inv.closed
    rw [htot (Or.inr hsome), hpushed]

/-- C1: let `s` be a byte string and let a new Reassembler have an output capacity of at
least `s.length`.  After any sequence of `insert` calls whose data are the bytes of `s` at
their index, whose ranges together cover `[0, s.length)`, and where `is_last` is set only
on fragments that end at `s.length` and on at least one of them, the output holds exactly
`s`, `bytes_pending()` is 0, nothing is pending and the writer is closed.  The calls may
come in any order and overlap; in particular every permutation of the calls gives the
same output. -/
theorem C1_reassembly (s : Bytes) (capacity : Nat) (calls : List Call)
    (hcap : s.length ≤ capacity) (hc64 : capacity < 2 ^ 64)
    (hdata : ∀ c ∈ calls, c.first_index + c.data.length ≤ s.length
      ∧ c.data = (s.drop c.first_index).take c.data.length)
    (hcover : ∀ p, p < s.length →
      ∃ c ∈ calls, c.first_index ≤ p ∧ p < c.first_index + c.data.length)
    (hlast : ∀ c ∈ calls, c.is_last_substring = true →
      c.first_index + c.data.length = s.length)
    (hsome : ∃ c ∈ calls, c.is_last_substring = true) :
    ((Reassembler.fresh capacity).run calls).output_.buffer_ = s
      ∧ ((Reassembler.fresh capacity).run calls).output_.bytes_pushed_ = s.length
      ∧ ((Reassembler.fresh capacity).run calls).bytes_pending = 0
      ∧ ((Reassembler.fresh capacity).run calls).pending_substr_ = []
      ∧ ((Reassembler.fresh capacity).run calls).output_.closed_ = true
      ∧ ∀ calls2 : List Call, calls2.Perm calls →
          ((Reassembler.fresh capacity).run calls2).output_.buffer_ = s
            ∧ ((Reassembler.fresh capacity).run calls2).bytes_pending = 0
            ∧ ((Reassembler.fresh capacity).run calls2).output_.closed_ = true := by
  obtain ⟨h1, h2, h3, h4, h5⟩ :=
    reassembly_core s capacity calls hcap hc64 hdata hcover hlast hsome
  refine ⟨h1, h2, h3, h4, h5, ?_⟩
  intro calls2 hperm
  obtain ⟨k1, _, k3, _, k5⟩ := reassembly_core s capacity calls2 hcap hc64
    (fun c hc => hdata c (hperm.mem_iff.mp hc))
    (fun p hp => by
      obtain ⟨c, hc, h⟩ := hcover p hp
      exact ⟨c, hperm.mem_iff.mpr hc, h⟩)
    (fun c hc => hlast c (hperm.mem_iff.mp hc))
    (by
      obtain ⟨c, hc, h⟩ := hsome
      exact ⟨c, hperm.mem_iff.mpr hc, h⟩)
  exact ⟨k1, k3, k5⟩

/-- C1 at concrete inputs: `"abcdef"` arrives as `"ef"` (last), `"bcd"`, `"abc"` and `"cde"`
on a stream of capacity 6. -/
theorem C1_reassembly_witness :
    ((Reassembler.fresh 6).run
        [⟨4, ['e', 'f'], true⟩, ⟨1, ['b', 'c', 'd'], false⟩, ⟨0, ['a', 'b', 'c'], false⟩,
         ⟨2, ['c', 'd', 'e'], false⟩]).output_.buffer_ = ['a', 'b', 'c', 'd', 'e', 'f']
      ∧ ((Reassembler.fresh 6).run
        [⟨4, ['e', 'f'], true⟩, ⟨1, ['b', 'c', 'd'], false⟩, ⟨0, ['a', 'b', 'c'], false⟩,
         ⟨2, ['c', 'd', 'e'], false⟩]).output_.bytes_pushed_
          = ['a', 'b', 'c', 'd', 'e', 'f'].length
      ∧ ((Reassembler.fresh 6).run
        [⟨4, ['e', 'f'], true⟩, ⟨1, ['b', 'c', 'd'], false⟩, ⟨0, ['a', 'b', 'c'], false⟩,
         ⟨2, ['c', 'd', 'e'], false⟩]).bytes_pending = 0
      ∧ ((Reassembler.fresh 6).run
        [⟨4, ['e', 'f'], true⟩, ⟨1, ['b', 'c', 'd'], false⟩, ⟨0, ['a', 'b', 'c'], false⟩,
         ⟨2, ['c', 'd', 'e'], false⟩]).pending_substr_ = []
      ∧ ((Reassembler.fresh 6).run
        [⟨4, ['e', 'f'], true⟩, ⟨1, ['b', 'c', 'd'], false⟩, ⟨0, ['a', 'b', 'c'], false⟩,
         ⟨2, ['c', 'd', 'e'], false⟩]).output_.closed_ = true
      ∧ ∀ calls2 : List Call, calls2.Perm
          [⟨4, ['e', 'f'], true⟩, ⟨1, ['b', 'c', 'd'], false⟩, ⟨0, ['a', 'b', 'c'], false⟩,
           ⟨2, ['c', 'd', 'e'], false⟩] →
          ((Reassembler.fresh 6).run calls2).output_.buffer_ = ['a', 'b', 'c', 'd', 'e', 'f']
            ∧ ((Reassembler.fresh 6).run calls2).bytes_pending = 0
            ∧ ((Reassembler.fresh 6).run calls2).output_.closed_ = true :=
  C1_reassembly ['a', 'b', 'c', 'd', 'e', 'f'] 6
    [⟨4, ['e', 'f'], true⟩, ⟨1, ['b', 'c', 'd'], false⟩, ⟨0, ['a', 'b', 'c'], false⟩,
     ⟨2, ['c', 'd', 'e'], false⟩]
    (by decide) (by decide) (by decide)
    (by
      intro p hp
      have hp6 : p < 6 := hp
      have : p = 0 ∨ p = 1 ∨ p = 2 ∨ p = 3 ∨ p = 4 ∨ p = 5 := by omega
      rcases this with rfl | rfl | rfl | rfl | rfl | rfl <;> decide)
    (by decide) (by decide)

/-! ## The stream index of a segment: C19 -/

theorem receive_first_syn (t : TCPReceiver) (msg : TCPSenderMessage) (hr : msg.RST = false)
    (hl : t.RST_ = false) (hs : msg.SYN = true) (hz : t.is_zero_point_set = false)
    (hi : (msg.seqno.add 1).unwrap msg.seqno t.reassembler_.output_.bytes_pushed_ ≠ 0) :
    (t.receive msg).zero_point = msg.seqno
      ∧ (t.receive msg).reassembler_
          = t.reassembler_.insert
              ((msg.seqno.add 1).unwrap msg.seqno t.reassembler_.output_.bytes_pushed_ - 1)
              msg.payload msg.FIN := by
  unfold TCPReceiver.receive
  simp [hr, hl, hs, hz, hi]

theorem receive_after_syn (t : TCPReceiver) (msg : TCPSenderMessage) (hr : msg.RST = false)
    (hl : t.RST_ = false) (hz : t.is_zero_point_set = true) :
    (msg.seqno.unwrap t.zero_point t.reassembler_.output_.bytes_pushed_ = 0 →
        t.receive msg = t)
      ∧ (msg.seqno.unwrap t.zero_point t.reassembler_.output_.bytes_pushed_ ≠ 0 →
        (t.receive msg).reassembler_
          = t.reassembler_.insert
              (msg.seqno.unwrap t.zero_point t.reassembler_.output_.bytes_pushed_ - 1)
              msg.payload msg.FIN) := by
  constructor
  · intro hi
    unfold TCPReceiver.receive
    simp [hr, hl, hz, hi]
  · intro hi
    unfold TCPReceiver.receive
    simp [hr, hl, hz, hi]

/-- C19 (counterexample): a receiver whose zero point is 7 gets a second SYN segment, with
seqno 7 and payload `"ab"`.  The claim puts the payload at stream index
`unwrap(7 + 1, 7, checkpoint) - 1 = 0`; the code unwraps the seqno 7 itself, gets 0 and
returns without inserting anything.  With seqno 8 on the second SYN the code inserts at
index 0, where the claim says index 1. -/
theorem C19_counterexample :
    ((TCPReceiver.fresh 10).receive ⟨⟨7⟩, true, [], false, false⟩).is_zero_point_set = true
      ∧ ((TCPReceiver.fresh 10).receive ⟨⟨7⟩, true, [], false, false⟩).RST_ = false
      ∧ ((Wrap32.mk 7).add 1).unwrap ⟨7⟩ 0 - 1 = 0
      ∧ ((Wrap32.mk 7).add 1).unwrap ⟨7⟩ (0 + 1) - 1 = 0
      ∧ ((TCPReceiver.fresh 10).receive ⟨⟨7⟩, true, [], false, false⟩).receive
          ⟨⟨7⟩, true, ['a', 'b'], false, false⟩
          = (TCPReceiver.fresh 10).receive ⟨⟨7⟩, true, [], false, false⟩
      ∧ (((TCPReceiver.fresh 10).receive ⟨⟨7⟩, true, [], false, false⟩).receive
          ⟨⟨7⟩, true, ['a', 'b'], false, false⟩).reassembler_
          ≠ ((TCPReceiver.fresh 10).receive ⟨⟨7⟩, true, [], false, false⟩).reassembler_.insert
              0 ['a', 'b'] false
      ∧ ((Wrap32.mk 8).add 1).unwrap ⟨7⟩ 0 - 1 = 1
      ∧ (((TCPReceiver.fresh 10).receive ⟨⟨7⟩, true, [], false, false⟩).receive
          ⟨⟨8⟩, true, ['a', 'b'], false, false⟩).reassembler_
          = ((TCPReceiver.fresh 10).receive ⟨⟨7⟩, true, [], false, false⟩).reassembler_.insert
              0 ['a', 'b'] false := by
  decide

/-- C19 (amended): on a receiver that has not been reset and for a segment without RST, the
seqno is advanced by one only for the SYN that sets the zero point: that segment's payload
and FIN go to `Reassembler.insert` at stream index
`unwrap(msg.seqno + 1, msg.seqno, bytes_pushed) - 1`.  Once the zero point is set, every
segment, with or without SYN, is placed at `unwrap(msg.seqno, zero_point, bytes_pushed) - 1`,
and a segment whose seqno unwraps to 0 (the position of the SYN) is dropped whole. -/
theorem C19_stream_index (t : TCPReceiver) (msg : TCPSenderMessage) (hr : msg.RST = false)
    (hl : t.RST_ = false) :
    (msg.SYN = true → t.is_zero_point_set = false →
        (msg.seqno.add 1).unwrap msg.seqno t.reassembler_.output_.bytes_pushed_ ≠ 0 →
        (t.receive msg).zero_point = msg.seqno
          ∧ (t.receive msg).reassembler_
              = t.reassembler_.insert
                  ((msg.seqno.add 1).unwrap msg.seqno t.reassembler_.output_.bytes_pushed_ - 1)
                  msg.payload msg.FIN)
      ∧ (t.is_zero_point_set = true →
          msg.seqno.unwrap t.zero_point t.reassembler_.output_.bytes_pushed_ ≠ 0 →
          (t.receive msg).reassembler_
            = t.reassembler_.insert
                (msg.seqno.unwrap t.zero_point t.reassembler_.output_.bytes_pushed_ - 1)
                msg.payload msg.FIN)
      ∧ (t.is_zero_point_set = true →
          msg.seqno.unwrap t.zero_point t.reassembler_.output_.bytes_pushed_ = 0 →
          t.receive msg = t) :=
  ⟨fun hs hz hi => receive_first_syn t msg hr hl hs hz hi,
   fun hz hi => (receive_after_syn t msg hr hl hz).2 hi,
   fun hz hi => (receive_after_syn t msg hr hl hz).1 hi⟩

/-- C19 (amended) at concrete inputs: a receiver with zero point 7 and no byte written
gets the segment with seqno 10, SYN and payload `"cd"`: it is stored at stream index 2. -/
theorem C19_stream_index_witness :
    ((⟨⟨10⟩, true, ['c', 'd'], false, false⟩ : TCPSenderMessage).SYN = true →
        ((TCPReceiver.fresh 10).receive
          ⟨⟨7⟩, true, [], false, false⟩).is_zero_point_set = false →
        ((Wrap32.mk 10).add 1).unwrap ⟨10⟩ ((TCPReceiver.fresh 10).receive
          ⟨⟨7⟩, true, [], false, false⟩).reassembler_.output_.bytes_pushed_ ≠ 0 →
        (((TCPReceiver.fresh 10).receive ⟨⟨7⟩, true, [], false, false⟩).receive
          ⟨⟨10⟩, true, ['c', 'd'], false, false⟩).zero_point = ⟨10⟩
          ∧ (((TCPReceiver.fresh 10).receive ⟨⟨7⟩, true, [], false, false⟩).receive
              ⟨⟨10⟩, true, ['c', 'd'], false, false⟩).reassembler_
              = ((TCPReceiver.fresh 10).receive
                  ⟨⟨7⟩, true, [], false, false⟩).reassembler_.insert
                  (((Wrap32.mk 10).add 1).unwrap ⟨10⟩ ((TCPReceiver.fresh 10).receive
                    ⟨⟨7⟩, true, [], false, false⟩).reassembler_.output_.bytes_pushed_ - 1)
                  ['c', 'd'] false)
      ∧ (((TCPReceiver.fresh 10).receive
            ⟨⟨7⟩, true, [], false, false⟩).is_zero_point_set = true →
          (Wrap32.mk 10).unwrap ((TCPReceiver.fresh 10).receive
            ⟨⟨7⟩, true, [], false, false⟩).zero_point ((TCPReceiver.fresh 10).receive
            ⟨⟨7⟩, true, [], false, false⟩).reassembler_.output_.bytes_pushed_ ≠ 0 →
          (((TCPReceiver.fresh 10).receive ⟨⟨7⟩, true, [], false, false⟩).receive
            ⟨⟨10⟩, true, ['c', 'd'], false, false⟩).reassembler_
            = ((TCPReceiver.fresh 10).receive
                ⟨⟨7⟩, true, [], false, false⟩).reassembler_.insert
                ((Wrap32.mk 10).unwrap ((TCPReceiver.fresh 10).receive
                  ⟨⟨7⟩, true, [], false, false⟩).zero_point ((TCPReceiver.fresh 10).receive
                  ⟨⟨7⟩, true, [], false, false⟩).reassembler_.output_.bytes_pushed_ - 1)
                ['c', 'd'] false)
      ∧ (((TCPReceiver.fresh 10).receive
            ⟨⟨7⟩, true, [], false, false⟩).is_zero_point_set = true →
          (Wrap32.mk 10).unwrap ((TCPReceiver.fresh 10).receive
            ⟨⟨7⟩, true, [], false, false⟩).zero_point ((TCPReceiver.fresh 10).receive
            ⟨⟨7⟩, true, [], false, false⟩).reassembler_.output_.bytes_pushed_ = 0 →
          ((TCPReceiver.fresh 10).receive ⟨⟨7⟩, true, [], false, false⟩).receive
            ⟨⟨10⟩, true, ['c', 'd'], false, false⟩
            = (TCPReceiver.fresh 10).receive ⟨⟨7⟩, true, [], false, false⟩) :=
  C19_stream_index ((TCPReceiver.fresh 10).receive ⟨⟨7⟩, true, [], false, false⟩)
    ⟨⟨10⟩, true, ['c', 'd'], false, false⟩ rfl (by decide)

/-! ## The sender: one iteration of the loop of `push` -/

theorem seq_total_nil : seq_total [] = 0 := rfl

theorem seq_total_cons (m : TCPSenderMessage) (l : List TCPSenderMessage) :
    seq_total (m :: l) = m.sequence_length + seq_total l := by
  simp [seq_total]

theorem seq_total_append (a b : List TCPSenderMessage) :
    seq_total (a ++ b) = seq_total a + seq_total b := by
  simp [seq_total]

theorem pop_zero (b : ByteStream) : b.pop 0 = b := by
  unfold ByteStream.pop
  simp

theorem pop_frame (b : ByteStream) (n : Nat) :
    (b.pop n).error_ = b.error_ ∧ (b.pop n).closed_ = b.closed_
      ∧ (b.pop n).capacity_ = b.capacity_ ∧ (b.pop n).buffer_ = b.buffer_.drop n :=
  ⟨rfl, rfl, rfl, rfl⟩

theorem pop_pop (b : ByteStream) (n k : Nat) (h : n ≤ b.buffer_.length) :
    (b.pop n).pop k = b.pop (n + k) := by
  unfold ByteStream.pop ByteStream.bytes_buffered
  simp only [List.drop_drop, List.length_drop]
  congr 1
  omega

theorem read_loop_ok (fuel : Nat) (input : ByteStream) (payload_size : Nat)
    (h : payload_size ≤ input.bytes_buffered) :
    TCPSender.read_loop (fuel + 1) input [] payload_size
      = some (input.pop payload_size, input.buffer_.take payload_size) := by
  by_cases h0 : payload_size = 0
  · subst h0
    simp [TCPSender.read_loop, pop_zero]
  · have hpos : 0 < payload_size := Nat.pos_of_ne_zero h0
    have hmin : min input.peek.length (payload_size - ([] : Bytes).length) = payload_size := by
      unfold ByteStream.peek
      unfold ByteStream.bytes_buffered at h
      simp only [List.length_nil, Nat.sub_zero]
      omega
    have hlen : (input.buffer_.take payload_size).length = payload_size := by
      unfold ByteStream.bytes_buffered at h
      rw [List.length_take]; omega
    simp only [TCPSender.read_loop, List.length_nil, hpos, if_true, Nat.sub_zero]
    simp only [List.length_nil, Nat.sub_zero] at hmin
    rw [hmin]
    simp only [List.nil_append, ByteStream.peek]
    cases fuel with
    | zero => simp [TCPSender.read_loop, hlen]
    | succ k => simp [TCPSender.read_loop, hlen]

theorem iter_seq_size_le (s : TCPSender) (aw : Nat) :
    iter_seq_size s aw ≤ aw ∧ iter_seq_size s aw ≤ MAX_PAYLOAD_SIZE + 1
      ∧ iter_payload_size s aw ≤ s.input_.bytes_buffered
      ∧ iter_payload_size s aw ≤ MAX_PAYLOAD_SIZE := by
  unfold iter_payload_size iter_seq_size
  split <;> omega

theorem iter_msg_length (s : TCPSender) (aw : Nat) (hsyn : s.current_seq_ = 0 → 1 ≤ aw) :
    (iter_msg s aw).sequence_length
      = iter_seq_size s aw + (if iter_fin s aw then 1 else 0) := by
  have hb := (iter_seq_size_le s aw).2.2.1
  unfold ByteStream.bytes_buffered at hb
  have hl : (s.input_.buffer_.take (iter_payload_size s aw)).length = iter_payload_size s aw := by
    rw [List.length_take]; omega
  unfold TCPSenderMessage.sequence_length iter_msg
  simp only [hl]
  unfold iter_payload_size iter_seq_size
  by_cases h0 : s.current_seq_ = 0
  · have := hsyn h0
    simp only [h0, decide_True, if_true]
    omega
  · simp only [h0, decide_False, Bool.false_eq_true, if_false]
    omega

theorem iter_msg_le (s : TCPSender) (aw : Nat) (hsyn : s.current_seq_ = 0 → 1 ≤ aw) :
    (iter_msg s aw).sequence_length ≤ aw := by
  rw [iter_msg_length s aw hsyn]
  have := (iter_seq_size_le s aw).1
  cases hf : iter_fin s aw
  · simp only [Bool.false_eq_true, if_false]; omega
  · have h2 : iter_seq_size s aw < aw := by
      unfold iter_fin at hf
      simp only [Bool.and_eq_true, decide_eq_true_eq] at hf
      exact hf.2
    simp only [if_true]; omega

theorem push_loop_succ (fuel : Nat) (s : TCPSender) (wz aw : Nat)
    (sent : List TCPSenderMessage) (hf : s.is_fin_sent = false)
    (hsyn : s.current_seq_ = 0 → 1 ≤ aw) :
    TCPSender.push_loop (fuel + 1) s wz aw sent
      = if (iter_msg s aw).sequence_length = 0 then some (s, sent)
        else if (iter_state s aw).input_.bytes_buffered ≠ 0
            ∧ (iter_state s aw).available_window wz ≠ 0 then
          TCPSender.push_loop fuel (iter_state s aw) wz
            ((iter_state s aw).available_window wz) (sent ++ [iter_msg s aw])
        else some (iter_state s aw, sent ++ [iter_msg s aw]) := by
  have hsz := iter_seq_size_le s aw
  have hps : (if s.current_seq_ = 0 then u64sub (iter_seq_size s aw) 1 else iter_seq_size s aw)
      = iter_payload_size s aw := by
    unfold iter_payload_size
    by_cases h0 : s.current_seq_ = 0
    · have h1 := hsyn h0
      have h2 : 1 ≤ iter_seq_size s aw := by
        unfold iter_seq_size; simp only [h0, if_true]; omega
      have h3 := hsz.2.1
      unfold MAX_PAYLOAD_SIZE at h3
      simp only [h0, if_true]
      unfold u64sub; omega
    · simp [h0]
  have hread := read_loop_ok s.input_.bytes_buffered s.input_ (iter_payload_size s aw) hsz.2.2.1
  have hlen := iter_msg_length s aw hsyn
  have hfp : (s.is_fin_sent = true) = False := by simp [hf]
  conv_lhs => rw [TCPSender.push_loop]
  simp only [hfp, if_false]
  have hss : min aw (min s.input_.bytes_buffered MAX_PAYLOAD_SIZE
      + (if s.current_seq_ = 0 then 1 else 0)) = iter_seq_size s aw := rfl
  rw [hss, hps, hread]
  simp only
  have hmsg : ({ TCPSenderMessage.empty with
      SYN := decide (s.current_seq_ = 0),
      payload := s.input_.buffer_.take (iter_payload_size s aw),
      FIN := (s.input_.pop (iter_payload_size s aw)).is_finished
        && decide (iter_seq_size s aw < aw) } : TCPSenderMessage).sequence_length
      = (iter_msg s aw).sequence_length := rfl
  rw [hmsg]
  by_cases hz : (iter_msg s aw).sequence_length = 0
  · simp only [hz, if_true]
    have hfin : iter_fin s aw = false := by
      rw [hlen] at hz
      by_cases hx : iter_fin s aw = true
      · simp [hx] at hz
      · simpa using hx
    have hp0 : iter_payload_size s aw = 0 := by
      have : iter_seq_size s aw = 0 := by rw [hlen] at hz; omega
      unfold iter_payload_size; omega
    have hfin2 : ((s.input_.pop (iter_payload_size s aw)).is_finished
        && decide (iter_seq_size s aw < aw)) = false := hfin
    rw [hfin2, hp0, pop_zero]
    simp only [Bool.false_eq_true, if_false]
  · simp only [hz, if_false]
    rfl

theorem iter_state_fields (s : TCPSender) (aw : Nat) :
    (iter_state s aw).input_ = s.input_.pop (iter_payload_size s aw)
      ∧ (iter_state s aw).is_fin_sent = (if iter_fin s aw then true else s.is_fin_sent)
      ∧ (iter_state s aw).current_seq_
          = u64add s.current_seq_ (iter_msg s aw).sequence_length
      ∧ (iter_state s aw).in_flight_cnt_
          = u64add s.in_flight_cnt_ (iter_msg s aw).sequence_length
      ∧ (iter_state s aw).outstanding_msg_ = s.outstanding_msg_ ++ [iter_msg s aw]
      ∧ (iter_state s aw).expire_time_
          = (if s.expire_time_ = UINT64_MAX then u64add s.current_time_ s.rto_
             else s.expire_time_)
      ∧ (iter_state s aw).isn_ = s.isn_ ∧ (iter_state s aw).zero_point_ = s.zero_point_
      ∧ (iter_state s aw).initial_RTO_ms_ = s.initial_RTO_ms_
      ∧ (iter_state s aw).current_time_ = s.current_time_
      ∧ (iter_state s aw).ack_ = s.ack_ ∧ (iter_state s aw).retrans_cnt_ = s.retrans_cnt_
      ∧ (iter_state s aw).window_size_ = s.window_size_ ∧ (iter_state s aw).rto_ = s.rto_ := by
  unfold iter_state
  simp only
  split <;> simp_all

theorem chainFrom_append (zp : Wrap32) (a : Nat) (l1 l2 : List TCPSenderMessage) :
    ChainFrom zp a (l1 ++ l2) ↔ ChainFrom zp a l1 ∧ ChainFrom zp (a + seq_total l1) l2 := by
  induction l1 generalizing a with
  | nil => simp [ChainFrom, seq_total]
  | cons m l1 ih =>
    have e : a + (m.sequence_length + seq_total l1) = a + m.sequence_length + seq_total l1 := by
      omega
    have ih2 := ih (a + m.sequence_length)
    simp only [List.cons_append, ChainFrom, seq_total_cons]
    have eapp : l1.append l2 = l1 ++ l2 := rfl
    rw [e, eapp, ih2]
    tauto

theorem flowFrom_append (eff a : Nat) (l1 l2 : List TCPSenderMessage) :
    FlowFrom eff a (l1 ++ l2) ↔ FlowFrom eff a l1 ∧ FlowFrom eff (a + seq_total l1) l2 := by
  induction l1 generalizing a with
  | nil => simp [FlowFrom, seq_total]
  | cons m l1 ih =>
    have e : a + (m.sequence_length + seq_total l1) = a + m.sequence_length + seq_total l1 := by
      omega
    have ih2 := ih (a + m.sequence_length)
    simp only [List.cons_append, FlowFrom, seq_total_cons]
    have eapp : l1.append l2 = l1 ++ l2 := rfl
    rw [e, eapp, ih2]
    tauto

theorem flowFrom_total (eff a : Nat) (l : List TCPSenderMessage) (h : FlowFrom eff a l)
    (hne : l ≠ []) : a + seq_total l ≤ eff := by
  induction l generalizing a with
  | nil => exact absurd rfl hne
  | cons m l ih =>
    obtain ⟨h1, h2⟩ := h
    rw [seq_total_cons]
    cases l with
    | nil => simpa [seq_total] using h1
    | cons x r =>
      have := ih (a + m.sequence_length) h2 (by simp)
      omega

theorem fin_count_nil : fin_count [] = 0 := rfl

theorem fin_count_append (a b : List TCPSenderMessage) :
    fin_count (a ++ b) = fin_count a + fin_count b := by
  simp [fin_count]

theorem fin_count_cons (m : TCPSenderMessage) (l : List TCPSenderMessage) :
    fin_count (m :: l) = (if m.FIN then 1 else 0) + fin_count l := by
  unfold fin_count
  cases h : m.FIN
  · simp [List.filter_cons, h]
  · simp [List.filter_cons, h]; omega

theorem fin_count_pos (l : List TCPSenderMessage) (m : TCPSenderMessage) (hm : m ∈ l)
    (hf : m.FIN = true) : 1 ≤ fin_count l := by
  unfold fin_count
  have : m ∈ l.filter (fun m => m.FIN) := List.mem_filter.2 ⟨hm, hf⟩
  exact List.length_pos_of_mem this

theorem fin_count_zero (l : List TCPSenderMessage) (h : fin_count l = 0) :
    ∀ m ∈ l, m.FIN = false := by
  intro m hm
  cases hf : m.FIN with
  | false => rfl
  | true =>
    have := fin_count_pos l m hm hf
    omega

theorem pushSpec_same (s : TCPSender)
    (hfin : s.is_fin_sent = true → s.input_.closed_ = true ∧ s.input_.buffer_ = []) :
    PushSpec s s [] :=
  { seq := by simp [seq_total], queue := by simp, infl := by simp [seq_total],
    chain := trivial, flow := trivial, expire := by simp, isn := rfl, zp := rfl, irto := rfl,
    time := rfl, ack := rfl, retrans := rfl, wnd := rfl, rto := rfl, err := rfl,
    popped := ⟨0, Nat.zero_le _, (pop_zero _).symm, Nat.zero_le _⟩, fin := hfin,
    finkeep := fun _ => ⟨rfl, rfl⟩,
    fincount := fun h => by simp [fin_count, h],
    lastfin := by intro pre m post h; simp at h }

theorem pushSpec_then {s s1 s2 : TCPSender} {o1 o2 : List TCPSenderMessage}
    (h1 : PushSpec s s1 o1) (h2 : PushSpec s1 s2 o2) : PushSpec s s2 (o1 ++ o2) := by
  obtain ⟨n1, hn1, hp1, hq1⟩ := h1.popped
  obtain ⟨n2, hn2, hp2, hq2⟩ := h2.popped
  refine
    { seq := by rw [h2.seq, h1.seq, seq_total_append]; omega,
      queue := by rw [h2.queue, h1.queue, List.append_assoc],
      infl := by rw [h2.infl, h1.infl, seq_total_append]; omega,
      chain := ?_, flow := ?_, expire := ?_,
      isn := by rw [h2.isn, h1.isn], zp := by rw [h2.zp, h1.zp],
      irto := by rw [h2.irto, h1.irto], time := by rw [h2.time, h1.time],
      ack := by rw [h2.ack, h1.ack], retrans := by rw [h2.retrans, h1.retrans],
      wnd := by rw [h2.wnd, h1.wnd], rto := by rw [h2.rto, h1.rto],
      err := by rw [h2.err, h1.err], popped := ?_, fin := h2.fin,
      finkeep := ?_, fincount := ?_, lastfin := ?_ }
  · rw [chainFrom_append]
    refine ⟨h1.chain, ?_⟩
    have := h2.chain
    rw [h1.zp, h1.seq] at this
    exact this
  · rw [flowFrom_append]
    refine ⟨h1.flow, ?_⟩
    have := h2.flow
    rw [h1.wnd, h1.infl] at this
    exact this
  · rw [h2.expire, h1.expire, h1.time, h1.rto]
    by_cases e1 : o1 = [] <;> by_cases e2 : o2 = [] <;>
      by_cases e3 : s.expire_time_ = UINT64_MAX <;>
      by_cases e4 : u64add s.current_time_ s.rto_ = UINT64_MAX <;> simp [e1, e2, e3, e4]
  · refine ⟨n1 + n2, ?_, ?_, ?_⟩
    · rw [hp1] at hn2
      have := (pop_frame s.input_ n1).2.2.2
      rw [this, List.length_drop] at hn2
      omega
    · rw [hp2, hp1, pop_pop _ _ _ hn1]
    · rw [seq_total_append]; omega
  · intro hf
    obtain ⟨a1, b1⟩ := h1.finkeep hf
    obtain ⟨a2, b2⟩ := h2.finkeep (by rw [a1]; exact hf)
    exact ⟨by rw [a2, a1], by rw [b1, b2]; rfl⟩
  · intro hf
    rw [fin_count_append]
    by_cases h1f : s1.is_fin_sent = true
    · obtain ⟨a2, b2⟩ := h2.finkeep h1f
      rw [h1.fincount hf, b2, a2, h1f]
      simp [fin_count]
    · have h1f2 : s1.is_fin_sent = false := by simpa using h1f
      rw [h1.fincount hf, h2.fincount h1f2, h1f2]
      simp
  · intro pre m post he hm
    rcases List.append_eq_append_iff.1 he with ⟨c, _, hc2⟩ | ⟨a, ha1, ha2⟩
    · exact h2.lastfin c m post hc2 hm
    · cases a with
      | nil => exact h2.lastfin [] m post (by simpa using ha2.symm) hm
      | cons x a2 =>
        simp only [List.cons_append, List.cons.injEq] at ha2
        obtain ⟨hx, hpost⟩ := ha2
        subst hx
        have hl := h1.lastfin pre m a2 ha1 hm
        have hmem : m ∈ o1 := by rw [ha1]; simp
        have hs1 : s1.is_fin_sent = true := by
          cases hsf : s.is_fin_sent with
          | true =>
            have := (h1.finkeep hsf).2
            rw [this] at hmem
            simp at hmem
          | false =>
            have hc := h1.fincount hsf
            have := fin_count_pos o1 m hmem hm
            cases hs1 : s1.is_fin_sent with
            | true => rfl
            | false => rw [hs1] at hc; simp at hc; omega
        rw [hpost, hl, (h2.finkeep hs1).2]
        rfl

theorem aw_le (s : TCPSender) (hw : s.window_size_ ≤ 65535) :
    s.available_window (if s.window_size_ = 0 then 1 else 0) ≤ 65535 := by
  unfold TCPSender.available_window
  split <;> split <;> omega

theorem aw_pos_bound (s : TCPSender) (wz : Nat) (h : 1 ≤ s.available_window wz) :
    s.in_flight_cnt_ + s.available_window wz = s.window_size_ + wz := by
  unfold TCPSender.available_window at h ⊢
  split
  · rename_i hlt; rw [if_pos hlt] at h; omega
  · omega

theorem iter_spec (s : TCPSender) (wz : Nat)
    (hwz : wz = if s.window_size_ = 0 then 1 else 0) (hw : s.window_size_ ≤ 65535)
    (hf : s.is_fin_sent = false) (hsyn : s.current_seq_ = 0 → 1 ≤ s.available_window wz)
    (hz : (iter_msg s (s.available_window wz)).sequence_length ≠ 0)
    (hcs : s.current_seq_ + s.available_window wz < 2 ^ 64) :
    PushSpec s (iter_state s (s.available_window wz)) [iter_msg s (s.available_window wz)] := by
  set aw := s.available_window wz with haw
  have hle := iter_msg_le s aw hsyn
  have hlen := iter_msg_length s aw hsyn
  have hsz := iter_seq_size_le s aw
  have hpos : 1 ≤ aw := by omega
  have hsum := aw_pos_bound s wz hpos
  rw [← haw] at hsum
  have hwz1 : wz ≤ 1 := by rw [hwz]; split <;> omega
  obtain ⟨f1, f2, f3, f4, f5, f6, f7, f8, f9, f10, f11, f12, f13, f14⟩ := iter_state_fields s aw
  have hpl : (iter_msg s aw).payload.length ≤ iter_payload_size s aw := by
    unfold iter_msg; simp only [List.length_take]; omega
  refine
    { seq := by rw [f3]; simp only [seq_total, List.map_cons, List.map_nil, List.sum_cons,
        List.sum_nil, Nat.add_zero]; unfold u64add; omega,
      queue := f5,
      infl := by rw [f4]; simp only [seq_total, List.map_cons, List.map_nil, List.sum_cons,
        List.sum_nil, Nat.add_zero]; unfold u64add; omega,
      chain := ?_, flow := ?_, expire := by rw [f6]; simp,
      isn := f7, zp := f8, irto := f9, time := f10, ack := f11, retrans := f12, wnd := f13,
      rto := f14, err := by rw [f1]; rfl, popped := ?_, fin := ?_,
      finkeep := ?_, fincount := ?_, lastfin := ?_ }
  · refine ⟨rfl, by omega, ?_, rfl, by have := hsz.2.2.2; omega, trivial⟩
    unfold iter_msg; simp
  · refine ⟨?_, trivial⟩
    rw [← hwz]; omega
  · refine ⟨iter_payload_size s aw, hsz.2.2.1, f1, ?_⟩
    simp only [seq_total, List.map_cons, List.map_nil, List.sum_cons, List.sum_nil, Nat.add_zero]
    rw [hlen]
    unfold iter_payload_size
    omega
  · intro h
    rw [f2, hf] at h
    have hfin : iter_fin s aw = true := by
      by_cases hx : iter_fin s aw = true
      · exact hx
      · simp [hx] at h
    unfold iter_fin at hfin
    simp only [Bool.and_eq_true, decide_eq_true_eq] at hfin
    have h1 := hfin.1
    unfold ByteStream.is_finished ByteStream.bytes_buffered at h1
    simp only [Bool.and_eq_true, beq_iff_eq] at h1
    rw [f1]
    exact ⟨h1.1, List.length_eq_zero.mp h1.2⟩
  · intro h
    rw [hf] at h
    cases h
  · intro _
    rw [f2, hf, fin_count_cons, fin_count_nil]
    have : (iter_msg s aw).FIN = iter_fin s aw := rfl
    rw [this]
    cases iter_fin s aw <;> simp
  · intro pre m post he _
    cases pre with
    | nil =>
      simp only [List.nil_append, List.cons.injEq] at he
      exact he.2.symm
    | cons x pre2 => simp at he

theorem push_loop_spec (fuel : Nat) (s : TCPSender) (wz : Nat)
    (sent : List TCPSenderMessage) (hwz : wz = if s.window_size_ = 0 then 1 else 0)
    (hw : s.window_size_ ≤ 65535) (hfuel : s.available_window wz + 1 ≤ fuel)
    (hsyn : s.current_seq_ = 0 → s.in_flight_cnt_ = 0)
    (hfin : s.is_fin_sent = true → s.input_.closed_ = true ∧ s.input_.buffer_ = [])
    (hcs : s.current_seq_ + s.available_window wz < 2 ^ 64) :
    ∃ s2 out, TCPSender.push_loop fuel s wz (s.available_window wz) sent = some (s2, sent ++ out)
      ∧ PushSpec s s2 out := by
  induction fuel generalizing s sent with
  | zero => omega
  | succ fuel ih =>
    by_cases hf : s.is_fin_sent = true
    · refine ⟨s, [], ?_, pushSpec_same s hfin⟩
      conv_lhs => rw [TCPSender.push_loop]
      simp [hf]
    · have hf : s.is_fin_sent = false := by simpa using hf
      have hsyn2 : s.current_seq_ = 0 → 1 ≤ s.available_window wz := by
        intro h0
        have := hsyn h0
        unfold TCPSender.available_window
        rw [this, hwz]
        split <;> split <;> omega
      rw [push_loop_succ fuel s wz _ sent hf hsyn2]
      by_cases hz : (iter_msg s (s.available_window wz)).sequence_length = 0
      · rw [if_pos hz]
        exact ⟨s, [], by simp, pushSpec_same s hfin⟩
      · rw [if_neg hz]
        have hspec := iter_spec s wz hwz hw hf hsyn2 hz hcs
        set s3 := iter_state s (s.available_window wz) with hs3
        set m := iter_msg s (s.available_window wz) with hm
        by_cases hc : s3.input_.bytes_buffered ≠ 0 ∧ s3.available_window wz ≠ 0
        · rw [if_pos hc]
          have hle := iter_msg_le s (s.available_window wz) hsyn2
          rw [← hm] at hle
          have hm1 : 1 ≤ m.sequence_length := by omega
          have hsum := aw_pos_bound s wz (by omega)
          have hinfl := hspec.infl
          simp only [seq_total, List.map_cons, List.map_nil, List.sum_cons, List.sum_nil,
            Nat.add_zero] at hinfl
          have haw3 : s3.available_window wz + m.sequence_length ≤ s.available_window wz := by
            have e1 : s3.available_window wz
                = if s.window_size_ + wz < s.in_flight_cnt_ + m.sequence_length then 0
                  else s.window_size_ + wz - (s.in_flight_cnt_ + m.sequence_length) := by
              unfold TCPSender.available_window
              rw [hspec.wnd, hinfl]
            rw [e1]; split <;> omega
          have hfuel3 : s3.available_window wz + 1 ≤ fuel := by omega
          have hseq3 := hspec.seq
          simp only [seq_total, List.map_cons, List.map_nil, List.sum_cons, List.sum_nil,
            Nat.add_zero] at hseq3
          obtain ⟨s2, out, h1, h2⟩ := ih s3 (sent ++ [m]) (by rw [hspec.wnd]; exact hwz)
            (by rw [hspec.wnd]; exact hw) hfuel3 (by intro h0; omega) hspec.fin (by omega)
          refine ⟨s2, m :: out, ?_, pushSpec_then hspec h2⟩
          rw [h1]; simp
        · rw [if_neg hc]
          exact ⟨s3, [m], rfl, hspec⟩

theorem push_spec (s : TCPSender) (he : s.input_.error_ = false)
    (hw : s.window_size_ ≤ 65535) (hsyn : s.current_seq_ = 0 → s.in_flight_cnt_ = 0)
    (hfin : s.is_fin_sent = true → s.input_.closed_ = true ∧ s.input_.buffer_ = [])
    (hcs : s.current_seq_ + 65535 < 2 ^ 64) :
    ∃ s2 out, s.push = some (s2, out) ∧ PushSpec s s2 out := by
  have haw := aw_le s hw
  obtain ⟨s2, out, h1, h2⟩ := push_loop_spec
    (s.available_window (if s.window_size_ = 0 then 1 else 0) + 1) s
    (if s.window_size_ = 0 then 1 else 0) [] rfl hw (le_refl _) hsyn hfin (by omega)
  refine ⟨s2, out, ?_, h2⟩
  unfold TCPSender.push
  simp only [he, Bool.false_eq_true, if_false]
  simpa using h1

theorem push_error (s : TCPSender) (he : s.input_.error_ = true) :
    s.push = some (s, [{ seqno := Wrap32.wrap s.current_seq_ s.zero_point_, SYN := false,
                         payload := [], FIN := false, RST := true }]) := by
  unfold TCPSender.push
  simp [he, TCPSenderMessage.empty]

/-! ## The sender: acknowledgements -/

theorem unwrap_wrap (zp : Wrap32) (t c : Nat) (h1 : t < c + 2 ^ 31) (h2 : c < t + 2 ^ 31) :
    (Wrap32.wrap t zp).unwrap zp c = t := by
  unfold Wrap32.unwrap Wrap32.wrap
  simp only
  by_cases htc : c ≤ t
  · have hd : ((zp.raw_value_ + t % 2 ^ 32) % 2 ^ 32 % 2 ^ 32 + 2 ^ 32
        - (zp.raw_value_ + c % 2 ^ 32) % 2 ^ 32) % 2 ^ 32 = t - c := by omega
    rw [hd]
    have : ¬ (t - c > 2 ^ 31 ∧ c + (t - c) ≥ 2 ^ 32) := by omega
    rw [if_neg this]; omega
  · have hd : ((zp.raw_value_ + t % 2 ^ 32) % 2 ^ 32 % 2 ^ 32 + 2 ^ 32
        - (zp.raw_value_ + c % 2 ^ 32) % 2 ^ 32) % 2 ^ 32 = 2 ^ 32 - (c - t) := by omega
    rw [hd]
    have : 2 ^ 32 - (c - t) > 2 ^ 31 ∧ c + (2 ^ 32 - (c - t)) ≥ 2 ^ 32 := by omega
    rw [if_pos this]; omega

theorem unwrap_self (z : Wrap32) : z.unwrap z 0 = 0 := by
  unfold Wrap32.unwrap Wrap32.wrap
  simp only
  have hd : (z.raw_value_ % 2 ^ 32 + 2 ^ 32 - (z.raw_value_ + 0 % 2 ^ 32) % 2 ^ 32) % 2 ^ 32
      = 0 := by omega
  rw [hd]; simp

theorem with_starts_ge (st : Nat) (l : List TCPSenderMessage) :
    ∀ p ∈ with_starts st l, st ≤ p.1 := by
  induction l generalizing st with
  | nil => intro p hp; simp [with_starts] at hp
  | cons m rest ih =>
    intro p hp
    simp only [with_starts, List.mem_cons] at hp
    rcases hp with rfl | hp
    · exact le_refl _
    · have := ih _ p hp; omega

theorem with_starts_snd (st : Nat) (l : List TCPSenderMessage) :
    (with_starts st l).map Prod.snd = l := by
  induction l generalizing st with
  | nil => rfl
  | cons m rest ih => simp [with_starts, ih]

theorem not_acked_cons (a st : Nat) (m : TCPSenderMessage) (l : List TCPSenderMessage) :
    not_acked a st (m :: l)
      = if a < st + m.sequence_length then m :: not_acked a (st + m.sequence_length) l
        else not_acked a (st + m.sequence_length) l := by
  unfold not_acked
  by_cases h : a < st + m.sequence_length
  · simp [with_starts, List.filter_cons, h]
  · simp [with_starts, List.filter_cons, h]

theorem wholly_acked_cons (a st : Nat) (m : TCPSenderMessage) (l : List TCPSenderMessage) :
    wholly_acked a st (m :: l)
      = if st + m.sequence_length ≤ a then m :: wholly_acked a (st + m.sequence_length) l
        else wholly_acked a (st + m.sequence_length) l := by
  unfold wholly_acked
  by_cases h : st + m.sequence_length ≤ a
  · simp [with_starts, List.filter_cons, h]
  · simp [with_starts, List.filter_cons, h]

theorem not_acked_all (a st : Nat) (l : List TCPSenderMessage) (h : a < st) :
    not_acked a st l = l ∧ wholly_acked a st l = [] := by
  induction l generalizing st with
  | nil => simp [not_acked, wholly_acked, with_starts]
  | cons m rest ih =>
    obtain ⟨h1, h2⟩ := ih (st + m.sequence_length) (by omega)
    rw [not_acked_cons, wholly_acked_cons, h1, h2, if_pos (by omega), if_neg (by omega)]
    exact ⟨rfl, rfl⟩

theorem not_acked_cons_acked (a st : Nat) (m : TCPSenderMessage) (l : List TCPSenderMessage)
    (h : st + m.sequence_length ≤ a) :
    not_acked a st (m :: l) = not_acked a (st + m.sequence_length) l
      ∧ wholly_acked a st (m :: l) = m :: wholly_acked a (st + m.sequence_length) l := by
  rw [not_acked_cons, wholly_acked_cons, if_neg (by omega), if_pos h]
  exact ⟨rfl, rfl⟩

theorem not_acked_cons_open (a st : Nat) (m : TCPSenderMessage) (l : List TCPSenderMessage)
    (h : a < st + m.sequence_length) :
    not_acked a st (m :: l) = m :: l ∧ wholly_acked a st (m :: l) = [] := by
  obtain ⟨h1, h2⟩ := not_acked_all a (st + m.sequence_length) l h
  rw [not_acked_cons, wholly_acked_cons, h1, h2, if_pos h, if_neg (by omega)]
  exact ⟨rfl, rfl⟩

theorem acked_split (a st : Nat) (l : List TCPSenderMessage) :
    wholly_acked a st l ++ not_acked a st l = l := by
  induction l generalizing st with
  | nil => simp [not_acked, wholly_acked, with_starts]
  | cons m rest ih =>
    by_cases h : st + m.sequence_length ≤ a
    · obtain ⟨h1, h2⟩ := not_acked_cons_acked a st m rest h
      rw [h1, h2, List.cons_append, ih]
    · obtain ⟨h1, h2⟩ := not_acked_cons_open a st m rest (by omega)
      rw [h1, h2, List.nil_append]

theorem not_acked_chain (zp : Wrap32) (a st : Nat) (l : List TCPSenderMessage)
    (hc : ChainFrom zp st l) (h1 : st ≤ a) :
    st + seq_total (wholly_acked a st l) ≤ a
      ∧ ChainFrom zp (st + seq_total (wholly_acked a st l)) (not_acked a st l) := by
  induction l generalizing st with
  | nil => simpa [not_acked, wholly_acked, with_starts, seq_total, ChainFrom] using h1
  | cons m rest ih =>
    by_cases h : st + m.sequence_length ≤ a
    · obtain ⟨e1, e2⟩ := not_acked_cons_acked a st m rest h
      obtain ⟨i1, i2⟩ := ih (st + m.sequence_length) hc.2.2.2.2.2 h
      rw [e1, e2, seq_total_cons]
      have e : st + (m.sequence_length + seq_total (wholly_acked a (st + m.sequence_length) rest))
          = st + m.sequence_length + seq_total (wholly_acked a (st + m.sequence_length) rest) := by
        omega
      rw [e]
      exact ⟨i1, i2⟩
    · obtain ⟨e1, e2⟩ := not_acked_cons_open a st m rest (by omega)
      rw [e1, e2]
      simpa [seq_total] using ⟨h1, hc⟩

theorem pop_acked_spec (l : List TCPSenderMessage) (s1 : TCPSender) (st : Nat)
    (hc : ChainFrom s1.zero_point_ st l) (h1 : st ≤ s1.ack_)
    (h2 : s1.ack_ ≤ st + seq_total l) (hb : seq_total l ≤ 65535)
    (hi : s1.in_flight_cnt_ = seq_total l) (hcs : st + seq_total l < 2 ^ 64) :
    s1.pop_acked l
      = { s1 with outstanding_msg_ := not_acked s1.ack_ st l,
                  in_flight_cnt_ := seq_total (not_acked s1.ack_ st l) } := by
  induction l generalizing s1 st with
  | nil =>
    simp only [TCPSender.pop_acked, not_acked, with_starts, List.filter_nil, List.map_nil,
      seq_total]
    cases s1
    simp_all [seq_total]
  | cons m rest ih =>
    have hseq : m.seqno = Wrap32.wrap st s1.zero_point_ := hc.1
    rw [seq_total_cons] at h2 hb hi hcs
    have hun : s1.unwarp m.seqno = st := by
      unfold TCPSender.unwarp
      rw [hseq]
      exact unwrap_wrap _ _ _ (by omega) (by omega)
    by_cases h : st + m.sequence_length ≤ s1.ack_
    · have hcond : ¬ (u64add (s1.unwarp m.seqno) m.sequence_length > s1.ack_) := by
        rw [hun]; unfold u64add; omega
      obtain ⟨e1, _⟩ := not_acked_cons_acked s1.ack_ st m rest h
      rw [e1]
      simp only [TCPSender.pop_acked, hcond, if_false]
      rw [ih { s1 with in_flight_cnt_ := u64sub s1.in_flight_cnt_ m.sequence_length }
        (st + m.sequence_length) hc.2.2.2.2.2 h (by simp only; omega) (by omega)
        (by simp only; rw [hi]; unfold u64sub; omega) (by omega)]
    · have hcond : u64add (s1.unwarp m.seqno) m.sequence_length > s1.ack_ := by
        rw [hun]; unfold u64add; omega
      obtain ⟨e1, _⟩ := not_acked_cons_open s1.ack_ st m rest (by omega)
      rw [e1]
      simp only [TCPSender.pop_acked, hcond, if_true, seq_total_cons]
      cases s1
      simp_all

/-! ## The sender: the invariant between two actions -/

theorem sinv_fresh (capacity : Nat) (isn : Wrap32) (initial_RTO_ms : Nat) :
    SInv (TCPSender.fresh capacity isn initial_RTO_ms) := by
  have h0 : (TCPSender.fresh capacity isn initial_RTO_ms).current_seq_ = 0 := unwrap_self isn
  constructor <;>
    simp [TCPSender.fresh, TCPSender.init, seq_total, ChainFrom, ByteStream.fresh, unwrap_self]

theorem sinv_push (s s2 : TCPSender) (out : List TCPSenderMessage) (h : SInv s)
    (hp : PushSpec s s2 out) (hroom : s.current_seq_ + 65535 < 2 ^ 64) : SInv s2 := by
  have hq := hp.queue
  have hsum : seq_total s2.outstanding_msg_
      = seq_total s.outstanding_msg_ + seq_total out := by
    rw [hq, seq_total_append]
  have hi := h.infl
  have hle := h.le
  have hb := h.bound
  have hw := h.wnd
  have hs := hp.seq
  have hst : s2.current_seq_ - seq_total s2.outstanding_msg_
      = s.current_seq_ - seq_total s.outstanding_msg_ := by omega
  have hbound : s.in_flight_cnt_ + seq_total out ≤ 65535 := by
    by_cases hne : out = []
    · subst hne; simpa [seq_total] using hb
    · have hft := flowFrom_total _ _ _ hp.flow hne
      split at hft <;> omega
  refine ⟨by rw [hp.wnd]; exact hw, by rw [hp.infl, hsum, hi], ?_, by omega,
    by rw [hp.ack]; have := h.ackle; omega, by omega,
    by rw [hst, hp.ack]; exact h.ackfront, ?_,
    hp.fin, by rw [hp.zp, hp.isn]; exact h.zp, ?_⟩
  · rw [hp.infl]
    by_cases hne : out = []
    · subst hne; simpa [seq_total] using hb
    · have := flowFrom_total _ _ _ hp.flow hne
      split at this <;> omega
  · rw [hst, hq, hp.zp, chainFrom_append]
    refine ⟨h.chain, ?_⟩
    have e : s.current_seq_ - seq_total s.outstanding_msg_ + seq_total s.outstanding_msg_
        = s.current_seq_ := by omega
    rw [e]
    exact hp.chain
  · rw [hp.expire, hq]
    by_cases hne : out = []
    · subst hne
      simpa using h.timer
    · intro _ hx
      exact hne (List.append_eq_nil.1 hx).2

theorem process_ack_skip (s : TCPSender) (a : Nat)
    (h : ¬ (a > s.ack_ ∧ a ≤ s.current_seq_)) : s.process_ack a = s := by
  unfold TCPSender.process_ack
  rw [if_neg h]

theorem process_ack_spec (s : TCPSender) (a : Nat) (h : SInv s)
    (ha : a > s.ack_ ∧ a ≤ s.current_seq_) :
    s.process_ack a
      = { s with
          ack_ := a, rto_ := s.initial_RTO_ms_, retrans_cnt_ := 0,
          outstanding_msg_ :=
            not_acked a (s.current_seq_ - seq_total s.outstanding_msg_) s.outstanding_msg_,
          in_flight_cnt_ := seq_total
            (not_acked a (s.current_seq_ - seq_total s.outstanding_msg_) s.outstanding_msg_),
          expire_time_ :=
            if not_acked a (s.current_seq_ - seq_total s.outstanding_msg_) s.outstanding_msg_
                = [] then UINT64_MAX
            else u64add s.current_time_ s.initial_RTO_ms_ } := by
  have hle := h.le
  have hfr := h.ackfront
  have hb := h.bound
  have hi := h.infl
  have hpop := pop_acked_spec s.outstanding_msg_
    { s with ack_ := a, rto_ := s.initial_RTO_ms_,
             expire_time_ := u64add s.current_time_ s.initial_RTO_ms_, retrans_cnt_ := 0 }
    (s.current_seq_ - seq_total s.outstanding_msg_)
    h.chain (by simp only; omega) (by simp only; omega) (by omega) hi
    (by have := h.cs64; omega)
  unfold TCPSender.process_ack
  rw [if_pos ha]
  simp only
  rw [hpop]
  simp only [List.isEmpty_iff]
  by_cases hne : not_acked a (s.current_seq_ - seq_total s.outstanding_msg_)
      s.outstanding_msg_ = []
  · simp only [hne, if_true]
  · simp only [hne, if_false]

theorem seq_total_split (a st : Nat) (l : List TCPSenderMessage) :
    seq_total (wholly_acked a st l) + seq_total (not_acked a st l) = seq_total l := by
  rw [← seq_total_append, acked_split]

theorem sinv_process_ack (s : TCPSender) (a : Nat) (h : SInv s) : SInv (s.process_ack a) := by
  by_cases ha : a > s.ack_ ∧ a ≤ s.current_seq_
  · rw [process_ack_spec s a h ha]
    have hsp := seq_total_split a (s.current_seq_ - seq_total s.outstanding_msg_)
      s.outstanding_msg_
    have hch := not_acked_chain s.zero_point_ a
      (s.current_seq_ - seq_total s.outstanding_msg_) s.outstanding_msg_ h.chain
      (by have := h.ackfront; omega)
    have hle := h.le
    have hb := h.bound
    have hi := h.infl
    have e : s.current_seq_ - seq_total (not_acked a
          (s.current_seq_ - seq_total s.outstanding_msg_) s.outstanding_msg_)
        = s.current_seq_ - seq_total s.outstanding_msg_ + seq_total (wholly_acked a
          (s.current_seq_ - seq_total s.outstanding_msg_) s.outstanding_msg_) := by omega
    refine ⟨h.wnd, rfl, ?_, ?_, ha.2, h.cs64, ?_, ?_, h.fin, h.zp, ?_⟩
    · simp only; omega
    · simp only; omega
    · simp only; rw [e]; exact hch.1
    · simp only; rw [e]; exact hch.2
    · simp only
      intro hx hna
      rw [if_pos hna] at hx
      exact hx rfl
  · rw [process_ack_skip s a ha]; exact h

theorem sinv_receive (s : TCPSender) (msg : TCPReceiverMessage) (h : SInv s)
    (hw : msg.window_size ≤ 65535) : SInv (s.receive msg) := by
  have key : ∀ s1 : TCPSender, SInv s1 →
      SInv (if msg.RST then
          { s1 with window_size_ := msg.window_size, input_ := s1.input_.set_error }
        else { s1 with window_size_ := msg.window_size }) := by
    intro s1 h1
    split
    · exact ⟨hw, h1.infl, h1.bound, h1.le, h1.ackle, h1.cs64, h1.ackfront, h1.chain, h1.fin, h1.zp,
        h1.timer⟩
    · exact ⟨hw, h1.infl, h1.bound, h1.le, h1.ackle, h1.cs64, h1.ackfront, h1.chain, h1.fin, h1.zp,
        h1.timer⟩
  unfold TCPSender.receive
  cases hack : msg.ackno with
  | none => exact key s h
  | some w => exact key (s.process_ack (s.unwarp w)) (sinv_process_ack s _ h)

theorem sinv_tick (s : TCPSender) (ms : Nat) (h : SInv s) : SInv (s.tick ms).1 := by
  unfold TCPSender.tick
  simp only
  split
  · rename_i hc
    split
    · exact ⟨h.wnd, h.infl, h.bound, h.le, h.ackle, h.cs64, h.ackfront, h.chain, h.fin, h.zp,
        fun _ => h.timer hc.1⟩
    · exact ⟨h.wnd, h.infl, h.bound, h.le, h.ackle, h.cs64, h.ackfront, h.chain, h.fin, h.zp,
        fun _ => h.timer hc.1⟩
  · exact ⟨h.wnd, h.infl, h.bound, h.le, h.ackle, h.cs64, h.ackfront, h.chain, h.fin, h.zp,
      h.timer⟩

theorem sinv_write (s : TCPSender) (data : Bytes) (h : SInv s) :
    SInv { s with input_ := s.input_.push data } := by
  refine ⟨h.wnd, h.infl, h.bound, h.le, h.ackle, h.cs64, h.ackfront, h.chain, ?_, h.zp,
    h.timer⟩
  intro hf
  obtain ⟨hc, hb⟩ := h.fin hf
  have : s.input_.push data = s.input_ := by
    unfold ByteStream.push
    simp [hc]
  simp only [this]
  exact ⟨hc, hb⟩

theorem sinv_close (s : TCPSender) (h : SInv s) :
    SInv { s with input_ := s.input_.close } := by
  refine ⟨h.wnd, h.infl, h.bound, h.le, h.ackle, h.cs64, h.ackfront, h.chain, ?_, h.zp,
    h.timer⟩
  intro hf
  exact ⟨rfl, (h.fin hf).2⟩

/-! ## The sender: one action -/

theorem process_ack_frame (s : TCPSender) (a : Nat) (h : SInv s) :
    (s.process_ack a).current_seq_ = s.current_seq_
      ∧ (s.process_ack a).input_ = s.input_
      ∧ (s.process_ack a).zero_point_ = s.zero_point_
      ∧ (s.process_ack a).window_size_ = s.window_size_
      ∧ (s.process_ack a).current_time_ = s.current_time_
      ∧ (s.process_ack a).initial_RTO_ms_ = s.initial_RTO_ms_ := by
  by_cases ha : a > s.ack_ ∧ a ≤ s.current_seq_
  · rw [process_ack_spec s a h ha]
    exact ⟨rfl, rfl, rfl, rfl, rfl, rfl⟩
  · rw [process_ack_skip s a ha]
    exact ⟨rfl, rfl, rfl, rfl, rfl, rfl⟩

theorem process_ack_timer (s : TCPSender) (a : Nat) (h : SInv s)
    (hd : u64add s.current_time_ s.initial_RTO_ms_ ≠ UINT64_MAX)
    (ht : s.expire_time_ ≠ UINT64_MAX ↔ s.outstanding_msg_ ≠ []) :
    (s.process_ack a).expire_time_ ≠ UINT64_MAX ↔ (s.process_ack a).outstanding_msg_ ≠ [] := by
  by_cases ha : a > s.ack_ ∧ a ≤ s.current_seq_
  · rw [process_ack_spec s a h ha]
    simp only
    split <;> rename_i hne
    · simp [hne]
    · simp [hne, hd]
  · rw [process_ack_skip s a ha]; exact ht

theorem receive_frame (s : TCPSender) (msg : TCPReceiverMessage) (h : SInv s) :
    (s.receive msg).current_seq_ = s.current_seq_
      ∧ (s.receive msg).zero_point_ = s.zero_point_
      ∧ ((s.receive msg).input_.error_ = false → s.input_.error_ = false) := by
  unfold TCPSender.receive
  cases hack : msg.ackno with
  | none =>
    simp only
    split
    · simp [ByteStream.set_error]
    · simp
  | some w =>
    obtain ⟨f1, f2, f3, _⟩ := process_ack_frame s (s.unwarp w) h
    simp only
    split
    · simp [ByteStream.set_error, f1, f3]
    · simp [f1, f2, f3]

theorem receive_timer (s : TCPSender) (msg : TCPReceiverMessage) (h : SInv s)
    (hd : u64add s.current_time_ s.initial_RTO_ms_ ≠ UINT64_MAX)
    (ht : s.expire_time_ ≠ UINT64_MAX ↔ s.outstanding_msg_ ≠ []) :
    (s.receive msg).expire_time_ ≠ UINT64_MAX ↔ (s.receive msg).outstanding_msg_ ≠ [] := by
  unfold TCPSender.receive
  cases hack : msg.ackno with
  | none =>
    simp only
    split <;> exact ht
  | some w =>
    have := process_ack_timer s (s.unwarp w) h hd ht
    simp only
    split <;> exact this

theorem tick_frame (s : TCPSender) (ms : Nat) :
    (s.tick ms).1.current_seq_ = s.current_seq_
      ∧ (s.tick ms).1.zero_point_ = s.zero_point_
      ∧ (s.tick ms).1.input_ = s.input_
      ∧ (s.tick ms).1.outstanding_msg_ = s.outstanding_msg_ := by
  unfold TCPSender.tick
  simp only
  split
  · split <;> exact ⟨rfl, rfl, rfl, rfl⟩
  · exact ⟨rfl, rfl, rfl, rfl⟩

theorem tick_timer (s : TCPSender) (ms : Nat)
    (hd : u64add (u64add s.current_time_ ms)
        (if s.window_size_ ≠ 0 then (s.rto_ * 2) % 2 ^ 64 else s.rto_) ≠ UINT64_MAX)
    (ht : s.expire_time_ ≠ UINT64_MAX ↔ s.outstanding_msg_ ≠ []) :
    (s.tick ms).1.expire_time_ ≠ UINT64_MAX ↔ (s.tick ms).1.outstanding_msg_ ≠ [] := by
  rw [(tick_frame s ms).2.2.2]
  unfold TCPSender.tick
  simp only
  split
  · rename_i hc
    have hq := ht.1 hc.1
    split
    · rename_i hw
      rw [if_pos hw] at hd
      simp only
      exact ⟨fun _ => hq, fun _ => hd⟩
    · rename_i hw
      rw [if_neg hw] at hd
      simp only
      exact ⟨fun _ => hq, fun _ => hd⟩
  · exact ht

theorem push_timer (s s2 : TCPSender) (out : List TCPSenderMessage) (hp : PushSpec s s2 out)
    (hd : u64add s.current_time_ s.rto_ ≠ UINT64_MAX)
    (ht : s.expire_time_ ≠ UINT64_MAX ↔ s.outstanding_msg_ ≠ []) :
    s2.expire_time_ ≠ UINT64_MAX ↔ s2.outstanding_msg_ ≠ [] := by
  rw [hp.expire, hp.queue]
  by_cases hne : out = []
  · subst hne
    simpa using ht
  · by_cases he : s.expire_time_ = UINT64_MAX
    · simp [hne, he, hd]
    · simp [hne, he]

/-! ## The sender: sequences of actions -/

theorem step_spec (s : TCPSender) (a : SenderAction) (h : SInv s) (hwf : a.wf)
    (hroom : s.current_seq_ + 65535 < 2 ^ 64) :
    ∃ s1 p t, s.step a = some (s1, p, t) ∧ SInv s1 ∧ s1.zero_point_ = s.zero_point_
      ∧ s1.current_seq_ ≤ s.current_seq_ + 65535
      ∧ (s1.input_.error_ = false →
          s.input_.error_ = false ∧ ChainFrom s.zero_point_ s.current_seq_ p
            ∧ s1.current_seq_ = s.current_seq_ + seq_total p)
      ∧ (deadline_ok s a → (s.expire_time_ ≠ UINT64_MAX ↔ s.outstanding_msg_ ≠ []) →
          (s1.expire_time_ ≠ UINT64_MAX ↔ s1.outstanding_msg_ ≠ [])) := by
  cases a with
  | push =>
    cases he : s.input_.error_ with
    | true =>
      refine ⟨s, _, [], by simp only [TCPSender.step, push_error s he]; rfl, h, rfl,
        by omega, ?_, fun _ ht => ht⟩
      intro h1; rw [he] at h1; cases h1
    | false =>
      have hsyn : s.current_seq_ = 0 → s.in_flight_cnt_ = 0 := by
        intro h0
        have := h.le
        have := h.infl
        omega
      obtain ⟨s2, out, h1, h2⟩ := push_spec s he h.wnd hsyn h.fin hroom
      refine ⟨s2, out, [], by simp only [TCPSender.step, h1]; rfl,
        sinv_push s s2 out h h2 hroom,
        h2.zp, ?_, fun _ => ⟨rfl, h2.chain, h2.seq⟩, fun hd ht => push_timer s s2 out h2 hd ht⟩
      rw [h2.seq]
      by_cases hne : out = []
      · subst hne; simp [seq_total]
      · have hft := flowFrom_total _ _ _ h2.flow hne
        have := h.wnd
        split at hft <;> omega
  | receive msg =>
    obtain ⟨f1, f2, f3⟩ := receive_frame s msg h
    refine ⟨s.receive msg, [], [], rfl, sinv_receive s msg h hwf, f2, by omega, ?_,
      fun hd ht => receive_timer s msg h hd ht⟩
    intro h1
    exact ⟨f3 h1, trivial, by rw [f1]; simp [seq_total]⟩
  | tick ms =>
    obtain ⟨f1, f2, f3, f4⟩ := tick_frame s ms
    refine ⟨(s.tick ms).1, [], (s.tick ms).2, rfl, sinv_tick s ms h, f2, by omega, ?_,
      fun hd ht => tick_timer s ms hd ht⟩
    intro h1
    rw [f3] at h1
    exact ⟨h1, trivial, by rw [f1]; simp [seq_total]⟩
  | write data =>
    refine ⟨{ s with input_ := s.input_.push data }, [], [], rfl, sinv_write s data h, rfl,
      by simp only; omega, ?_, fun _ ht => ht⟩
    intro h1
    refine ⟨?_, trivial, by simp [seq_total]⟩
    simp only [ByteStream.push] at h1
    split at h1
    · exact h1
    · exact h1
  | close =>
    refine ⟨{ s with input_ := s.input_.close }, [], [], rfl, sinv_close s h, rfl,
      by simp only; omega, ?_, fun _ ht => ht⟩
    intro h1
    exact ⟨h1, trivial, by simp [seq_total]⟩

theorem run_spec (actions : List SenderAction) (s : TCPSender) (h : SInv s) (k : Nat)
    (hk : s.current_seq_ ≤ 65535 * k) (hlen : k + actions.length ≤ 2 ^ 48)
    (hwf : ∀ a ∈ actions, a.wf) :
    ∃ s2 sent, s.run actions = some (s2, sent) ∧ SInv s2 ∧ s2.zero_point_ = s.zero_point_
      ∧ s2.current_seq_ ≤ 65535 * (k + actions.length)
      ∧ (s2.input_.error_ = false →
          s.input_.error_ = false ∧ ChainFrom s.zero_point_ s.current_seq_ sent
            ∧ s2.current_seq_ = s.current_seq_ + seq_total sent)
      ∧ (deadlines_ok s actions → (s.expire_time_ ≠ UINT64_MAX ↔ s.outstanding_msg_ ≠ []) →
          (s2.expire_time_ ≠ UINT64_MAX ↔ s2.outstanding_msg_ ≠ [])) := by
  induction actions generalizing s k with
  | nil =>
    exact ⟨s, [], rfl, h, rfl, by simpa using hk,
      fun h1 => ⟨h1, trivial, by simp [seq_total]⟩, fun _ ht => ht⟩
  | cons a rest ih =>
    simp only [List.length_cons] at hlen ⊢
    obtain ⟨s1, p, t, e1, i1, z1, r1, c1, t1⟩ :=
      step_spec s a h (hwf a (List.mem_cons_self _ _)) (by omega)
    obtain ⟨s2, more, e2, i2, z2, r2, c2, t2⟩ :=
      ih s1 i1 (k + 1) (by omega) (by omega) (fun b hb => hwf b (List.mem_cons_of_mem _ hb))
    refine ⟨s2, p ++ more, by simp only [TCPSender.run, e1, e2], i2, by rw [z2, z1],
      by have e : k + (rest.length + 1) = k + 1 + rest.length := by omega
         rw [e]; exact r2, ?_, ?_⟩
    · intro hne
      obtain ⟨a1, a2, a3⟩ := c2 hne
      obtain ⟨b1, b2, b3⟩ := c1 a1
      refine ⟨b1, ?_, by rw [a3, b3, seq_total_append]; omega⟩
      rw [chainFrom_append]
      refine ⟨b2, ?_⟩
      rw [← b3, ← z1]
      exact a2
    · intro hd ht
      simp only [deadlines_ok, e1] at hd
      exact t2 hd.2 (t1 hd.1 ht)

theorem fresh_run_spec (capacity : Nat) (isn : Wrap32) (initial_RTO_ms : Nat)
    (actions : List SenderAction) (hlen : actions.length < 2 ^ 48)
    (hwf : ∀ a ∈ actions, a.wf) :
    ∃ s sent, (TCPSender.fresh capacity isn initial_RTO_ms).run actions = some (s, sent)
      ∧ SInv s ∧ s.current_seq_ + 65535 < 2 ^ 64
      ∧ (s.input_.error_ = false → ChainFrom isn 0 sent ∧ s.current_seq_ = seq_total sent)
      ∧ (deadlines_ok (TCPSender.fresh capacity isn initial_RTO_ms) actions →
          (s.expire_time_ ≠ UINT64_MAX ↔ s.outstanding_msg_ ≠ [])) := by
  have h0 : (TCPSender.fresh capacity isn initial_RTO_ms).current_seq_ = 0 := unwrap_self isn
  have hz : (TCPSender.fresh capacity isn initial_RTO_ms).zero_point_ = isn := rfl
  obtain ⟨s, sent, e, i, _, r, c, t⟩ := run_spec actions _
    (sinv_fresh capacity isn initial_RTO_ms) 0 (by rw [h0]) (by omega) hwf
  refine ⟨s, sent, e, i, by omega, ?_, ?_⟩
  · intro hne
    obtain ⟨_, c2, c3⟩ := c hne
    rw [h0, hz] at c2
    rw [h0] at c3
    exact ⟨c2, by omega⟩
  · intro hd
    exact t hd (by simp [TCPSender.fresh, TCPSender.init])

theorem reachable_sinv (s : TCPSender) (h : SenderReachable s) :
    SInv s ∧ s.current_seq_ + 65535 < 2 ^ 64 := by
  obtain ⟨capacity, isn, irto, actions, sent, hlen, hwf, hrun⟩ := h
  obtain ⟨s2, sent2, e, i, r, _⟩ := fresh_run_spec capacity isn irto actions hlen hwf
  rw [e] at hrun
  cases hrun
  exact ⟨i, r⟩

/-! ## C11 and C12: the invariants of the sender -/

/-- C11: every sequence of fewer than `2 ^ 48` `push`, `receive` and `tick` calls on a new
TCPSender (with writes to and closing of its input stream in between, and arguments that
fit their C++ types) runs to its end, and in the state it reaches `sequence_numbers_in_flight()` is the sum of
`sequence_length` over the outstanding queue and `ack_ ≤ current_seq_`. -/
theorem C11_accounting_invariant (capacity : Nat) (isn : Wrap32) (initial_RTO_ms : Nat)
    (actions : List SenderAction) (hlen : actions.length < 2 ^ 48)
    (hwf : ∀ a ∈ actions, a.wf) :
    ∃ s sent, (TCPSender.fresh capacity isn initial_RTO_ms).run actions = some (s, sent)
      ∧ s.sequence_numbers_in_flight = seq_total s.outstanding_msg_
      ∧ s.ack_ ≤ s.current_seq_ := by
  obtain ⟨s, sent, e, i, _⟩ := fresh_run_spec capacity isn initial_RTO_ms actions hlen hwf
  exact ⟨s, sent, e, i.infl, i.ackle⟩

/-- C11 at concrete inputs: three bytes are written, sent with the SYN in a window of 1 and
then of 3, acknowledged in part, and the timer expires once. -/
theorem C11_accounting_invariant_witness :
    [SenderAction.write ['a', 'b', 'c'], SenderAction.push,
        SenderAction.receive { ackno := some ⟨6⟩, window_size := 3, RST := false },
        SenderAction.push, SenderAction.tick 10,
        SenderAction.receive { ackno := some ⟨7⟩, window_size := 3, RST := false }].length
        < 2 ^ 48
      ∧ (∀ a ∈ [SenderAction.write ['a', 'b', 'c'], SenderAction.push,
        SenderAction.receive { ackno := some ⟨6⟩, window_size := 3, RST := false },
        SenderAction.push, SenderAction.tick 10,
        SenderAction.receive { ackno := some ⟨7⟩, window_size := 3, RST := false }], a.wf)
      ∧ ∃ s sent, (TCPSender.fresh 100 ⟨5⟩ 10).run
          [SenderAction.write ['a', 'b', 'c'], SenderAction.push,
            SenderAction.receive { ackno := some ⟨6⟩, window_size := 3, RST := false },
            SenderAction.push, SenderAction.tick 10,
            SenderAction.receive { ackno := some ⟨7⟩, window_size := 3, RST := false }]
          = some (s, sent)
        ∧ s.sequence_numbers_in_flight = seq_total s.outstanding_msg_
        ∧ s.ack_ ≤ s.current_seq_ :=
  ⟨by decide, by decide, C11_accounting_invariant 100 ⟨5⟩ 10 _ (by decide) (by decide)⟩

/-- C12 (counterexample): a new TCPSender with `initial_RTO_ms = 2^64 − 1` sends its SYN at
time 0; the deadline `0 + rto` is `UINT64_MAX`, the value that marks the stopped timer, so
a segment is outstanding and the timer is not running, and `tick` does not retransmit. No
clock has overflowed. -/
theorem C12_counterexample :
    ((TCPSender.fresh 100 ⟨5⟩ (2 ^ 64 - 1)).run [SenderAction.push]).map
        (fun r => (r.1.outstanding_msg_, r.1.expire_time_, r.1.current_time_, (r.1.tick 1).2))
      = some ([{ seqno := ⟨5⟩, SYN := true, payload := [], FIN := false, RST := false }],
          UINT64_MAX, 0, []) := by
  decide

/-- C12 (amended): every sequence of fewer than `2 ^ 48` `push`, `receive` and `tick` calls
on a new TCPSender runs to its end, and in the state it reaches: if the timer is running
(`expire_time_ ≠ UINT64_MAX`) the outstanding queue is not empty, so `tick` transmits
nothing when the queue is empty and what it transmits is the first segment of the queue;
and if no call was made in a state where the deadline it would give the timer is
`UINT64_MAX`, the value that marks the stopped timer, then conversely the timer is running
when the queue is not empty.  Overflow of the clock does not matter. -/
theorem C12_timer_invariant (capacity : Nat) (isn : Wrap32) (initial_RTO_ms : Nat)
    (actions : List SenderAction) (hlen : actions.length < 2 ^ 48)
    (hwf : ∀ a ∈ actions, a.wf) :
    ∃ s sent, (TCPSender.fresh capacity isn initial_RTO_ms).run actions = some (s, sent)
      ∧ (s.expire_time_ ≠ UINT64_MAX → s.outstanding_msg_ ≠ [])
      ∧ (∀ ms, s.outstanding_msg_ = [] → (s.tick ms).2 = [])
      ∧ (∀ ms, (s.tick ms).2 ≠ [] →
          ∃ m rest, s.outstanding_msg_ = m :: rest ∧ (s.tick ms).2 = [m])
      ∧ (deadlines_ok (TCPSender.fresh capacity isn initial_RTO_ms) actions →
          (s.expire_time_ ≠ UINT64_MAX ↔ s.outstanding_msg_ ≠ [])) := by
  obtain ⟨s, sent, e, i, _, _, t⟩ :=
    fresh_run_spec capacity isn initial_RTO_ms actions hlen hwf
  have ht := i.timer
  refine ⟨s, sent, e, ht, ?_, ?_, t⟩
  · intro ms hq
    have hx : s.expire_time_ = UINT64_MAX := by
      by_contra hne
      exact ht hne hq
    unfold TCPSender.tick
    simp [hx]
  · intro ms hne
    unfold TCPSender.tick at hne ⊢
    simp only at hne ⊢
    split at hne
    · rename_i hc
      rw [if_pos hc]
      have hq := ht hc.1
      cases hl : s.outstanding_msg_ with
      | nil => exact absurd hl hq
      | cons m rest => exact ⟨m, rest, rfl, by simp⟩
    · exact absurd rfl hne

/-- C12 (amended) at concrete inputs: the SYN goes out, the timer expires once and the SYN
is acknowledged; no deadline on the way is `UINT64_MAX`. -/
theorem C12_timer_invariant_witness :
    [SenderAction.push, SenderAction.tick 10,
        SenderAction.receive { ackno := some ⟨6⟩, window_size := 3, RST := false }].length
        < 2 ^ 48
      ∧ (∀ a ∈ [SenderAction.push, SenderAction.tick 10,
        SenderAction.receive { ackno := some ⟨6⟩, window_size := 3, RST := false }], a.wf)
      ∧ deadlines_ok (TCPSender.fresh 100 ⟨5⟩ 10) [SenderAction.push, SenderAction.tick 10,
        SenderAction.receive { ackno := some ⟨6⟩, window_size := 3, RST := false }]
      ∧ ∃ s sent, (TCPSender.fresh 100 ⟨5⟩ 10).run [SenderAction.push, SenderAction.tick 10,
          SenderAction.receive { ackno := some ⟨6⟩, window_size := 3, RST := false }]
          = some (s, sent)
        ∧ (s.expire_time_ ≠ UINT64_MAX → s.outstanding_msg_ ≠ [])
        ∧ (∀ ms, s.outstanding_msg_ = [] → (s.tick ms).2 = [])
        ∧ (∀ ms, (s.tick ms).2 ≠ [] →
            ∃ m rest, s.outstanding_msg_ = m :: rest ∧ (s.tick ms).2 = [m])
        ∧ (deadlines_ok (TCPSender.fresh 100 ⟨5⟩ 10) [SenderAction.push, SenderAction.tick 10,
            SenderAction.receive { ackno := some ⟨6⟩, window_size := 3, RST := false }] →
            (s.expire_time_ ≠ UINT64_MAX ↔ s.outstanding_msg_ ≠ [])) :=
  ⟨by decide, by decide, by decide,
    C12_timer_invariant 100 ⟨5⟩ 10 _ (by decide) (by decide)⟩

/-! ## C13: flow control in `push` -/

theorem chain_index (zp : Wrap32) (st : Nat) (l : List TCPSenderMessage)
    (h : ChainFrom zp st l) (i : Nat) (hi : i < l.length) :
    (l.get ⟨i, hi⟩).seqno = Wrap32.wrap (st + seq_total (l.take i)) zp
      ∧ 1 ≤ (l.get ⟨i, hi⟩).sequence_length
      ∧ ((l.get ⟨i, hi⟩).SYN = true ↔ st + seq_total (l.take i) = 0)
      ∧ (l.get ⟨i, hi⟩).RST = false
      ∧ (l.get ⟨i, hi⟩).payload.length ≤ MAX_PAYLOAD_SIZE
      ∧ i ≤ seq_total (l.take i) := by
  induction l generalizing st i with
  | nil => simp at hi
  | cons m rest ih =>
    obtain ⟨h1, h2, h3, h4, h5, h6⟩ := h
    cases i with
    | zero => simpa [seq_total] using ⟨h1, h2, h3, h4, h5⟩
    | succ j =>
      have hj : j < rest.length := by simpa using hi
      obtain ⟨a1, a2, a3, a4, a5, a6⟩ := ih (st + m.sequence_length) h6 j hj
      have e : st + seq_total ((m :: rest).take (j + 1))
          = st + m.sequence_length + seq_total (rest.take j) := by
        rw [List.take_succ_cons, seq_total_cons]; omega
      have e2 : seq_total ((m :: rest).take (j + 1))
          = m.sequence_length + seq_total (rest.take j) := by
        rw [List.take_succ_cons, seq_total_cons]
      rw [e, e2]
      simp only [List.get_eq_getElem, List.getElem_cons_succ] at a1 a2 a3 a4 a5 ⊢
      exact ⟨a1, a2, a3, a4, a5, by omega⟩

theorem flow_index (eff a : Nat) (l : List TCPSenderMessage) (h : FlowFrom eff a l)
    (i : Nat) (hi : i < l.length) :
    a + seq_total (l.take i) + (l.get ⟨i, hi⟩).sequence_length ≤ eff := by
  induction l generalizing a i with
  | nil => simp at hi
  | cons m rest ih =>
    obtain ⟨h1, h2⟩ := h
    cases i with
    | zero => simpa [seq_total] using h1
    | succ j =>
      have hj : j < rest.length := by simpa using hi
      have := ih (a + m.sequence_length) h2 j hj
      have e2 : seq_total ((m :: rest).take (j + 1))
          = m.sequence_length + seq_total (rest.take j) := by
        rw [List.take_succ_cons, seq_total_cons]
      rw [e2]
      simp only [List.get_eq_getElem, List.getElem_cons_succ] at this ⊢
      omega

theorem chain_mem (zp : Wrap32) (st : Nat) (l : List TCPSenderMessage)
    (h : ChainFrom zp st l) :
    ∀ m ∈ l, 1 ≤ m.sequence_length ∧ m.RST = false
      ∧ m.payload.length ≤ MAX_PAYLOAD_SIZE := by
  induction l generalizing st with
  | nil => intro m hm; simp at hm
  | cons x rest ih =>
    obtain ⟨_, h2, _, h4, h5, h6⟩ := h
    intro m hm
    rcases List.mem_cons.1 hm with rfl | hm
    · exact ⟨h2, h4, h5⟩
    · exact ih _ h6 m hm

theorem push_loop_first (fuel : Nat) (s : TCPSender) (wz : Nat)
    (sent : List TCPSenderMessage) (hwz : wz = if s.window_size_ = 0 then 1 else 0)
    (hw : s.window_size_ ≤ 65535) (hfuel : s.available_window wz + 1 ≤ fuel)
    (hsyn : s.current_seq_ = 0 → s.in_flight_cnt_ = 0)
    (hf : s.is_fin_sent = false)
    (hz : (iter_msg s (s.available_window wz)).sequence_length ≠ 0)
    (hcs : s.current_seq_ + s.available_window wz < 2 ^ 64) :
    ∃ s2 out, TCPSender.push_loop fuel s wz (s.available_window wz) sent
      = some (s2, sent ++ iter_msg s (s.available_window wz) :: out) := by
  cases fuel with
  | zero => omega
  | succ fuel =>
    have hsyn2 : s.current_seq_ = 0 → 1 ≤ s.available_window wz := by
      intro h0
      have := hsyn h0
      unfold TCPSender.available_window
      rw [this, hwz]
      split <;> split <;> omega
    rw [push_loop_succ fuel s wz _ sent hf hsyn2, if_neg hz]
    have hspec := iter_spec s wz hwz hw hf hsyn2 hz hcs
    have hle := iter_msg_le s (s.available_window wz) hsyn2
    set s3 := iter_state s (s.available_window wz) with hs3
    set m := iter_msg s (s.available_window wz) with hm
    by_cases hc : s3.input_.bytes_buffered ≠ 0 ∧ s3.available_window wz ≠ 0
    · rw [if_pos hc]
      have hm1 : 1 ≤ m.sequence_length := by omega
      have hsum := aw_pos_bound s wz (by omega)
      have hinfl := hspec.infl
      simp only [seq_total, List.map_cons, List.map_nil, List.sum_cons, List.sum_nil,
        Nat.add_zero] at hinfl
      have haw3 : s3.available_window wz + m.sequence_length ≤ s.available_window wz := by
        have e1 : s3.available_window wz
            = if s.window_size_ + wz < s.in_flight_cnt_ + m.sequence_length then 0
              else s.window_size_ + wz - (s.in_flight_cnt_ + m.sequence_length) := by
          unfold TCPSender.available_window
          rw [hspec.wnd, hinfl]
        rw [e1]; split <;> omega
      have hfuel3 : s3.available_window wz + 1 ≤ fuel := by omega
      have hseq3 := hspec.seq
      simp only [seq_total, List.map_cons, List.map_nil, List.sum_cons, List.sum_nil,
        Nat.add_zero] at hseq3
      obtain ⟨s2, out, h1, _⟩ := push_loop_spec fuel s3 wz (sent ++ [m])
        (by rw [hspec.wnd]; exact hwz) (by rw [hspec.wnd]; exact hw) hfuel3
        (by intro h0; omega) hspec.fin (by omega)
      exact ⟨s2, out, by rw [h1]; simp⟩
    · rw [if_neg hc]
      exact ⟨s3, [], by simp⟩

theorem syn_sent_state_reachable : SenderReachable syn_sent_state :=
  ⟨100, ⟨5⟩, 10, [SenderAction.push],
    [{ seqno := ⟨5⟩, SYN := true, payload := [], FIN := false, RST := false }],
    by decide, by decide, by decide⟩

theorem zero_window_state_reachable : SenderReachable zero_window_state :=
  ⟨100, ⟨5⟩, 10,
    [SenderAction.push,
      SenderAction.receive { ackno := some ⟨6⟩, window_size := 0, RST := false },
      SenderAction.write ['a', 'b', 'c']],
    [{ seqno := ⟨5⟩, SYN := true, payload := [], FIN := false, RST := false }],
    by decide, by decide, by decide⟩

/-- C13 (counterexample): the SYN is in flight in a window of 1 (`in_flight = 1`,
`effective_window = 1`) and a reset arrives; the next `push` still transmits a segment, the
RST segment of the errored stream. -/
theorem C13_counterexample :
    ((TCPSender.fresh 100 ⟨5⟩ 10).run
        [SenderAction.push,
          SenderAction.receive { ackno := none, window_size := 1, RST := true }]).map
        (fun r => (r.1.window_size_, r.1.in_flight_cnt_, r.1.push.map Prod.snd))
      = some (1, 1, some [{ seqno := ⟨6⟩, SYN := false, payload := [], FIN := false,
                            RST := true }]) := by
  decide

/-- C13 (amended): in every reachable state whose input stream has no error, `push` returns
and, with `effective_window = max(window_size, 1)`: every segment it transmits has a payload
of at most `MAX_PAYLOAD_SIZE` bytes and a `sequence_length` of at most `effective_window`
minus the sequence numbers in flight just before it (those before the call plus the lengths
of the segments transmitted earlier in the call); `in_flight` grows by the lengths
transmitted and ends at most `max(effective_window, in_flight before)`; nothing is sent
when `in_flight ≥ effective_window`; and with `window_size = 0`, `in_flight = 0`, the SYN
sent and data buffered, exactly one segment of `sequence_length` 1 is transmitted. -/
theorem C13_push_flow_control (s : TCPSender) (hr : SenderReachable s)
    (he : s.input_.error_ = false) :
    ∃ s2 out, s.push = some (s2, out)
      ∧ (∀ m ∈ out, m.payload.length ≤ MAX_PAYLOAD_SIZE)
      ∧ (∀ i (hi : i < out.length),
          (out.get ⟨i, hi⟩).sequence_length
            ≤ max s.window_size_ 1 - (s.in_flight_cnt_ + seq_total (out.take i)))
      ∧ s2.in_flight_cnt_ = s.in_flight_cnt_ + seq_total out
      ∧ s2.in_flight_cnt_ ≤ max (max s.window_size_ 1) s.in_flight_cnt_
      ∧ (max s.window_size_ 1 ≤ s.in_flight_cnt_ → out = [])
      ∧ (s.window_size_ = 0 → s.in_flight_cnt_ = 0 → s.current_seq_ ≠ 0 →
          s.input_.buffer_ ≠ [] → ∃ m, out = [m] ∧ m.sequence_length = 1) := by
  obtain ⟨h, hroom⟩ := reachable_sinv s hr
  have hsyn : s.current_seq_ = 0 → s.in_flight_cnt_ = 0 := by
    intro h0
    have := h.le
    have := h.infl
    omega
  obtain ⟨s2, out, h1, h2⟩ := push_spec s he h.wnd hsyn h.fin hroom
  have heff : s.window_size_ + (if s.window_size_ = 0 then 1 else 0) = max s.window_size_ 1 := by
    rw [Nat.max_def]
    split <;> split <;> omega
  have hflow := h2.flow
  rw [heff] at hflow
  have hchain := h2.chain
  have hempty : max s.window_size_ 1 ≤ s.in_flight_cnt_ → out = [] := by
    intro hge
    cases hout : out with
    | nil => rfl
    | cons m rest =>
      rw [hout] at hflow hchain
      have := hflow.1
      have := hchain.2.1
      omega
  refine ⟨s2, out, h1, fun m hm => (chain_mem _ _ _ hchain m hm).2.2, ?_, h2.infl, ?_, hempty, ?_⟩
  · intro i hi
    have := flow_index _ _ _ hflow i hi
    omega
  · rw [h2.infl]
    by_cases hne : out = []
    · subst hne
      simp only [seq_total, List.map_nil, List.sum_nil, Nat.add_zero]
      exact Nat.le_max_right _ _
    · have := flowFrom_total _ _ _ hflow hne
      exact le_trans this (Nat.le_max_left _ _)
  · intro hw0 hi0 hcs hbuf
    have hf : s.is_fin_sent = false := by
      cases hfs : s.is_fin_sent with
      | false => rfl
      | true => exact absurd (h.fin hfs).2 hbuf
    have haw : s.available_window (if s.window_size_ = 0 then 1 else 0) = 1 := by
      unfold TCPSender.available_window
      rw [hw0, hi0]
      simp
    have hb : 1 ≤ s.input_.buffer_.length := by
      cases hbb : s.input_.buffer_ with
      | nil => exact absurd hbb hbuf
      | cons c rest => simp
    have hz : (iter_msg s (s.available_window (if s.window_size_ = 0 then 1 else 0))).sequence_length
        ≠ 0 := by
      rw [haw, iter_msg_length s 1 (fun h0 => absurd h0 hcs)]
      have : iter_seq_size s 1 = 1 := by
        unfold iter_seq_size ByteStream.bytes_buffered MAX_PAYLOAD_SIZE
        rw [if_neg hcs]
        omega
      omega
    obtain ⟨s3, rest, h3⟩ := push_loop_first
      (s.available_window (if s.window_size_ = 0 then 1 else 0) + 1) s
      (if s.window_size_ = 0 then 1 else 0) [] rfl h.wnd (le_refl _) hsyn hf hz
      (by rw [haw]; omega)
    have hp : s.push = TCPSender.push_loop
        (s.available_window (if s.window_size_ = 0 then 1 else 0) + 1) s
        (if s.window_size_ = 0 then 1 else 0)
        (s.available_window (if s.window_size_ = 0 then 1 else 0)) [] := by
      unfold TCPSender.push
      simp only [he, Bool.false_eq_true, if_false]
    rw [hp, h3] at h1
    simp only [List.nil_append, Option.some.injEq, Prod.mk.injEq] at h1
    obtain ⟨_, hout⟩ := h1
    rw [← hout] at hflow hchain
    have hmax : max s.window_size_ 1 = 1 := by rw [hw0]; rfl
    rw [hmax, hi0] at hflow
    have f1 := hflow.1
    have c1 := hchain.2.1
    cases hrest : rest with
    | nil => exact ⟨_, by rw [← hout, hrest], by omega⟩
    | cons m2 rest2 =>
      rw [hrest] at hflow hchain
      have f2 := hflow.2.1
      have c2 := hchain.2.2.2.2.2.2.1
      omega

/-- C13 (amended) at a concrete state: the SYN has been acknowledged with a window of 0 and
three bytes are buffered; `push` transmits one segment of length 1. -/
theorem C13_push_flow_control_witness :
    SenderReachable zero_window_state ∧ zero_window_state.input_.error_ = false
      ∧ ∃ s2 out, zero_window_state.push = some (s2, out)
        ∧ (∀ m ∈ out, m.payload.length ≤ MAX_PAYLOAD_SIZE)
        ∧ (∀ i (hi : i < out.length),
            (out.get ⟨i, hi⟩).sequence_length
              ≤ max zero_window_state.window_size_ 1
                - (zero_window_state.in_flight_cnt_ + seq_total (out.take i)))
        ∧ s2.in_flight_cnt_ = zero_window_state.in_flight_cnt_ + seq_total out
        ∧ s2.in_flight_cnt_
            ≤ max (max zero_window_state.window_size_ 1) zero_window_state.in_flight_cnt_
        ∧ (max zero_window_state.window_size_ 1 ≤ zero_window_state.in_flight_cnt_ → out = [])
        ∧ (zero_window_state.window_size_ = 0 → zero_window_state.in_flight_cnt_ = 0 →
            zero_window_state.current_seq_ ≠ 0 → zero_window_state.input_.buffer_ ≠ [] →
            ∃ m, out = [m] ∧ m.sequence_length = 1) :=
  ⟨zero_window_state_reachable, rfl,
    C13_push_flow_control zero_window_state zero_window_state_reachable rfl⟩

/-! ## C14: `tick` -/

theorem tick_expired_open (s : TCPSender) (ms : Nat)
    (hc : s.expire_time_ ≠ UINT64_MAX ∧ u64add s.current_time_ ms ≥ s.expire_time_)
    (hw : s.window_size_ ≠ 0) :
    s.tick ms
      = ({ s with current_time_ := u64add s.current_time_ ms,
                  retrans_cnt_ := u64add s.retrans_cnt_ 1,
                  rto_ := (s.rto_ * 2) % 2 ^ 64,
                  expire_time_ := u64add (u64add s.current_time_ ms) ((s.rto_ * 2) % 2 ^ 64) },
         [s.outstanding_msg_.headD TCPSenderMessage.empty]) := by
  unfold TCPSender.tick
  simp only [if_pos hc, if_pos hw]

theorem tick_expired_zero (s : TCPSender) (ms : Nat)
    (hc : s.expire_time_ ≠ UINT64_MAX ∧ u64add s.current_time_ ms ≥ s.expire_time_)
    (hw : s.window_size_ = 0) :
    s.tick ms
      = ({ s with current_time_ := u64add s.current_time_ ms,
                  expire_time_ := u64add (u64add s.current_time_ ms) s.rto_ },
         [s.outstanding_msg_.headD TCPSenderMessage.empty]) := by
  have hw2 : ¬ (s.window_size_ ≠ 0) := by simp [hw]
  unfold TCPSender.tick
  simp only [if_pos hc, if_neg hw2]

/-- C14 (counterexample): a new sender with `initial_RTO_ms = 2^63` sends its SYN (window 1,
deadline `2^63`); at `tick(2^63)` the timer expires and the SYN is retransmitted, but `rto`
becomes `2 * 2^63 mod 2^64 = 0`, not twice its value.  A new sender with
`initial_RTO_ms = 1` sends its SYN (deadline 1); at `tick(2^64 - 3)` the SYN is
retransmitted, `rto` becomes 2 and the deadline stored is `2^64 - 3 + 2 = UINT64_MAX`, the
mark of the stopped timer: no sum has overflowed, the timer is not running and a later
`tick` transmits nothing. -/
theorem C14_counterexample :
    ((TCPSender.fresh 100 ⟨5⟩ (2 ^ 63)).run [SenderAction.push]).map
        (fun r => (r.1.expire_time_, r.1.rto_, r.1.window_size_, (r.1.tick (2 ^ 63)).2,
          (r.1.tick (2 ^ 63)).1.rto_))
      = some (2 ^ 63, 2 ^ 63, 1,
          [{ seqno := ⟨5⟩, SYN := true, payload := [], FIN := false, RST := false }], 0)
    ∧ ((TCPSender.fresh 100 ⟨5⟩ 1).run [SenderAction.push]).map
        (fun r => (r.1.expire_time_, r.1.rto_, (r.1.tick (2 ^ 64 - 3)).2,
          (r.1.tick (2 ^ 64 - 3)).1.current_time_))
      = some (1, 1,
          [{ seqno := ⟨5⟩, SYN := true, payload := [], FIN := false, RST := false }],
          2 ^ 64 - 3)
    ∧ ((TCPSender.fresh 100 ⟨5⟩ 1).run [SenderAction.push]).map
        (fun r => ((r.1.tick (2 ^ 64 - 3)).1.rto_,
          (r.1.tick (2 ^ 64 - 3)).1.expire_time_, (r.1.tick (2 ^ 64 - 3)).1.outstanding_msg_,
          ((r.1.tick (2 ^ 64 - 3)).1.tick 1).2))
      = some (2, UINT64_MAX,
          [{ seqno := ⟨5⟩, SYN := true, payload := [], FIN := false, RST := false }],
          []) :=
  ⟨by decide, by decide, by decide⟩

/-- C14 (amended): for every state and every `ms`, with all sums and the doubling computed
in `uint64_t` (modulo `2^64`) as the code does.  If the timer is running,
`(current_time + ms) mod 2^64 ≥ expire_time` and `m` is the earliest outstanding segment,
`tick` transmits exactly `m`, leaves the queue as it is, sets the clock to
`(current_time + ms) mod 2^64` and stores the deadline `(current_time + rto) mod 2^64` of
the new clock and the new `rto`; the timer is running afterwards exactly when that
deadline is not `UINT64_MAX`.  When `window_size ≠ 0`, `consecutive_retransmissions`
becomes `(consecutive_retransmissions + 1) mod 2^64` and `rto` becomes `2 * rto mod 2^64`
first: one more when the count is below `2^64 - 1`, twice the value when `rto < 2^63`.
When `window_size = 0` both are unchanged.  If the timer is not running or has not
expired, `tick` transmits nothing and changes only the clock. -/
theorem C14_tick_expiry (s : TCPSender) (ms : Nat) :
    (∀ m rest, s.outstanding_msg_ = m :: rest → s.expire_time_ ≠ UINT64_MAX →
        u64add s.current_time_ ms ≥ s.expire_time_ →
        (s.tick ms).2 = [m]
          ∧ (s.tick ms).1.outstanding_msg_ = m :: rest
          ∧ (s.tick ms).1.current_time_ = (s.current_time_ + ms) % 2 ^ 64
          ∧ (s.tick ms).1.expire_time_
              = ((s.tick ms).1.current_time_ + (s.tick ms).1.rto_) % 2 ^ 64
          ∧ ((s.tick ms).1.expire_time_ ≠ UINT64_MAX ↔
              ((s.tick ms).1.current_time_ + (s.tick ms).1.rto_) % 2 ^ 64 ≠ 2 ^ 64 - 1)
          ∧ (s.window_size_ ≠ 0 →
              (s.tick ms).1.consecutive_retransmissions = (s.retrans_cnt_ + 1) % 2 ^ 64
                ∧ (s.tick ms).1.rto_ = (s.rto_ * 2) % 2 ^ 64
                ∧ (s.retrans_cnt_ < 2 ^ 64 - 1 →
                    (s.tick ms).1.consecutive_retransmissions = s.retrans_cnt_ + 1)
                ∧ (s.rto_ < 2 ^ 63 → (s.tick ms).1.rto_ = 2 * s.rto_)
                ∧ (s.tick ms).1
                  = { s with current_time_ := u64add s.current_time_ ms,
                             retrans_cnt_ := u64add s.retrans_cnt_ 1,
                             rto_ := (s.rto_ * 2) % 2 ^ 64,
                             expire_time_ :=
                               u64add (u64add s.current_time_ ms) ((s.rto_ * 2) % 2 ^ 64) })
          ∧ (s.window_size_ = 0 →
              (s.tick ms).1.consecutive_retransmissions = s.retrans_cnt_
                ∧ (s.tick ms).1.rto_ = s.rto_
                ∧ (s.tick ms).1
                  = { s with current_time_ := u64add s.current_time_ ms,
                             expire_time_ := u64add (u64add s.current_time_ ms) s.rto_ }))
      ∧ (¬ (s.expire_time_ ≠ UINT64_MAX ∧ u64add s.current_time_ ms ≥ s.expire_time_) →
          (s.tick ms).2 = []
            ∧ (s.tick ms).1 = { s with current_time_ := u64add s.current_time_ ms }) := by
  constructor
  · intro m rest hq he ht
    have hh : s.outstanding_msg_.headD TCPSenderMessage.empty = m := by rw [hq]; rfl
    by_cases hw : s.window_size_ ≠ 0
    · have e := tick_expired_open s ms ⟨he, ht⟩ hw
      rw [hh] at e
      rw [e]
      refine ⟨rfl, hq, rfl, rfl, ?_, fun _ => ⟨rfl, rfl, ?_, ?_, rfl⟩, fun h0 => absurd h0 hw⟩
      · simp only [u64add, UINT64_MAX]
      · intro hlt
        simp only [TCPSender.consecutive_retransmissions, u64add]
        omega
      · intro hlt
        simp only
        omega
    · have hw0 : s.window_size_ = 0 := by simpa using hw
      have e := tick_expired_zero s ms ⟨he, ht⟩ hw0
      rw [hh] at e
      rw [e]
      refine ⟨rfl, hq, rfl, rfl, ?_, fun h1 => absurd hw0 h1, fun _ => ⟨rfl, rfl, rfl⟩⟩
      simp only [u64add, UINT64_MAX]
  · intro hc
    unfold TCPSender.tick
    simp only [if_neg hc, and_self]

/-- C14 (amended) at concrete states.  The SYN is outstanding with deadline 10 and `rto`
10 in a window of 1: `tick(10)` retransmits it, counts one retransmission, doubles `rto`
to 20 and stores the deadline 30, so the timer is running.  The same with the window 0:
`tick(10)` retransmits, the count stays 0, `rto` stays 10 and the deadline is 20.  And
`tick(3)` is before the deadline: nothing is transmitted and only the clock changes. -/
theorem C14_tick_expiry_witness :
    (syn_sent_state.tick 10).2
        = [{ seqno := ⟨5⟩, SYN := true, payload := [], FIN := false, RST := false }]
      ∧ (syn_sent_state.tick 10).1.consecutive_retransmissions = 0 + 1
      ∧ (syn_sent_state.tick 10).1.rto_ = 2 * 10
      ∧ (syn_sent_state.tick 10).1
          = { syn_sent_state with current_time_ := 10, retrans_cnt_ := 1, rto_ := 20,
                                  expire_time_ := 30 }
      ∧ (({ syn_sent_state with window_size_ := 0 } : TCPSender).tick 10).1
          = { syn_sent_state with window_size_ := 0, current_time_ := 10,
                                  expire_time_ := 20 }
      ∧ (syn_sent_state.tick 3).2 = []
      ∧ (syn_sent_state.tick 3).1 = { syn_sent_state with current_time_ := 3 } :=
  ⟨((C14_tick_expiry syn_sent_state 10).1 _ _ rfl (by decide) (by decide)).1,
    (((C14_tick_expiry syn_sent_state 10).1 _ _ rfl (by decide) (by decide)).2.2.2.2.2.1
      (by decide)).2.2.1 (by decide),
    (((C14_tick_expiry syn_sent_state 10).1 _ _ rfl (by decide) (by decide)).2.2.2.2.2.1
      (by decide)).2.2.2.1 (by decide),
    (((C14_tick_expiry syn_sent_state 10).1 _ _ rfl (by decide) (by decide)).2.2.2.2.2.1
      (by decide)).2.2.2.2,
    (((C14_tick_expiry { syn_sent_state with window_size_ := 0 } 10).1 _ _ rfl (by decide)
      (by decide)).2.2.2.2.2.2 rfl).2.2,
    ((C14_tick_expiry syn_sent_state 3).2 (by decide)).1,
    ((C14_tick_expiry syn_sent_state 3).2 (by decide)).2⟩

/-! ## C15 to C18: `receive` and `push` on an errored stream -/

theorem with_starts_chain (zp : Wrap32) (st : Nat) (l : List TCPSenderMessage)
    (h : ChainFrom zp st l) :
    ∀ p ∈ with_starts st l,
      p.2.seqno = Wrap32.wrap p.1 zp ∧ st ≤ p.1
        ∧ p.1 + p.2.sequence_length ≤ st + seq_total l := by
  induction l generalizing st with
  | nil => intro p hp; simp [with_starts] at hp
  | cons m rest ih =>
    obtain ⟨h1, _, _, _, _, h6⟩ := h
    intro p hp
    simp only [with_starts, List.mem_cons] at hp
    rw [seq_total_cons]
    rcases hp with rfl | hp
    · exact ⟨h1, le_refl _, by simp only; omega⟩
    · obtain ⟨a1, a2, a3⟩ := ih _ h6 p hp
      exact ⟨a1, by omega, by omega⟩

theorem unwarp_start (s : TCPSender) (h : SInv s) :
    ∀ p ∈ with_starts (s.current_seq_ - seq_total s.outstanding_msg_) s.outstanding_msg_,
      s.unwarp p.2.seqno = p.1 := by
  intro p hp
  obtain ⟨a1, a2, a3⟩ := with_starts_chain _ _ _ h.chain p hp
  have := h.le
  have := h.bound
  have := h.infl
  have := h.ackfront
  have := h.ackle
  unfold TCPSender.unwarp
  rw [a1]
  exact unwrap_wrap _ _ _ (by omega) (by omega)

/-- C16: for every state and every message without RST whose ackno unwraps to a value
greater than `current_seq_` (the next sequence number), `receive` changes nothing but the
stored window size, which becomes `msg.window_size`. -/
theorem C16_impossible_ack_ignored (s : TCPSender) (msg : TCPReceiverMessage) (w : Wrap32)
    (hrst : msg.RST = false) (hack : msg.ackno = some w)
    (h : s.current_seq_ < s.unwarp w) :
    s.receive msg = { s with window_size_ := msg.window_size } := by
  unfold TCPSender.receive
  simp only [hack, hrst, Bool.false_eq_true, if_false]
  rw [process_ack_skip s _ (by omega)]

/-- C16 at a concrete state: only the SYN has been sent (`current_seq_ = 1`, ISN 5) and a
message acknowledges the sequence number 8, that is 3 in absolute terms. -/
theorem C16_impossible_ack_ignored_witness :
    syn_sent_state.receive { ackno := some ⟨8⟩, window_size := 7, RST := false }
      = { syn_sent_state with window_size_ := 7 } :=
  C16_impossible_ack_ignored syn_sent_state
    { ackno := some ⟨8⟩, window_size := 7, RST := false } ⟨8⟩ rfl rfl (by decide)

/-- C18: for every state in which the error flag of the input stream is set, `push`
transmits exactly one segment, with RST set, SYN and FIN clear, an empty payload and
`seqno = wrap(current_seq_, zero_point_)`, and leaves the whole state as it is. -/
theorem C18_push_on_error (s : TCPSender) (he : s.input_.error_ = true) :
    s.push = some (s, [{ seqno := Wrap32.wrap s.current_seq_ s.zero_point_, SYN := false,
                         payload := [], FIN := false, RST := true }]) :=
  push_error s he

/-- C18 at a concrete state: the SYN is outstanding and the input stream has an error. -/
theorem C18_push_on_error_witness :
    ({ syn_sent_state with input_ := syn_sent_state.input_.set_error }).push
      = some ({ syn_sent_state with input_ := syn_sent_state.input_.set_error },
          [{ seqno := ⟨6⟩, SYN := false, payload := [], FIN := false, RST := true }]) :=
  C18_push_on_error { syn_sent_state with input_ := syn_sent_state.input_.set_error } rfl

theorem acked_mem (a st : Nat) (l : List TCPSenderMessage) :
    (∀ m ∈ wholly_acked a st l,
        ∃ p ∈ with_starts st l, p.2 = m ∧ p.1 + p.2.sequence_length ≤ a)
      ∧ (∀ m ∈ not_acked a st l,
        ∃ p ∈ with_starts st l, p.2 = m ∧ a < p.1 + p.2.sequence_length) := by
  unfold wholly_acked not_acked
  constructor
  · intro m hm
    obtain ⟨p, hp, rfl⟩ := List.mem_map.1 hm
    obtain ⟨h1, h2⟩ := List.mem_filter.1 hp
    exact ⟨p, h1, rfl, by simpa using h2⟩
  · intro m hm
    obtain ⟨p, hp, rfl⟩ := List.mem_map.1 hm
    obtain ⟨h1, h2⟩ := List.mem_filter.1 hp
    exact ⟨p, h1, rfl, by simpa using h2⟩

theorem data_sent_state_reachable : SenderReachable data_sent_state :=
  ⟨100, ⟨5⟩, 10,
    [SenderAction.write ['a', 'b', 'c', 'd'], SenderAction.push,
      SenderAction.receive { ackno := some ⟨6⟩, window_size := 4, RST := false },
      SenderAction.push],
    [{ seqno := ⟨5⟩, SYN := true, payload := [], FIN := false, RST := false },
     { seqno := ⟨6⟩, SYN := false, payload := ['a', 'b', 'c', 'd'], FIN := false,
       RST := false }],
    by decide, by decide, by decide⟩

/-- C15 (counterexample): a new sender with `initial_RTO_ms = 2^64 - 1` sends its SYN, has
it acknowledged with a window of 4 and sends `"abcd"` in one segment (`ack_ = 1`,
`current_seq_ = 5`).  A message without RST then acknowledges the absolute sequence number
3: the segment stays outstanding, and the deadline stored is
`current_time + initial_RTO_ms = 0 + (2^64 - 1) = UINT64_MAX`, the mark of the stopped
timer.  The timer is not restarted: a later `tick` transmits nothing. -/
theorem C15_counterexample :
    ((TCPSender.fresh 100 ⟨5⟩ (2 ^ 64 - 1)).run
        [SenderAction.write ['a', 'b', 'c', 'd'], SenderAction.push,
          SenderAction.receive { ackno := some ⟨6⟩, window_size := 4, RST := false },
          SenderAction.push]).map
        (fun r => (r.1.ack_, r.1.unwarp ⟨8⟩, r.1.current_seq_, r.1.current_time_))
      = some (1, 3, 5, 0)
    ∧ ((TCPSender.fresh 100 ⟨5⟩ (2 ^ 64 - 1)).run
        [SenderAction.write ['a', 'b', 'c', 'd'], SenderAction.push,
          SenderAction.receive { ackno := some ⟨6⟩, window_size := 4, RST := false },
          SenderAction.push]).map
        (fun r =>
          ((r.1.receive { ackno := some ⟨8⟩, window_size := 4, RST := false }).ack_,
            (r.1.receive { ackno := some ⟨8⟩, window_size := 4, RST := false }).outstanding_msg_,
            (r.1.receive { ackno := some ⟨8⟩, window_size := 4, RST := false }).expire_time_,
            ((r.1.receive { ackno := some ⟨8⟩, window_size := 4, RST := false }).tick
              (2 ^ 64 - 1)).2))
      = some (3,
          [{ seqno := ⟨6⟩, SYN := false, payload := ['a', 'b', 'c', 'd'], FIN := false,
             RST := false }],
          UINT64_MAX, []) :=
  ⟨by decide, by decide⟩

/-- C15 (amended): for every reachable state and every message without RST whose ackno
unwraps to `a` with `ack_ < a ≤ current_seq_`, the outstanding queue splits into a front
part `acked` of segments wholly acknowledged (absolute seqno + `sequence_length` ≤ `a`) and
a rest `kept` of segments that are not, and `receive` sets `ack_ = a`, keeps exactly `kept`
in the queue, takes the sequence lengths of `acked` off `in_flight`, resets `rto` to the
initial value and `consecutive_retransmissions` to 0, and stores the deadline
`(current_time + initial_RTO_ms) mod 2^64` if `kept` is not empty and `UINT64_MAX`, the
mark of the stopped timer, otherwise; so the timer is running afterwards exactly when
`kept` is not empty and `(current_time + initial_RTO_ms) mod 2^64` is not `UINT64_MAX`.
The window size is the message's. -/
theorem C15_receive_new_ack (s : TCPSender) (hr : SenderReachable s)
    (msg : TCPReceiverMessage) (w : Wrap32) (hrst : msg.RST = false)
    (hack : msg.ackno = some w) (h1 : s.ack_ < s.unwarp w)
    (h2 : s.unwarp w ≤ s.current_seq_) :
    ∃ acked kept, s.outstanding_msg_ = acked ++ kept
      ∧ (∀ m ∈ acked, s.unwarp m.seqno + m.sequence_length ≤ s.unwarp w)
      ∧ (∀ m ∈ kept, s.unwarp w < s.unwarp m.seqno + m.sequence_length)
      ∧ seq_total acked ≤ s.in_flight_cnt_
      ∧ s.receive msg
        = { s with ack_ := s.unwarp w, window_size_ := msg.window_size,
                   outstanding_msg_ := kept,
                   in_flight_cnt_ := s.in_flight_cnt_ - seq_total acked,
                   rto_ := s.initial_RTO_ms_, retrans_cnt_ := 0,
                   expire_time_ := if kept = [] then UINT64_MAX
                                   else u64add s.current_time_ s.initial_RTO_ms_ }
      ∧ (s.receive msg).expire_time_
          = (if kept = [] then 2 ^ 64 - 1
             else (s.current_time_ + s.initial_RTO_ms_) % 2 ^ 64)
      ∧ ((s.receive msg).expire_time_ ≠ UINT64_MAX ↔
          (kept ≠ [] ∧ (s.current_time_ + s.initial_RTO_ms_) % 2 ^ 64 ≠ 2 ^ 64 - 1)) := by
  have h := (reachable_sinv s hr).1
  have hsp := seq_total_split (s.unwarp w) (s.current_seq_ - seq_total s.outstanding_msg_)
    s.outstanding_msg_
  have hmem := acked_mem (s.unwarp w) (s.current_seq_ - seq_total s.outstanding_msg_)
    s.outstanding_msg_
  have hun := unwarp_start s h
  have hi := h.infl
  have hin : seq_total (not_acked (s.unwarp w)
        (s.current_seq_ - seq_total s.outstanding_msg_) s.outstanding_msg_)
      = s.in_flight_cnt_ - seq_total (wholly_acked (s.unwarp w)
        (s.current_seq_ - seq_total s.outstanding_msg_) s.outstanding_msg_) := by omega
  have hrec : s.receive msg
      = { s with ack_ := s.unwarp w, window_size_ := msg.window_size,
                 outstanding_msg_ := not_acked (s.unwarp w)
                   (s.current_seq_ - seq_total s.outstanding_msg_) s.outstanding_msg_,
                 in_flight_cnt_ := s.in_flight_cnt_ - seq_total (wholly_acked (s.unwarp w)
                   (s.current_seq_ - seq_total s.outstanding_msg_) s.outstanding_msg_),
                 rto_ := s.initial_RTO_ms_, retrans_cnt_ := 0,
                 expire_time_ := if not_acked (s.unwarp w)
                     (s.current_seq_ - seq_total s.outstanding_msg_) s.outstanding_msg_ = []
                   then UINT64_MAX else u64add s.current_time_ s.initial_RTO_ms_ } := by
    unfold TCPSender.receive
    simp only [hack, hrst, Bool.false_eq_true, if_false]
    rw [process_ack_spec s _ h ⟨h1, h2⟩, hin]
  refine ⟨wholly_acked (s.unwarp w) (s.current_seq_ - seq_total s.outstanding_msg_)
      s.outstanding_msg_,
    not_acked (s.unwarp w) (s.current_seq_ - seq_total s.outstanding_msg_)
      s.outstanding_msg_, (acked_split _ _ _).symm, ?_, ?_, by omega, hrec, ?_, ?_⟩
  · intro m hm
    obtain ⟨p, hp, rfl, hle⟩ := hmem.1 m hm
    rw [hun p hp]; exact hle
  · intro m hm
    obtain ⟨p, hp, rfl, hlt⟩ := hmem.2 m hm
    rw [hun p hp]; exact hlt
  · rw [hrec]
    rfl
  · rw [hrec]
    simp only
    by_cases hk : not_acked (s.unwarp w) (s.current_seq_ - seq_total s.outstanding_msg_)
        s.outstanding_msg_ = []
    · simp [hk]
    · simp [hk, u64add, UINT64_MAX]

/-- C15 (amended) at a concrete state: `"abcd"` is outstanding in one segment at the
absolute sequence numbers 1 to 4 (ISN 5, `ack_ = 1`, `current_seq_ = 5`, clock 0, initial
RTO 10) and a message acknowledges the absolute sequence number 3 (ackno 8) with a window
of 4. -/
theorem C15_receive_new_ack_witness :
    SenderReachable data_sent_state
      ∧ data_sent_state.ack_ < data_sent_state.unwarp ⟨8⟩
      ∧ data_sent_state.unwarp ⟨8⟩ ≤ data_sent_state.current_seq_
      ∧ ∃ acked kept, data_sent_state.outstanding_msg_ = acked ++ kept
        ∧ (∀ m ∈ acked, data_sent_state.unwarp m.seqno + m.sequence_length
            ≤ data_sent_state.unwarp ⟨8⟩)
        ∧ (∀ m ∈ kept, data_sent_state.unwarp ⟨8⟩
            < data_sent_state.unwarp m.seqno + m.sequence_length)
        ∧ seq_total acked ≤ data_sent_state.in_flight_cnt_
        ∧ data_sent_state.receive { ackno := some ⟨8⟩, window_size := 4, RST := false }
          = { data_sent_state with
                ack_ := data_sent_state.unwarp ⟨8⟩, window_size_ := 4,
                outstanding_msg_ := kept,
                in_flight_cnt_ := data_sent_state.in_flight_cnt_ - seq_total acked,
                rto_ := data_sent_state.initial_RTO_ms_, retrans_cnt_ := 0,
                expire_time_ := if kept = [] then UINT64_MAX
                  else u64add data_sent_state.current_time_
                    data_sent_state.initial_RTO_ms_ }
        ∧ (data_sent_state.receive
              { ackno := some ⟨8⟩, window_size := 4, RST := false }).expire_time_
            = (if kept = [] then 2 ^ 64 - 1
               else (data_sent_state.current_time_ + data_sent_state.initial_RTO_ms_)
                 % 2 ^ 64)
        ∧ ((data_sent_state.receive
              { ackno := some ⟨8⟩, window_size := 4, RST := false }).expire_time_
              ≠ UINT64_MAX ↔
            (kept ≠ [] ∧ (data_sent_state.current_time_ + data_sent_state.initial_RTO_ms_)
              % 2 ^ 64 ≠ 2 ^ 64 - 1)) :=
  ⟨data_sent_state_reachable, by decide, by decide,
    C15_receive_new_ack data_sent_state data_sent_state_reachable
      { ackno := some ⟨8⟩, window_size := 4, RST := false } ⟨8⟩ rfl rfl (by decide)
      (by decide)⟩

/-- The result of the C15 example: the segment stays outstanding, `ack_` is 3, the deadline
is 10 and the timer is running; acknowledging the whole segment (ackno 10) empties the
queue and stops the timer. -/
theorem receive_partial_ack_example :
    data_sent_state.receive { ackno := some ⟨8⟩, window_size := 4, RST := false }
        = { data_sent_state with ack_ := 3 }
      ∧ data_sent_state.receive { ackno := some ⟨10⟩, window_size := 4, RST := false }
        = { data_sent_state with ack_ := 5, outstanding_msg_ := [], in_flight_cnt_ := 0,
                                 expire_time_ := UINT64_MAX } := by
  decide

/-- C17 (counterexample): the SYN is outstanding (ISN 5) and a message with RST and ackno 6
arrives: `receive` processes the ackno, so `ack_` goes from 0 to 1, the queue empties,
`in_flight` goes from 1 to 0 and the timer goes from the deadline 10 to stopped. -/
theorem C17_counterexample :
    ((TCPSender.fresh 100 ⟨5⟩ 10).run [SenderAction.push]).map
        (fun r =>
          ((r.1.ack_, r.1.outstanding_msg_, r.1.in_flight_cnt_, r.1.expire_time_),
            ((r.1.receive { ackno := some ⟨6⟩, window_size := 1, RST := true }).ack_,
              (r.1.receive { ackno := some ⟨6⟩, window_size := 1, RST := true }).outstanding_msg_,
              (r.1.receive { ackno := some ⟨6⟩, window_size := 1, RST := true }).in_flight_cnt_,
              (r.1.receive { ackno := some ⟨6⟩, window_size := 1, RST := true }).expire_time_)))
      = some ((0, [{ seqno := ⟨5⟩, SYN := true, payload := [], FIN := false, RST := false }],
                1, 10),
              (1, [], 0, UINT64_MAX)) := by
  decide

/-- C17 (amended): for every state and every message with RST set, `receive` sets the error
flag of the input stream and otherwise does what it does for the same message without RST:
the ackno is processed.  When the message carries no ackno, or one that does not unwrap to
a value in `(ack_, current_seq_]`, only the window size and the error flag change. -/
theorem C17_receive_reset (s : TCPSender) (msg : TCPReceiverMessage) (hrst : msg.RST = true) :
    (s.receive msg).input_.error_ = true
      ∧ s.receive msg
        = { s.receive { msg with RST := false } with
              input_ := (s.receive { msg with RST := false }).input_.set_error }
      ∧ ((msg.ackno = none ∨ ∃ w, msg.ackno = some w
            ∧ ¬ (s.ack_ < s.unwarp w ∧ s.unwarp w ≤ s.current_seq_)) →
          s.receive msg
            = { s with window_size_ := msg.window_size, input_ := s.input_.set_error }) := by
  refine ⟨?_, ?_, ?_⟩
  · unfold TCPSender.receive
    simp only [hrst, if_true]
    rfl
  · unfold TCPSender.receive
    simp only [hrst, if_true, Bool.false_eq_true, if_false]
  · intro hno
    unfold TCPSender.receive
    rcases hno with hn | ⟨w, hw, hnot⟩
    · simp only [hn, hrst, if_true]
    · simp only [hw, hrst, if_true]
      rw [process_ack_skip s _ hnot]

/-- C17 (amended) at a concrete state: the SYN is outstanding and a reset without ackno
arrives. -/
theorem C17_receive_reset_witness :
    (syn_sent_state.receive { ackno := none, window_size := 2, RST := true }).input_.error_
        = true
      ∧ syn_sent_state.receive { ackno := none, window_size := 2, RST := true }
        = { syn_sent_state.receive { ackno := none, window_size := 2, RST := false } with
              input_ := (syn_sent_state.receive
                { ackno := none, window_size := 2, RST := false }).input_.set_error }
      ∧ syn_sent_state.receive { ackno := none, window_size := 2, RST := true }
          = { syn_sent_state with window_size_ := 2,
                                  input_ := syn_sent_state.input_.set_error } :=
  ⟨(C17_receive_reset syn_sent_state { ackno := none, window_size := 2, RST := true } rfl).1,
    (C17_receive_reset syn_sent_state { ackno := none, window_size := 2, RST := true } rfl).2.1,
    (C17_receive_reset syn_sent_state { ackno := none, window_size := 2, RST := true }
      rfl).2.2 (Or.inl rfl)⟩

/-! ## C20: the order of the segments that `push` transmits -/

/-- C20: every sequence of fewer than `2 ^ 48` `push`, `receive` and `tick` calls on a new
TCPSender (with writes to and closing of its input stream in between, and arguments that
fit their C++ types) runs to its end; if the input stream has no error at the end, then `current_seq_`
(the next sequence number) is the sum of the sequence lengths of the segments that `push`
transmitted, every such segment has `sequence_length ≥ 1` and
`seqno = wrap(sum of the sequence lengths of the segments before it, isn)`, these sums are
strictly increasing, the first segment has `seqno = isn` and SYN set, and every later one
has SYN clear.  As the sequence of calls is arbitrary, this holds after every call. -/
theorem C20_segments_in_sequence_order (capacity : Nat) (isn : Wrap32)
    (initial_RTO_ms : Nat) (actions : List SenderAction)
    (hisn : isn.raw_value_ < 2 ^ 32) (hlen : actions.length < 2 ^ 48)
    (hwf : ∀ a ∈ actions, a.wf) :
    ∃ s sent, (TCPSender.fresh capacity isn initial_RTO_ms).run actions = some (s, sent)
      ∧ (s.input_.error_ = false →
          s.current_seq_ = seq_total sent
            ∧ ∀ i (hi : i < sent.length),
                1 ≤ (sent.get ⟨i, hi⟩).sequence_length
                  ∧ (sent.get ⟨i, hi⟩).seqno = Wrap32.wrap (seq_total (sent.take i)) isn
                  ∧ seq_total (sent.take (i + 1))
                      = seq_total (sent.take i) + (sent.get ⟨i, hi⟩).sequence_length
                  ∧ (i = 0 → (sent.get ⟨i, hi⟩).seqno = isn ∧ (sent.get ⟨i, hi⟩).SYN = true)
                  ∧ (0 < i → (sent.get ⟨i, hi⟩).SYN = false)) := by
  obtain ⟨s, sent, e, _, _, c, _⟩ :=
    fresh_run_spec capacity isn initial_RTO_ms actions hlen hwf
  refine ⟨s, sent, e, ?_⟩
  intro hne
  obtain ⟨hchain, hseq⟩ := c hne
  refine ⟨hseq, ?_⟩
  intro i hi
  obtain ⟨a1, a2, a3, _, _, a6⟩ := chain_index isn 0 sent hchain i hi
  rw [Nat.zero_add] at a1 a3
  refine ⟨a2, a1, ?_, ?_, ?_⟩
  · rw [List.take_succ, seq_total_append]
    simp [seq_total, List.getElem?_eq_getElem hi]
  · intro hi0
    subst hi0
    have hw : Wrap32.wrap 0 isn = isn := by
      unfold Wrap32.wrap
      cases isn
      simp only [Wrap32.mk.injEq] at hisn ⊢
      omega
    refine ⟨by rw [a1]; simpa [seq_total] using hw, a3.2 (by simp [seq_total])⟩
  · intro hpos
    cases hs : (sent.get ⟨i, hi⟩).SYN with
    | false => rfl
    | true =>
      have := a3.1 hs
      omega

/-- C20 at concrete inputs: ISN `2^32 − 1`; the SYN goes out alone in the initial window of
1, is acknowledged with a window of 3, and the three bytes written go out in one segment
whose seqno has wrapped to 0. -/
theorem C20_segments_in_sequence_order_witness :
    (⟨2 ^ 32 - 1⟩ : Wrap32).raw_value_ < 2 ^ 32
      ∧ [SenderAction.write ['a', 'b', 'c'], SenderAction.push,
          SenderAction.receive { ackno := some ⟨0⟩, window_size := 3, RST := false },
          SenderAction.push].length < 2 ^ 48
      ∧ (∀ a ∈ [SenderAction.write ['a', 'b', 'c'], SenderAction.push,
          SenderAction.receive { ackno := some ⟨0⟩, window_size := 3, RST := false },
          SenderAction.push], a.wf)
      ∧ ∃ s sent, (TCPSender.fresh 100 ⟨2 ^ 32 - 1⟩ 10).run
          [SenderAction.write ['a', 'b', 'c'], SenderAction.push,
            SenderAction.receive { ackno := some ⟨0⟩, window_size := 3, RST := false },
            SenderAction.push] = some (s, sent)
        ∧ (s.input_.error_ = false →
            s.current_seq_ = seq_total sent
              ∧ ∀ i (hi : i < sent.length),
                  1 ≤ (sent.get ⟨i, hi⟩).sequence_length
                    ∧ (sent.get ⟨i, hi⟩).seqno
                        = Wrap32.wrap (seq_total (sent.take i)) ⟨2 ^ 32 - 1⟩
                    ∧ seq_total (sent.take (i + 1))
                        = seq_total (sent.take i) + (sent.get ⟨i, hi⟩).sequence_length
                    ∧ (i = 0 → (sent.get ⟨i, hi⟩).seqno = ⟨2 ^ 32 - 1⟩
                        ∧ (sent.get ⟨i, hi⟩).SYN = true)
                    ∧ (0 < i → (sent.get ⟨i, hi⟩).SYN = false)) :=
  ⟨by decide, by decide, by decide,
    C20_segments_in_sequence_order 100 ⟨2 ^ 32 - 1⟩ 10 _ (by decide) (by decide) (by decide)⟩

/-- The run of the C20 example: the segments transmitted and the next sequence number. -/
theorem run_wrapping_example :
    ((TCPSender.fresh 100 ⟨2 ^ 32 - 1⟩ 10).run
        [SenderAction.write ['a', 'b', 'c'], SenderAction.push,
          SenderAction.receive { ackno := some ⟨0⟩, window_size := 3, RST := false },
          SenderAction.push]).map (fun r => (r.2, r.1.current_seq_, r.1.input_.error_))
      = some ([{ seqno := ⟨2 ^ 32 - 1⟩, SYN := true, payload := [], FIN := false,
                 RST := false },
               { seqno := ⟨0⟩, SYN := false, payload := ['a', 'b', 'c'], FIN := false,
                 RST := false }], 4, false) := by
  decide

/-! ## The sender: the FIN flag -/

theorem finSpec_silent (s s1 : TCPSender) (hf : s1.is_fin_sent = s.is_fin_sent)
    (hc : s1.current_seq_ = s.current_seq_) : FinSpec s s1 [] :=
  { keep := fun h => ⟨by rw [hf]; exact h, hc, rfl, fun _ => rfl⟩,
    count := fun h => by rw [hf, h]; rfl,
    last := by intro _ pre m post he; simp at he }

theorem finSpec_then {s s1 s2 : TCPSender} {p q : List TCPSenderMessage}
    (h1 : FinSpec s s1 p) (h2 : FinSpec s1 s2 q)
    (herr : s2.input_.error_ = false → s1.input_.error_ = false) :
    FinSpec s s2 (p ++ q) := by
  refine { keep := ?_, count := ?_, last := ?_ }
  · intro hf
    obtain ⟨a1, a2, a3, a4⟩ := h1.keep hf
    obtain ⟨b1, b2, b3, b4⟩ := h2.keep a1
    refine ⟨b1, by rw [b2, a2], by rw [fin_count_append, a3, b3], ?_⟩
    intro he
    rw [a4 (herr he), b4 he]
    rfl
  · intro hf
    rw [fin_count_append]
    by_cases h1f : s1.is_fin_sent = true
    · obtain ⟨b1, _, b3, _⟩ := h2.keep h1f
      rw [h1.count hf, b3, h1f, b1]
      simp
    · have h1f2 : s1.is_fin_sent = false := by simpa using h1f
      rw [h1.count hf, h2.count h1f2, h1f2]
      simp
  · intro he pre m post hpq hm
    rcases List.append_eq_append_iff.1 hpq with ⟨c, _, hc2⟩ | ⟨a, ha1, ha2⟩
    · exact h2.last he c m post hc2 hm
    · cases a with
      | nil => exact h2.last he [] m post (by simpa using ha2.symm) hm
      | cons x a2 =>
        simp only [List.cons_append, List.cons.injEq] at ha2
        obtain ⟨hx, hpost⟩ := ha2
        subst hx
        have hl := h1.last (herr he) pre m a2 ha1 hm
        have hmem : m ∈ p := by rw [ha1]; simp
        have hpos := fin_count_pos p m hmem hm
        have hs1 : s1.is_fin_sent = true := by
          cases hsf : s.is_fin_sent with
          | true =>
            have := (h1.keep hsf).2.2.1
            omega
          | false =>
            have hc := h1.count hsf
            cases hs1 : s1.is_fin_sent with
            | true => rfl
            | false => rw [hs1] at hc; simp at hc; omega
        rw [hpost, hl, (h2.keep hs1).2.2.2 he]
        rfl

theorem process_ack_fin (s : TCPSender) (a : Nat) (h : SInv s) :
    (s.process_ack a).is_fin_sent = s.is_fin_sent := by
  by_cases ha : a > s.ack_ ∧ a ≤ s.current_seq_
  · rw [process_ack_spec s a h ha]
  · rw [process_ack_skip s a ha]

theorem receive_fin (s : TCPSender) (msg : TCPReceiverMessage) (h : SInv s) :
    (s.receive msg).is_fin_sent = s.is_fin_sent := by
  unfold TCPSender.receive
  cases hack : msg.ackno with
  | none =>
    simp only
    split <;> rfl
  | some w =>
    have := process_ack_fin s (s.unwarp w) h
    simp only
    split <;> exact this

theorem tick_fin (s : TCPSender) (ms : Nat) : (s.tick ms).1.is_fin_sent = s.is_fin_sent := by
  unfold TCPSender.tick
  simp only
  split
  · split <;> rfl
  · rfl

theorem step_fin (s : TCPSender) (a : SenderAction) (h : SInv s)
    (hroom : s.current_seq_ + 65535 < 2 ^ 64) (s1 : TCPSender)
    (p t : List TCPSenderMessage) (hstep : s.step a = some (s1, p, t)) : FinSpec s s1 p := by
  cases a with
  | push =>
    cases he : s.input_.error_ with
    | true =>
      simp only [TCPSender.step, push_error s he, Option.map_some', Option.some.injEq,
        Prod.mk.injEq] at hstep
      obtain ⟨e1, e2, _⟩ := hstep
      subst e1
      subst e2
      refine { keep := ?_, count := ?_, last := ?_ }
      · intro hf
        refine ⟨hf, rfl, by simp [fin_count], ?_⟩
        intro h0; rw [he] at h0; cases h0
      · intro hf
        rw [hf]
        simp [fin_count]
      · intro h0; rw [he] at h0; cases h0
    | false =>
      have hsyn : s.current_seq_ = 0 → s.in_flight_cnt_ = 0 := by
        intro h0
        have := h.le
        have := h.infl
        omega
      obtain ⟨s2, out, h1, h2⟩ := push_spec s he h.wnd hsyn h.fin hroom
      simp only [TCPSender.step, h1, Option.map_some', Option.some.injEq,
        Prod.mk.injEq] at hstep
      obtain ⟨e1, e2, _⟩ := hstep
      subst e1
      subst e2
      refine { keep := ?_, count := h2.fincount, last := fun _ => h2.lastfin }
      intro hf
      obtain ⟨a1, a2⟩ := h2.finkeep hf
      rw [a1, a2]
      exact ⟨hf, rfl, rfl, fun _ => rfl⟩
  | receive msg =>
    simp only [TCPSender.step, Option.some.injEq, Prod.mk.injEq] at hstep
    obtain ⟨e1, e2, _⟩ := hstep
    subst e1
    subst e2
    exact finSpec_silent s _ (receive_fin s msg h) (receive_frame s msg h).1
  | tick ms =>
    simp only [TCPSender.step, Option.some.injEq, Prod.mk.injEq] at hstep
    obtain ⟨e1, e2, _⟩ := hstep
    subst e1
    subst e2
    exact finSpec_silent s _ (tick_fin s ms) (tick_frame s ms).1
  | write data =>
    simp only [TCPSender.step, Option.some.injEq, Prod.mk.injEq] at hstep
    obtain ⟨e1, e2, _⟩ := hstep
    subst e1
    subst e2
    exact finSpec_silent s _ rfl rfl
  | close =>
    simp only [TCPSender.step, Option.some.injEq, Prod.mk.injEq] at hstep
    obtain ⟨e1, e2, _⟩ := hstep
    subst e1
    subst e2
    exact finSpec_silent s _ rfl rfl

theorem run_fin (actions : List SenderAction) (s : TCPSender) (h : SInv s) (k : Nat)
    (hk : s.current_seq_ ≤ 65535 * k) (hlen : k + actions.length ≤ 2 ^ 48)
    (hwf : ∀ a ∈ actions, a.wf) (s2 : TCPSender) (sent : List TCPSenderMessage)
    (hrun : s.run actions = some (s2, sent)) : FinSpec s s2 sent := by
  induction actions generalizing s k sent with
  | nil =>
    simp only [TCPSender.run, Option.some.injEq, Prod.mk.injEq] at hrun
    obtain ⟨e1, e2⟩ := hrun
    subst e1
    subst e2
    exact finSpec_silent s s rfl rfl
  | cons a rest ih =>
    simp only [List.length_cons] at hlen
    obtain ⟨s1, p, t, e1, i1, _, r1, _, _⟩ :=
      step_spec s a h (hwf a (List.mem_cons_self _ _)) (by omega)
    obtain ⟨s3, more, e2, _, _, _, c2, _⟩ :=
      run_spec rest s1 i1 (k + 1) (by omega) (by omega)
        (fun b hb => hwf b (List.mem_cons_of_mem _ hb))
    simp only [TCPSender.run, e1, e2, Option.some.injEq, Prod.mk.injEq] at hrun
    obtain ⟨h3, hs⟩ := hrun
    subst h3
    subst hs
    have f1 := step_fin s a h (by omega) s1 p t e1
    have f2 := ih s1 i1 (k + 1) (by omega) (by omega)
      (fun b hb => hwf b (List.mem_cons_of_mem _ hb)) more e2
    exact finSpec_then f1 f2 (fun he => (c2 he).1)

theorem sender_run_append (a b : List SenderAction) (s s1 s2 : TCPSender)
    (p q : List TCPSenderMessage) (h1 : s.run a = some (s1, p))
    (h2 : s1.run b = some (s2, q)) : s.run (a ++ b) = some (s2, p ++ q) := by
  induction a generalizing s p with
  | nil =>
    simp only [TCPSender.run, Option.some.injEq, Prod.mk.injEq] at h1
    obtain ⟨e1, e2⟩ := h1
    subst e1
    subst e2
    simpa using h2
  | cons x rest ih =>
    simp only [TCPSender.run] at h1
    cases hx : s.step x with
    | none => rw [hx] at h1; simp at h1
    | some r =>
      obtain ⟨sx, px, tx⟩ := r
      rw [hx] at h1
      simp only at h1
      cases hr : sx.run rest with
      | none => rw [hr] at h1; simp at h1
      | some r2 =>
        obtain ⟨sr, pr⟩ := r2
        rw [hr] at h1
        simp only [Option.some.injEq, Prod.mk.injEq] at h1
        obtain ⟨e1, e2⟩ := h1
        subst e1
        subst e2
        have := ih sx pr hr
        have eapp : rest.append b = rest ++ b := rfl
        simp only [List.cons_append, TCPSender.run, hx, eapp, this, List.append_assoc]

/-! ## C21: the FIN discipline of `push` -/

theorem fin_count_exists (l : List TCPSenderMessage) (h : 1 ≤ fin_count l) :
    ∃ m ∈ l, m.FIN = true := by
  unfold fin_count at h
  obtain ⟨m, hm⟩ := List.exists_mem_of_length_pos h
  obtain ⟨h1, h2⟩ := List.mem_filter.1 hm
  exact ⟨m, h1, h2⟩

/-- C21: let a new TCPSender go through the calls `before` and then the calls `after`
(`push`, `receive`, `tick`, writes to and closing of the input stream; fewer than `2 ^ 48`
calls in all, with arguments that fit their C++ types).  All calls return.  Among the
segments that `push` transmitted in the whole run at most one carries FIN, and the flag
`is_fin_sent` is set after `before` exactly when one of the segments transmitted so far
carries FIN.  If it is set, then during `after` `current_seq_` does not change, no segment
with FIN is transmitted, and without a stream error `push` transmits nothing at all.  A
`push` in the state after `before`, on a stream without error, returns; if FIN was sent
before it transmits nothing and changes nothing; and if it transmits a segment `m` with
FIN, then FIN was not sent before, `m` is the last segment of this `push`, the input stream
is closed and empty once the payload has been taken from it, and the sequence numbers in
flight before `m` plus its SYN and payload stay below `max(window_size, 1)`. -/
theorem C21_fin_discipline (capacity : Nat) (isn : Wrap32) (initial_RTO_ms : Nat)
    (before after : List SenderAction) (hlen : (before ++ after).length < 2 ^ 48)
    (hwf : ∀ a ∈ before ++ after, a.wf) :
    ∃ s sent s2 sent2,
      (TCPSender.fresh capacity isn initial_RTO_ms).run before = some (s, sent)
        ∧ s.run after = some (s2, sent2)
        ∧ (TCPSender.fresh capacity isn initial_RTO_ms).run (before ++ after)
            = some (s2, sent ++ sent2)
        ∧ fin_count (sent ++ sent2) ≤ 1
        ∧ (s.is_fin_sent = true ↔ ∃ m ∈ sent, m.FIN = true)
        ∧ (s.is_fin_sent = true →
            s2.current_seq_ = s.current_seq_ ∧ s2.is_fin_sent = true
              ∧ (∀ m ∈ sent2, m.FIN = false)
              ∧ (s2.input_.error_ = false → sent2 = []))
        ∧ (s.input_.error_ = false →
            ∃ s3 out, s.push = some (s3, out)
              ∧ (s.is_fin_sent = true → out = [] ∧ s3 = s)
              ∧ ∀ pre m post, out = pre ++ m :: post → m.FIN = true →
                  s.is_fin_sent = false ∧ post = []
                    ∧ s3.input_.closed_ = true ∧ s3.input_.buffer_ = []
                    ∧ s.in_flight_cnt_ + seq_total pre + (if m.SYN then 1 else 0)
                        + m.payload.length < max s.window_size_ 1) := by
  have hl : before.length + after.length < 2 ^ 48 := by
    rw [← List.length_append]; exact hlen
  have hwf1 : ∀ a ∈ before, a.wf := fun a ha => hwf a (List.mem_append_left _ ha)
  have hwf2 : ∀ a ∈ after, a.wf := fun a ha => hwf a (List.mem_append_right _ ha)
  have h0 : (TCPSender.fresh capacity isn initial_RTO_ms).current_seq_ = 0 := unwrap_self isn
  have hf0 : (TCPSender.fresh capacity isn initial_RTO_ms).is_fin_sent = false := rfl
  have hi0 := sinv_fresh capacity isn initial_RTO_ms
  obtain ⟨s, sent, e1, i1, _, r1, _, _⟩ :=
    run_spec before _ hi0 0 (by rw [h0]) (by omega) hwf1
  rw [Nat.zero_add] at r1
  obtain ⟨s2, sent2, e2, _, _, _, c2, _⟩ :=
    run_spec after s i1 before.length r1 (by omega) hwf2
  have f1 := run_fin before _ hi0 0 (by rw [h0]) (by omega) hwf1 s sent e1
  have f2 := run_fin after s i1 before.length r1 (by omega) hwf2 s2 sent2 e2
  have f12 := finSpec_then f1 f2 (fun he => (c2 he).1)
  have hc1 := f1.count hf0
  refine ⟨s, sent, s2, sent2, e1, e2, sender_run_append _ _ _ _ _ _ _ e1 e2, ?_, ?_, ?_, ?_⟩
  · rw [f12.count hf0]
    split <;> omega
  · constructor
    · intro hs
      rw [hs] at hc1
      exact fin_count_exists sent (by rw [hc1]; simp)
    · rintro ⟨m, hm, hfin⟩
      have := fin_count_pos sent m hm hfin
      cases hs : s.is_fin_sent with
      | true => rfl
      | false => rw [hs] at hc1; simp at hc1; omega
  · intro hs
    obtain ⟨a1, a2, a3, a4⟩ := f2.keep hs
    exact ⟨a2, a1, fin_count_zero sent2 a3, a4⟩
  · intro he
    have hsyn : s.current_seq_ = 0 → s.in_flight_cnt_ = 0 := by
      intro hz
      have := i1.le
      have := i1.infl
      omega
    obtain ⟨s3, out, p1, p2⟩ := push_spec s he i1.wnd hsyn i1.fin (by omega)
    refine ⟨s3, out, p1, fun hs => ⟨(p2.finkeep hs).2, (p2.finkeep hs).1⟩, ?_⟩
    intro pre m post hout hm
    have hmem : m ∈ out := by rw [hout]; simp
    have hs : s.is_fin_sent = false := by
      cases hsf : s.is_fin_sent with
      | false => rfl
      | true =>
        have := (p2.finkeep hsf).2
        rw [this] at hmem
        simp at hmem
    have hs3 : s3.is_fin_sent = true := by
      have hc := p2.fincount hs
      have := fin_count_pos out m hmem hm
      cases h3 : s3.is_fin_sent with
      | true => rfl
      | false => rw [h3] at hc; simp at hc; omega
    have heff : s.window_size_ + (if s.window_size_ = 0 then 1 else 0)
        = max s.window_size_ 1 := by
      rw [Nat.max_def]
      split <;> split <;> omega
    have hflow := p2.flow
    rw [heff, hout, flowFrom_append] at hflow
    have hb := hflow.2.1
    have hlenm : m.sequence_length = (if m.SYN then 1 else 0) + m.payload.length + 1 := by
      unfold TCPSenderMessage.sequence_length
      rw [hm]
      rfl
    refine ⟨hs, p2.lastfin pre m post hout hm, (p2.fin hs3).1, (p2.fin hs3).2, ?_⟩
    rw [hlenm] at hb
    omega

/-- C21 at concrete inputs: `"ab"` is written and the stream closed; the SYN goes out alone
in the window of 1, is acknowledged with a window of 5, and the next `push` sends `"ab"`
with FIN.  Two more `push` calls and a `tick` follow. -/
theorem C21_fin_discipline_witness :
    ([SenderAction.write ['a', 'b'], SenderAction.close, SenderAction.push,
        SenderAction.receive { ackno := some ⟨6⟩, window_size := 5, RST := false },
        SenderAction.push]
        ++ [SenderAction.push, SenderAction.tick 10, SenderAction.push]).length < 2 ^ 48
      ∧ (∀ a ∈ [SenderAction.write ['a', 'b'], SenderAction.close, SenderAction.push,
          SenderAction.receive { ackno := some ⟨6⟩, window_size := 5, RST := false },
          SenderAction.push]
          ++ [SenderAction.push, SenderAction.tick 10, SenderAction.push], a.wf)
      ∧ ∃ s sent s2 sent2,
        (TCPSender.fresh 100 ⟨5⟩ 10).run
            [SenderAction.write ['a', 'b'], SenderAction.close, SenderAction.push,
              SenderAction.receive { ackno := some ⟨6⟩, window_size := 5, RST := false },
              SenderAction.push] = some (s, sent)
          ∧ s.run [SenderAction.push, SenderAction.tick 10, SenderAction.push]
              = some (s2, sent2)
          ∧ (TCPSender.fresh 100 ⟨5⟩ 10).run
              ([SenderAction.write ['a', 'b'], SenderAction.close, SenderAction.push,
                SenderAction.receive { ackno := some ⟨6⟩, window_size := 5, RST := false },
                SenderAction.push]
                ++ [SenderAction.push, SenderAction.tick 10, SenderAction.push])
              = some (s2, sent ++ sent2)
          ∧ fin_count (sent ++ sent2) ≤ 1
          ∧ (s.is_fin_sent = true ↔ ∃ m ∈ sent, m.FIN = true)
          ∧ (s.is_fin_sent = true →
              s2.current_seq_ = s.current_seq_ ∧ s2.is_fin_sent = true
                ∧ (∀ m ∈ sent2, m.FIN = false)
                ∧ (s2.input_.error_ = false → sent2 = []))
          ∧ (s.input_.error_ = false →
              ∃ s3 out, s.push = some (s3, out)
                ∧ (s.is_fin_sent = true → out = [] ∧ s3 = s)
                ∧ ∀ pre m post, out = pre ++ m :: post → m.FIN = true →
                    s.is_fin_sent = false ∧ post = []
                      ∧ s3.input_.closed_ = true ∧ s3.input_.buffer_ = []
                      ∧ s.in_flight_cnt_ + seq_total pre + (if m.SYN then 1 else 0)
                          + m.payload.length < max s.window_size_ 1) :=
  ⟨by decide, by decide, C21_fin_discipline 100 ⟨5⟩ 10 _ _ (by decide) (by decide)⟩

/-- The run of the C21 example: the segments that `push` transmitted before and after FIN
was sent, the flag and the next sequence number. -/
theorem run_fin_example :
    ((TCPSender.fresh 100 ⟨5⟩ 10).run
        [SenderAction.write ['a', 'b'], SenderAction.close, SenderAction.push,
          SenderAction.receive { ackno := some ⟨6⟩, window_size := 5, RST := false },
          SenderAction.push]).map
        (fun r => (r.2, r.1.is_fin_sent, r.1.current_seq_,
          (r.1.run [SenderAction.push, SenderAction.tick 10, SenderAction.push]).map
            (fun r2 => (r2.2, r2.1.current_seq_))))
      = some ([{ seqno := ⟨5⟩, SYN := true, payload := [], FIN := false, RST := false },
               { seqno := ⟨6⟩, SYN := false, payload := ['a', 'b'], FIN := true,
                 RST := false }], true, 4, some ([], 4)) := by
  decide

end CS144
